import Mathlib

/-!
# Verification of the maximum-clique benchmarking suite

A shallow embedding of the graph substrate and the exact clique solvers of
the repository (graph.cpp, bron_kerbosch.cpp, tomita.cpp / greedy.cpp,
degeneracy_bk.cpp, ostergard.cpp, cpu_optimized.cpp, bbmc.cpp), together
with proofs of the specified properties.

Modelling conventions:
* C++ `int` vertex ids are modelled as `ℕ` where the code guarantees
  non-negativity, and as `ℤ` at the loader / `add_edge` boundary where the
  sign check matters.
* `std::unordered_set<int>` is modelled as `Finset ℕ`; its (unspecified)
  iteration order is modelled as ascending vertex id, matching the
  deterministic bitset scan of cpu_optimized.cpp.
* `std::sort` with a strict comparator leaves the order of tied elements
  unspecified; it is modelled as an insertion sort that keeps tied elements
  in their original relative order.
* Exceptions are modelled with `Except`; `std::out_of_range` and
  `std::runtime_error` become the corresponding `GraphError` values.
* Every loop is modelled by structural recursion (on a fuel counter that
  bounds the number of iterations exactly as the C++ loop bound does),
  so all definitions are executable and kernel-reducible.
-/

/-- Error kinds raised by the substrate, following the error taxonomy of the
spec (§7).  The C++ code itself only ever throws `std::out_of_range`
(modelled `outOfRange`) and `std::runtime_error` (modelled `runtimeError`);
`invalidInput` is included so that spec-level statements about
`ErrorKind::InvalidInput` can be expressed. -/
inductive GraphError where
  | outOfRange : GraphError
  | runtimeError : GraphError
  | invalidInput : GraphError
deriving DecidableEq, Repr

/-- State of the C++ `Graph` class: vertex count `n`, edge counter `m`,
the dense adjacency matrix `adj_matrix` and the per-vertex neighbor sets
`adj_list`. -/
structure Graph where
  n : ℕ
  m : ℕ
  adjm : ℕ → ℕ → Bool
  adjl : ℕ → Finset ℕ

/-- `Graph::Graph(int n)`: empty adjacency, zero edges. -/
def Graph.init (n : ℕ) : Graph :=
  { n := n, m := 0, adjm := fun _ _ => false, adjl := fun _ => ∅ }

/-- `Graph::has_edge(u, v)`: matrix lookup, `false` out of range. -/
def Graph.has_edge (g : Graph) (u v : ℕ) : Bool :=
  if u < g.n ∧ v < g.n then g.adjm u v else false

/-- `Graph::get_neighbors(v)` (the in-range case; all call sites in the
solvers query vertices `< n`). -/
def Graph.get_neighbors (g : Graph) (v : ℕ) : Finset ℕ :=
  g.adjl v

/-- `Graph::get_degree(v)` = `adj_list[v].size()`. -/
def Graph.get_degree (g : Graph) (v : ℕ) : ℕ :=
  (g.adjl v).card

/-- `Graph::num_vertices()`. -/
def Graph.num_vertices (g : Graph) : ℕ := g.n

/-- `Graph::num_edges()`. -/
def Graph.num_edges (g : Graph) : ℕ := g.m

/-- `Graph::add_edge(int u, int v)`: bounds check (a negative or too large
id throws `std::out_of_range`), then insert the edge into both adjacency
structures unless it is already present. -/
def Graph.insertEdge (g : Graph) (un vn : ℕ) : Graph :=
  { n := g.n
    m := g.m + 1
    adjm := fun a b =>
      if (a = un ∧ b = vn) ∨ (a = vn ∧ b = un) then true else g.adjm a b
    adjl := fun a =>
      if a = un then insert vn (g.adjl a)
      else if a = vn then insert un (g.adjl a)
      else g.adjl a }

def Graph.add_edge (g : Graph) (u v : ℤ) : Except GraphError Graph :=
  if u < 0 ∨ (g.n : ℤ) ≤ u ∨ v < 0 ∨ (g.n : ℤ) ≤ v then
    .error .outOfRange
  else
    if g.adjm u.toNat v.toNat then .ok g
    else .ok (g.insertEdge u.toNat v.toNat)

/-- Cliques over an abstract boolean adjacency predicate: every pair of
distinct members is adjacent.  `Graph::is_clique` instantiates this with
`Graph.has_edge`. -/
def AClique (adj : ℕ → ℕ → Bool) (K : Finset ℕ) : Prop :=
  ∀ u ∈ K, ∀ v ∈ K, u ≠ v → adj u v = true

instance (adj : ℕ → ℕ → Bool) (K : Finset ℕ) : Decidable (AClique adj K) := by
  unfold AClique; infer_instance

/-- `Graph::is_clique(K)`: all pairs of distinct vertices of `K` are joined
by `has_edge`. -/
def Graph.is_clique (g : Graph) (K : Finset ℕ) : Prop :=
  AClique g.has_edge K

instance (g : Graph) (K : Finset ℕ) : Decidable (g.is_clique K) := by
  unfold Graph.is_clique; infer_instance

/-- A maximal clique over an abstract adjacency with vertex domain
`[0, n)`: a clique that no vertex of the domain can extend. -/
def AMaximal (n : ℕ) (adj : ℕ → ℕ → Bool) (K : Finset ℕ) : Prop :=
  AClique adj K ∧ K ⊆ Finset.range n ∧
    ∀ w ∈ Finset.range n, w ∉ K → ¬ AClique adj (insert w K)

/-- The maximum clique number over vertex domain `[0, n)`. -/
def omegaA (n : ℕ) (adj : ℕ → ℕ → Bool) : ℕ :=
  (((Finset.range n).powerset).filter (fun K => AClique adj K)).sup Finset.card

/-- `ω(G)` for a graph state, in terms of `has_edge`. -/
def Graph.omega (g : Graph) : ℕ :=
  omegaA g.n g.has_edge

/-- Well-formedness of a graph state on its vertex range: the matrix is
symmetric and irreflexive, matrix and neighbor lists agree (spec invariant
I-1 on the range), and neighbor lists stay inside the range.  This is a
bounded (hence decidable) predicate. -/
def Graph.WFb (g : Graph) : Prop :=
  (∀ u ∈ Finset.range g.n, ∀ v ∈ Finset.range g.n, g.adjm u v = g.adjm v u) ∧
  (∀ v ∈ Finset.range g.n, g.adjm v v = false) ∧
  (∀ u ∈ Finset.range g.n, ∀ v ∈ Finset.range g.n,
      (v ∈ g.adjl u ↔ g.adjm u v = true)) ∧
  (∀ u ∈ Finset.range g.n, g.adjl u ⊆ Finset.range g.n)

instance (g : Graph) : Decidable g.WFb := by
  unfold Graph.WFb; infer_instance

section WFLemmas

variable {g : Graph}

theorem Graph.has_edge_symm (hwf : g.WFb) (u v : ℕ) :
    g.has_edge u v = g.has_edge v u := by
  unfold Graph.has_edge
  by_cases hu : u < g.n
  · by_cases hv : v < g.n
    · simp only [hu, hv, and_self, if_true, true_and]
      exact hwf.1 u (Finset.mem_range.mpr hu) v (Finset.mem_range.mpr hv)
    · simp [hu, hv]
  · simp [hu]

theorem Graph.has_edge_irrefl (hwf : g.WFb) (v : ℕ) :
    g.has_edge v v = false := by
  unfold Graph.has_edge
  by_cases hv : v < g.n
  · simp only [hv, and_self, if_true]
    exact hwf.2.1 v (Finset.mem_range.mpr hv)
  · simp [hv]

theorem Graph.has_edge_lt_left {u v : ℕ} (h : g.has_edge u v = true) :
    u < g.n := by
  unfold Graph.has_edge at h
  by_cases hb : u < g.n ∧ v < g.n
  · exact hb.1
  · simp [hb] at h

theorem Graph.has_edge_lt_right {u v : ℕ} (h : g.has_edge u v = true) :
    v < g.n := by
  unfold Graph.has_edge at h
  by_cases hb : u < g.n ∧ v < g.n
  · exact hb.2
  · simp [hb] at h

theorem Graph.mem_adjl_iff (hwf : g.WFb) {u v : ℕ} (hu : u < g.n) :
    v ∈ g.adjl u ↔ g.has_edge u v = true := by
  constructor
  · intro hv
    have hvr : v < g.n := by
      have := hwf.2.2.2 u (Finset.mem_range.mpr hu) hv
      exact Finset.mem_range.mp this
    have := (hwf.2.2.1 u (Finset.mem_range.mpr hu) v (Finset.mem_range.mpr hvr)).mp hv
    unfold Graph.has_edge
    simp [hu, hvr, this]
  · intro h
    have hvr : v < g.n := Graph.has_edge_lt_right h
    unfold Graph.has_edge at h
    simp only [hu, hvr, and_self, if_true] at h
    exact (hwf.2.2.1 u (Finset.mem_range.mpr hu) v (Finset.mem_range.mpr hvr)).mpr h

theorem Graph.not_mem_adjl_self (hwf : g.WFb) {v : ℕ} (hv : v < g.n) :
    v ∉ g.adjl v := by
  intro hmem
  have := (Graph.mem_adjl_iff hwf hv).mp hmem
  rw [Graph.has_edge_irrefl hwf] at this
  exact Bool.false_ne_true this

theorem Graph.adjl_subset_range (hwf : g.WFb) {v : ℕ} (hv : v < g.n) :
    g.adjl v ⊆ Finset.range g.n :=
  hwf.2.2.2 v (Finset.mem_range.mpr hv)

end WFLemmas

section CliqueLemmas

variable {n : ℕ} {adj : ℕ → ℕ → Bool}

theorem AClique.empty : AClique adj ∅ := by
  intro u hu
  simp at hu

theorem AClique.subset {K K' : Finset ℕ} (hsub : K' ⊆ K) (h : AClique adj K) :
    AClique adj K' :=
  fun u hu v hv huv => h u (hsub hu) v (hsub hv) huv

/-- Extending a clique by a vertex adjacent to all members, assuming the
adjacency is symmetric. -/
theorem AClique.insert_of_adj (hsym : ∀ a b, adj a b = adj b a)
    {K : Finset ℕ} {w : ℕ} (h : AClique adj K)
    (hadj : ∀ u ∈ K, u ≠ w → adj w u = true) :
    AClique adj (insert w K) := by
  intro u hu v hv huv
  rcases Finset.mem_insert.mp hu with hu' | hu'
  · rcases Finset.mem_insert.mp hv with hv' | hv'
    · exact absurd (hu'.trans hv'.symm) huv
    · subst hu'
      exact hadj v hv' (fun h' => huv h'.symm)
  · rcases Finset.mem_insert.mp hv with hv' | hv'
    · subst hv'
      rw [hsym]
      exact hadj u hu' huv
    · exact h u hu' v hv' huv

/-- Every clique inside the vertex range extends to a maximal clique. -/
theorem exists_maximal_superclique
    {K : Finset ℕ} (hK : AClique adj K) (hKr : K ⊆ Finset.range n) :
    ∃ C, AMaximal n adj C ∧ K ⊆ C := by
  -- strong induction on the number of vertices outside K
  have main : ∀ fuel K, AClique adj K → K ⊆ Finset.range n →
      n - K.card ≤ fuel → ∃ C, AMaximal n adj C ∧ K ⊆ C := by
    intro fuel
    induction fuel with
    | zero =>
      intro K hK hKr hle
      refine ⟨K, ⟨hK, hKr, ?_⟩, Finset.Subset.refl K⟩
      intro w hw hwK hclq
      -- n ≤ K.card yet w ∈ range n \ K: contradiction with K ⊆ range n
      have hcard : n ≤ K.card := by omega
      have : K = Finset.range n := Finset.eq_of_subset_of_card_le hKr (by
        simpa [Finset.card_range] using hcard)
      rw [this] at hwK
      exact hwK hw
    | succ fuel ih =>
      intro K hK hKr hle
      by_cases hmax : ∀ w ∈ Finset.range n, w ∉ K → ¬ AClique adj (insert w K)
      · exact ⟨K, ⟨hK, hKr, hmax⟩, Finset.Subset.refl K⟩
      · push_neg at hmax
        obtain ⟨w, hw, hwK, hclq⟩ := hmax
        have hcard : (insert w K).card = K.card + 1 := Finset.card_insert_of_not_mem hwK
        obtain ⟨C, hC, hsub⟩ := ih (insert w K) hclq
          (Finset.insert_subset hw hKr) (by omega)
        exact ⟨C, hC, (Finset.subset_insert w K).trans hsub⟩
  exact main (n - K.card) K hK hKr le_rfl

theorem card_le_omegaA {K : Finset ℕ} (hK : AClique adj K)
    (hKr : K ⊆ Finset.range n) : K.card ≤ omegaA n adj := by
  apply Finset.le_sup
  simp only [Finset.mem_filter, Finset.mem_powerset]
  exact ⟨hKr, hK⟩

theorem omegaA_exists_maximal :
    ∃ C, AMaximal n adj C ∧ C.card = omegaA n adj := by
  classical
  have hne : (((Finset.range n).powerset).filter
      (fun K => AClique adj K)).Nonempty := by
    refine ⟨∅, ?_⟩
    simp only [Finset.mem_filter, Finset.mem_powerset]
    exact ⟨Finset.empty_subset _, AClique.empty⟩
  obtain ⟨K, hKmem, hKeq⟩ := Finset.exists_mem_eq_sup _ hne Finset.card
  simp only [Finset.mem_filter, Finset.mem_powerset] at hKmem
  obtain ⟨C, hC, hsub⟩ := exists_maximal_superclique hKmem.2 hKmem.1
  refine ⟨C, hC, le_antisymm (card_le_omegaA hC.1 hC.2.1) ?_⟩
  have homega : omegaA n adj = K.card := hKeq
  rw [homega]
  exact Finset.card_le_card hsub

end CliqueLemmas

/-! ## Graph construction: reachable states and substrate invariants -/

/-- States reachable from the constructor `Graph(n)` by arbitrary
`add_edge` calls (a call that throws leaves the state unchanged, so only
successful calls produce new states). -/
inductive Graph.reachable : Graph → Prop
  | init (n : ℕ) : Graph.reachable (Graph.init n)
  | step {g g' : Graph} (u v : ℤ) : Graph.reachable g →
      g.add_edge u v = .ok g' → Graph.reachable g'

/-- States reachable from the constructor by `add_edge` calls whose two
endpoints are distinct. -/
inductive Graph.reachableNE : Graph → Prop
  | init (n : ℕ) : Graph.reachableNE (Graph.init n)
  | step {g g' : Graph} (u v : ℤ) (huv : u ≠ v) : Graph.reachableNE g →
      g.add_edge u v = .ok g' → Graph.reachableNE g'

/-- Spec invariant I-1: `has_edge(u,v)` holds iff `v ∈ neighbors(u)`. -/
def Graph.I1 (g : Graph) : Prop :=
  ∀ u v : ℕ, (g.has_edge u v = true ↔ v ∈ g.adjl u)

/-- Spec invariant I-2: no self-loops. -/
def Graph.I2 (g : Graph) : Prop :=
  ∀ v : ℕ, g.has_edge v v = false

/-- Spec invariant I-3: `m` is half the degree sum. -/
def Graph.I3 (g : Graph) : Prop :=
  2 * g.m = ∑ v ∈ Finset.range g.n, g.get_degree v

/-- Internal invariant kept by every reachable state (self-loops allowed):
the matrix is bounded and symmetric, and the matrix and lists agree. -/
def Graph.SInv0 (g : Graph) : Prop :=
  (∀ u v : ℕ, g.adjm u v = true → u < g.n ∧ v < g.n) ∧
  (∀ u v : ℕ, g.adjm u v = g.adjm v u) ∧
  (∀ u v : ℕ, v ∈ g.adjl u ↔ g.adjm u v = true)

/-- Internal invariant kept by states built only from distinct-endpoint
`add_edge` calls: additionally irreflexive and with the exact edge count. -/
def Graph.SInvNE (g : Graph) : Prop :=
  g.SInv0 ∧ (∀ v : ℕ, g.adjm v v = false) ∧ g.I3

theorem Graph.init_SInv0 (n : ℕ) : (Graph.init n).SInv0 := by
  refine ⟨?_, ?_, ?_⟩ <;> intro u v <;> simp [Graph.init]

theorem Graph.init_SInvNE (n : ℕ) : (Graph.init n).SInvNE := by
  refine ⟨Graph.init_SInv0 n, ?_, ?_⟩
  · intro v; simp [Graph.init]
  · simp [Graph.I3, Graph.init, Graph.get_degree]

theorem Graph.insertEdge_n (g : Graph) (un vn : ℕ) :
    (g.insertEdge un vn).n = g.n := rfl

theorem Graph.insertEdge_m (g : Graph) (un vn : ℕ) :
    (g.insertEdge un vn).m = g.m + 1 := rfl

theorem Graph.insertEdge_adjm (g : Graph) (un vn a b : ℕ) :
    ((g.insertEdge un vn).adjm a b = true ↔
      ((a = un ∧ b = vn) ∨ (a = vn ∧ b = un) ∨ g.adjm a b = true)) := by
  show ((if (a = un ∧ b = vn) ∨ (a = vn ∧ b = un) then true else g.adjm a b) = true ↔ _)
  by_cases hc : (a = un ∧ b = vn) ∨ (a = vn ∧ b = un)
  · simp [hc]
    tauto
  · simp only [hc, if_false]
    tauto

theorem Graph.insertEdge_adjl (g : Graph) (un vn a b : ℕ) :
    (b ∈ (g.insertEdge un vn).adjl a ↔
      ((a = un ∧ b = vn) ∨ (a = vn ∧ b = un) ∨ b ∈ g.adjl a)) := by
  show (b ∈ (if a = un then insert vn (g.adjl a)
      else if a = vn then insert un (g.adjl a) else g.adjl a) ↔ _)
  split_ifs with h1 h2
  · rw [Finset.mem_insert]
    constructor
    · rintro (rfl | hm)
      · exact Or.inl ⟨h1, rfl⟩
      · exact Or.inr (Or.inr hm)
    · rintro (⟨-, rfl⟩ | ⟨h3, rfl⟩ | hm)
      · exact Or.inl rfl
      · exact Or.inl (h1.symm.trans h3)
      · exact Or.inr hm
  · rw [Finset.mem_insert]
    constructor
    · rintro (rfl | hm)
      · exact Or.inr (Or.inl ⟨h2, rfl⟩)
      · exact Or.inr (Or.inr hm)
    · rintro (⟨h3, rfl⟩ | ⟨-, rfl⟩ | hm)
      · exact absurd h3 h1
      · exact Or.inl rfl
      · exact Or.inr hm
  · constructor
    · intro hm
      exact Or.inr (Or.inr hm)
    · rintro (⟨h3, -⟩ | ⟨h3, -⟩ | hm)
      · exact absurd h3 h1
      · exact absurd h3 h2
      · exact hm

/-- Characterization of a successful `add_edge` call. -/
theorem Graph.add_edge_ok_cases {g g' : Graph} {u v : ℤ}
    (h : g.add_edge u v = .ok g') :
    (0 ≤ u ∧ u < (g.n : ℤ) ∧ 0 ≤ v ∧ v < (g.n : ℤ)) ∧
      ((g.adjm u.toNat v.toNat = true ∧ g' = g) ∨
       (g.adjm u.toNat v.toNat = false ∧ g' = g.insertEdge u.toNat v.toNat)) := by
  unfold Graph.add_edge at h
  by_cases hb : u < 0 ∨ (g.n : ℤ) ≤ u ∨ v < 0 ∨ (g.n : ℤ) ≤ v
  · rw [if_pos hb] at h
    exact absurd h (by simp)
  · rw [if_neg hb] at h
    push_neg at hb
    refine ⟨⟨hb.1, hb.2.1, hb.2.2.1, hb.2.2.2⟩, ?_⟩
    by_cases hex : g.adjm u.toNat v.toNat
    · rw [if_pos hex] at h
      injection h with h'
      exact Or.inl ⟨hex, h'.symm⟩
    · rw [if_neg hex] at h
      injection h with h'
      exact Or.inr ⟨by simpa using hex, h'.symm⟩

theorem Graph.insertEdge_SInv0 {g : Graph} {un vn : ℕ}
    (hinv : g.SInv0) (hun : un < g.n) (hvn : vn < g.n) :
    (g.insertEdge un vn).SInv0 := by
  obtain ⟨hbnd, hsym, hsync⟩ := hinv
  refine ⟨?_, ?_, ?_⟩
  · intro a b hab
    rcases (Graph.insertEdge_adjm g un vn a b).mp hab with ⟨rfl, rfl⟩ | ⟨rfl, rfl⟩ | h
    · exact ⟨hun, hvn⟩
    · exact ⟨hvn, hun⟩
    · exact hbnd a b h
  · intro a b
    have h1 := Graph.insertEdge_adjm g un vn a b
    have h2 := Graph.insertEdge_adjm g un vn b a
    have hs := hsym a b
    by_cases hab : (g.insertEdge un vn).adjm a b = true
    · have := h1.mp hab
      have : (g.insertEdge un vn).adjm b a = true := h2.mpr (by
        rcases this with ⟨h3, h4⟩ | ⟨h3, h4⟩ | h3
        · exact Or.inr (Or.inl ⟨h4, h3⟩)
        · exact Or.inl ⟨h4, h3⟩
        · exact Or.inr (Or.inr (hs ▸ h3)))
      rw [hab, this]
    · by_cases hba : (g.insertEdge un vn).adjm b a = true
      · have := h2.mp hba
        have : (g.insertEdge un vn).adjm a b = true := h1.mpr (by
          rcases this with ⟨h3, h4⟩ | ⟨h3, h4⟩ | h3
          · exact Or.inr (Or.inl ⟨h4, h3⟩)
          · exact Or.inl ⟨h4, h3⟩
          · exact Or.inr (Or.inr (hs.symm ▸ h3)))
        exact absurd this hab
      · rw [Bool.not_eq_true] at hab hba
        rw [hab, hba]
  · intro a b
    rw [Graph.insertEdge_adjl, Graph.insertEdge_adjm]
    constructor
    · rintro (h | h | h)
      · exact Or.inl h
      · exact Or.inr (Or.inl h)
      · exact Or.inr (Or.inr ((hsync a b).mp h))
    · rintro (h | h | h)
      · exact Or.inl h
      · exact Or.inr (Or.inl h)
      · exact Or.inr (Or.inr ((hsync a b).mpr h))

theorem Graph.reachable_SInv0 {g : Graph} (h : g.reachable) : g.SInv0 := by
  induction h with
  | init n => exact Graph.init_SInv0 n
  | step u v _ hok ih =>
    obtain ⟨⟨hu0, hun, hv0, hvn⟩, hcase⟩ := Graph.add_edge_ok_cases hok
    rcases hcase with ⟨_, rfl⟩ | ⟨_, rfl⟩
    · exact ih
    · exact Graph.insertEdge_SInv0 ih (by omega) (by omega)

/-- I-1 holds (for all naturals) in every state with the basic invariant. -/
theorem Graph.SInv0_I1 {g : Graph} (hinv : g.SInv0) : g.I1 := by
  obtain ⟨hbnd, _, hsync⟩ := hinv
  intro u v
  unfold Graph.has_edge
  constructor
  · intro h
    by_cases hb : u < g.n ∧ v < g.n
    · rw [if_pos hb] at h
      exact (hsync u v).mpr h
    · rw [if_neg hb] at h
      exact absurd h (by simp)
  · intro h
    have := (hsync u v).mp h
    have hb := hbnd u v this
    rw [if_pos hb]
    exact this

theorem Graph.insertEdge_SInvNE {g : Graph} {un vn : ℕ}
    (hinv : g.SInvNE) (hun : un < g.n) (hvn : vn < g.n) (hne : un ≠ vn)
    (hnew : g.adjm un vn = false) : (g.insertEdge un vn).SInvNE := by
  obtain ⟨hinv0, hirr, hI3⟩ := hinv
  have hnew' : g.adjm vn un = false := by
    rw [hinv0.2.1 vn un]
    exact hnew
  refine ⟨Graph.insertEdge_SInv0 hinv0 hun hvn, ?_, ?_⟩
  · intro a
    by_cases h : (g.insertEdge un vn).adjm a a = true
    · rcases (Graph.insertEdge_adjm g un vn a a).mp h with ⟨rfl, h2⟩ | ⟨rfl, h2⟩ | h2
      · exact absurd h2 hne
      · exact absurd h2.symm hne
      · rw [hirr a] at h2
        exact absurd h2 (by simp)
    · exact Bool.not_eq_true _ ▸ (by simpa using h)
  · -- I-3: the degree sum grows by exactly 2
    have hvn_not : vn ∉ g.adjl un := by
      intro hmem
      have := (hinv0.2.2 un vn).mp hmem
      rw [hnew] at this
      exact absurd this (by simp)
    have hun_not : un ∉ g.adjl vn := by
      intro hmem
      have := (hinv0.2.2 vn un).mp hmem
      rw [hnew'] at this
      exact absurd this (by simp)
    have hcard : ∀ a, ((g.insertEdge un vn).adjl a).card =
        (g.adjl a).card + (if a = un then 1 else 0) + (if a = vn then 1 else 0) := by
      intro a
      show (if a = un then insert vn (g.adjl a)
          else if a = vn then insert un (g.adjl a) else g.adjl a).card = _
      split_ifs with h1 h2 h3
      · exact absurd (h1.symm.trans h2) hne
      · subst h1
        rw [Finset.card_insert_of_not_mem hvn_not]
      · subst h3
        rw [Finset.card_insert_of_not_mem hun_not]
      · omega
    unfold Graph.I3 Graph.get_degree at hI3 ⊢
    rw [Graph.insertEdge_m, Graph.insertEdge_n]
    calc 2 * (g.m + 1) = 2 * g.m + 2 := by ring
    _ = (∑ v ∈ Finset.range g.n, (g.adjl v).card) + 2 := by rw [hI3]
    _ = ∑ v ∈ Finset.range g.n, ((g.insertEdge un vn).adjl v).card := by
        have : ∑ v ∈ Finset.range g.n, ((g.insertEdge un vn).adjl v).card =
            ∑ v ∈ Finset.range g.n, ((g.adjl v).card +
              (if v = un then 1 else 0) + (if v = vn then 1 else 0)) := by
          apply Finset.sum_congr rfl
          intro x _
          exact hcard x
        rw [this, Finset.sum_add_distrib, Finset.sum_add_distrib]
        rw [Finset.sum_ite_eq' (Finset.range g.n) un (fun _ => 1)]
        rw [Finset.sum_ite_eq' (Finset.range g.n) vn (fun _ => 1)]
        rw [if_pos (Finset.mem_range.mpr hun), if_pos (Finset.mem_range.mpr hvn)]

theorem Graph.reachableNE_SInvNE {g : Graph} (h : g.reachableNE) : g.SInvNE := by
  induction h with
  | init n => exact Graph.init_SInvNE n
  | step u v huv _ hok ih =>
    obtain ⟨⟨hu0, hun, hv0, hvn⟩, hcase⟩ := Graph.add_edge_ok_cases hok
    rcases hcase with ⟨_, rfl⟩ | ⟨hnew, rfl⟩
    · exact ih
    · have hne : u.toNat ≠ v.toNat := by
        intro hc
        apply huv
        omega
      exact Graph.insertEdge_SInvNE ih (by omega) (by omega) hne hnew

theorem Graph.reachableNE_reachable {g : Graph} (h : g.reachableNE) :
    g.reachable := by
  induction h with
  | init n => exact Graph.reachable.init n
  | step u v _ _ hok ih => exact Graph.reachable.step u v ih hok

/-- The bounded well-formedness predicate holds in every state reached by
distinct-endpoint `add_edge` calls. -/
theorem Graph.reachableNE_WFb {g : Graph} (h : g.reachableNE) : g.WFb := by
  obtain ⟨⟨hbnd, hsym, hsync⟩, hirr, _⟩ := Graph.reachableNE_SInvNE h
  refine ⟨?_, ?_, ?_, ?_⟩
  · intro u _ v _
    exact hsym u v
  · intro v _
    exact hirr v
  · intro u _ v _
    exact hsync u v
  · intro u _ v hv
    have := hsync u v |>.mp hv
    exact Finset.mem_range.mpr (hbnd u v this).2

theorem Graph.SInvNE_I2 {g : Graph} (h : g.SInvNE) : g.I2 := by
  intro v
  unfold Graph.has_edge
  by_cases hb : v < g.n ∧ v < g.n
  · rw [if_pos hb]
    exact h.2.1 v
  · rw [if_neg hb]

/-! ## The SNAP loader (`Graph::load_from_snap`)

The C++ loader reads the file line by line, skipping comments and
unparsable lines; the model starts from the resulting sequence of parsed
`(u, v)` integer pairs.  First pass: compute the maximum endpoint id
(initialized to -1).  If it stays negative, throw `runtime_error`
("No valid edges found").  Otherwise build `Graph(max_vertex + 1)` and add
every non-self-loop pair with `add_edge`. -/

def snapMaxVertex (edges : List (ℤ × ℤ)) : ℤ :=
  edges.foldl (fun acc p => max acc (max p.1 p.2)) (-1)

/-- The second pass of the loader: add the edges in order, skipping
self-loop pairs; an exception from `add_edge` propagates. -/
def Graph.addAll (g : Graph) : List (ℤ × ℤ) → Except GraphError Graph
  | [] => .ok g
  | (u, v) :: rest =>
    if u ≠ v then
      match g.add_edge u v with
      | .ok g' => g'.addAll rest
      | .error e => .error e
    else g.addAll rest

def Graph.load_from_snap (edges : List (ℤ × ℤ)) : Except GraphError Graph :=
  if snapMaxVertex edges < 0 then .error .runtimeError
  else (Graph.init (snapMaxVertex edges + 1).toNat).addAll edges

section LoaderLemmas

/-- The running foldl maximum is monotone in its initial accumulator and
bounds every list element. -/
theorem foldl_max_init_le (l : List (ℤ × ℤ)) (a : ℤ) :
    a ≤ l.foldl (fun acc p => max acc (max p.1 p.2)) a := by
  induction l generalizing a with
  | nil => exact le_refl a
  | cons p rest ih =>
    calc a ≤ max a (max p.1 p.2) := le_max_left _ _
    _ ≤ rest.foldl (fun acc p => max acc (max p.1 p.2)) (max a (max p.1 p.2)) := ih _

theorem foldl_max_mem_le {l : List (ℤ × ℤ)} {p : ℤ × ℤ} (hp : p ∈ l) (a : ℤ) :
    max p.1 p.2 ≤ l.foldl (fun acc q => max acc (max q.1 q.2)) a := by
  induction l generalizing a with
  | nil => exact absurd hp (List.not_mem_nil p)
  | cons q rest ih =>
    rcases List.mem_cons.mp hp with rfl | hp'
    · calc max p.1 p.2 ≤ max a (max p.1 p.2) := le_max_right _ _
      _ ≤ rest.foldl (fun acc q => max acc (max q.1 q.2)) (max a (max p.1 p.2)) :=
        foldl_max_init_le rest _
    · exact ih hp' _

theorem snapMaxVertex_bounds {edges : List (ℤ × ℤ)} {p : ℤ × ℤ}
    (hp : p ∈ edges) : p.1 ≤ snapMaxVertex edges ∧ p.2 ≤ snapMaxVertex edges := by
  have := foldl_max_mem_le hp (-1)
  unfold snapMaxVertex
  constructor
  · calc p.1 ≤ max p.1 p.2 := le_max_left _ _
    _ ≤ _ := this
  · calc p.2 ≤ max p.1 p.2 := le_max_right _ _
    _ ≤ _ := this

/-- Pulling one element out of the accumulator of the max fold. -/
theorem foldl_max_comm (l : List (ℤ × ℤ)) (a x : ℤ) :
    l.foldl (fun acc p => max acc (max p.1 p.2)) (max a x) =
      max (l.foldl (fun acc p => max acc (max p.1 p.2)) a) x := by
  induction l generalizing a with
  | nil => rfl
  | cons q rest ih =>
    show rest.foldl _ (max (max a x) (max q.1 q.2)) = _
    rw [sup_right_comm a x (max q.1 q.2)]
    exact ih (max a (max q.1 q.2))

theorem snapMaxVertex_middle (E₁ E₂ : List (ℤ × ℤ)) (p : ℤ × ℤ) :
    snapMaxVertex (E₁ ++ p :: E₂) = max (snapMaxVertex (E₁ ++ E₂)) (max p.1 p.2) := by
  unfold snapMaxVertex
  rw [List.foldl_append, List.foldl_append]
  show E₂.foldl _ (max _ _) = _
  exact foldl_max_comm E₂ _ _

/-- `add_edge` never changes the vertex count. -/
theorem Graph.add_edge_n {g g' : Graph} {u v : ℤ}
    (h : g.add_edge u v = .ok g') : g'.n = g.n := by
  rcases (Graph.add_edge_ok_cases h).2 with ⟨_, rfl⟩ | ⟨_, rfl⟩
  · rfl
  · rfl

theorem Graph.addAll_n {g g' : Graph} {edges : List (ℤ × ℤ)}
    (h : g.addAll edges = .ok g') : g'.n = g.n := by
  induction edges generalizing g with
  | nil =>
    unfold Graph.addAll at h
    injection h with h'
    rw [h']
  | cons p rest ih =>
    unfold Graph.addAll at h
    by_cases hne : p.1 ≠ p.2
    · rw [if_pos hne] at h
      rcases hok : g.add_edge p.1 p.2 with g₁ | e₁
      · rw [hok] at h
        simp at h
      · rw [hok] at h
        rw [ih h]
        exact Graph.add_edge_n hok
    · rw [if_neg hne] at h
      exact ih h

theorem Graph.add_edge_error {g : Graph} {u v : ℤ} {e : GraphError}
    (h : g.add_edge u v = .error e) : e = .outOfRange := by
  unfold Graph.add_edge at h
  by_cases hb : u < 0 ∨ (g.n : ℤ) ≤ u ∨ v < 0 ∨ (g.n : ℤ) ≤ v
  · rw [if_pos hb] at h
    injection h with h'
    exact h'.symm
  · rw [if_neg hb] at h
    by_cases hex : g.adjm u.toNat v.toNat
    · rw [if_pos hex] at h
      exact absurd h (by simp)
    · rw [if_neg hex] at h
      exact absurd h (by simp)

/-- The only exception the edge-adding pass can raise is `out_of_range`. -/
theorem Graph.addAll_error {g : Graph} {edges : List (ℤ × ℤ)} {e : GraphError}
    (h : g.addAll edges = .error e) : e = .outOfRange := by
  induction edges generalizing g with
  | nil =>
    unfold Graph.addAll at h
    exact absurd h (by simp)
  | cons p rest ih =>
    unfold Graph.addAll at h
    by_cases hne : p.1 ≠ p.2
    · rw [if_pos hne] at h
      rcases hok : g.add_edge p.1 p.2 with e₁ | g₁
      · rw [hok] at h
        simp only [Except.error.injEq] at h
        rw [← h]
        exact Graph.add_edge_error hok
      · rw [hok] at h
        exact ih h
    · rw [if_neg hne] at h
      exact ih h

theorem Graph.add_edge_ok_of_bounds {g : Graph} {u v : ℤ}
    (hu0 : 0 ≤ u) (hun : u < (g.n : ℤ)) (hv0 : 0 ≤ v) (hvn : v < (g.n : ℤ)) :
    ∃ g', g.add_edge u v = .ok g' := by
  unfold Graph.add_edge
  rw [if_neg (by push_neg; exact ⟨hu0, hun, hv0, hvn⟩)]
  by_cases hex : g.adjm u.toNat v.toNat
  · rw [if_pos hex]
    exact ⟨g, rfl⟩
  · rw [if_neg hex]
    exact ⟨_, rfl⟩

/-- The edge-adding pass succeeds iff every non-self-loop pair is within
bounds. -/
theorem Graph.addAll_ok_of_bounds {g : Graph} {edges : List (ℤ × ℤ)}
    (hbnd : ∀ p ∈ edges, p.1 ≠ p.2 →
      0 ≤ p.1 ∧ p.1 < (g.n : ℤ) ∧ 0 ≤ p.2 ∧ p.2 < (g.n : ℤ)) :
    ∃ g', g.addAll edges = .ok g' := by
  induction edges generalizing g with
  | nil => exact ⟨g, rfl⟩
  | cons p rest ih =>
    show ∃ g', (if p.1 ≠ p.2 then
        match g.add_edge p.1 p.2 with
        | .ok g' => g'.addAll rest
        | .error e => .error e
      else g.addAll rest) = .ok g'
    by_cases hne : p.1 ≠ p.2
    · rw [if_pos hne]
      obtain ⟨hu0, hun, hv0, hvn⟩ := hbnd p (List.mem_cons_self p rest) hne
      obtain ⟨g₁, hok⟩ := Graph.add_edge_ok_of_bounds hu0 hun hv0 hvn
      rw [hok]
      have hn1 : g₁.n = g.n := Graph.add_edge_n hok
      exact ih (fun q hq hq2 => by rw [hn1]; exact hbnd q (List.mem_cons_of_mem p hq) hq2)
    · rw [if_neg hne]
      exact ih (fun q hq hq2 => hbnd q (List.mem_cons_of_mem p hq) hq2)

theorem Graph.addAll_ok_bounds {g g' : Graph} {edges : List (ℤ × ℤ)}
    (h : g.addAll edges = .ok g') :
    ∀ p ∈ edges, p.1 ≠ p.2 →
      0 ≤ p.1 ∧ p.1 < (g.n : ℤ) ∧ 0 ≤ p.2 ∧ p.2 < (g.n : ℤ) := by
  induction edges generalizing g with
  | nil => intro p hp; exact absurd hp (List.not_mem_nil p)
  | cons q rest ih =>
    intro p hp hpne
    unfold Graph.addAll at h
    by_cases hne : q.1 ≠ q.2
    · rw [if_pos hne] at h
      rcases hok : g.add_edge q.1 q.2 with g₁ | e₁
      · rw [hok] at h
        exact absurd h (by simp)
      · rw [hok] at h
        rcases List.mem_cons.mp hp with rfl | hp'
        · obtain ⟨h1, h2, h3, h4⟩ := (Graph.add_edge_ok_cases hok).1
          exact ⟨h1, h2, h3, h4⟩
        · have := ih h p hp' hpne
          rw [Graph.add_edge_n hok] at this
          exact this
    · rw [if_neg hne] at h
      rcases List.mem_cons.mp hp with rfl | hp'
      · push_neg at hne
        exact absurd hne hpne
      · exact ih h p hp' hpne

theorem Graph.insertEdge_has_edge_iff {g : Graph} {un vn : ℕ}
    (hun : un < g.n) (hvn : vn < g.n) (a b : ℕ) :
    ((g.insertEdge un vn).has_edge a b = true ↔
      ((a = un ∧ b = vn) ∨ (a = vn ∧ b = un) ∨ g.has_edge a b = true)) := by
  unfold Graph.has_edge
  rw [Graph.insertEdge_n]
  by_cases hb : a < g.n ∧ b < g.n
  · rw [if_pos hb, if_pos hb]
    exact Graph.insertEdge_adjm g un vn a b
  · rw [if_neg hb, if_neg hb]
    constructor
    · intro h
      exact absurd h (by simp)
    · rintro (⟨rfl, rfl⟩ | ⟨rfl, rfl⟩ | h)
      · exact absurd ⟨hun, hvn⟩ hb
      · exact absurd ⟨hvn, hun⟩ hb
      · exact absurd h (by simp)

theorem Graph.add_edge_has_edge_iff {g g' : Graph} {u v : ℤ}
    (hsym : ∀ x y : ℕ, g.adjm x y = g.adjm y x)
    (h : g.add_edge u v = .ok g') (a b : ℕ) :
    (g'.has_edge a b = true ↔
      ((a = u.toNat ∧ b = v.toNat) ∨ (a = v.toNat ∧ b = u.toNat) ∨
        g.has_edge a b = true)) := by
  obtain ⟨⟨hu0, hun, hv0, hvn⟩, hcase⟩ := Graph.add_edge_ok_cases h
  have hunn : u.toNat < g.n := by omega
  have hvnn : v.toNat < g.n := by omega
  rcases hcase with ⟨hex, heq⟩ | ⟨hex, heq⟩
  · have hge : g.has_edge u.toNat v.toNat = true := by
      unfold Graph.has_edge
      rw [if_pos ⟨hunn, hvnn⟩]
      exact hex
    have hge' : g.has_edge v.toNat u.toNat = true := by
      unfold Graph.has_edge
      rw [if_pos ⟨hvnn, hunn⟩, hsym]
      exact hex
    rw [heq]
    constructor
    · intro hh
      exact Or.inr (Or.inr hh)
    · rintro (⟨rfl, rfl⟩ | ⟨rfl, rfl⟩ | hh)
      · exact hge
      · exact hge'
      · exact hh
  · rw [heq]
    exact Graph.insertEdge_has_edge_iff hunn hvnn a b

theorem Graph.add_edge_SInv0_pres {g g' : Graph} {u v : ℤ}
    (hinv : g.SInv0) (h : g.add_edge u v = .ok g') : g'.SInv0 := by
  obtain ⟨⟨hu0, hun, hv0, hvn⟩, hcase⟩ := Graph.add_edge_ok_cases h
  rcases hcase with ⟨_, heq⟩ | ⟨_, heq⟩
  · rw [heq]; exact hinv
  · rw [heq]; exact Graph.insertEdge_SInv0 hinv (by omega) (by omega)

theorem Graph.add_edge_adjm_mono {g g' : Graph} {u v : ℤ} {a b : ℕ}
    (h : g.add_edge u v = .ok g') (hab : g.adjm a b = true) :
    g'.adjm a b = true := by
  rcases (Graph.add_edge_ok_cases h).2 with ⟨_, heq⟩ | ⟨_, heq⟩
  · rw [heq]; exact hab
  · rw [heq]
    exact (Graph.insertEdge_adjm g u.toNat v.toNat a b).mpr (Or.inr (Or.inr hab))

/-- The adding pass keeps the state inside the distinct-endpoint reachable
set (every `add_edge` it performs has distinct endpoints). -/
theorem Graph.addAll_reachableNE {g g' : Graph} {edges : List (ℤ × ℤ)}
    (hr : g.reachableNE) (h : g.addAll edges = .ok g') : g'.reachableNE := by
  induction edges generalizing g with
  | nil =>
    unfold Graph.addAll at h
    injection h with h'
    rw [← h']
    exact hr
  | cons p rest ih =>
    unfold Graph.addAll at h
    by_cases hne : p.1 ≠ p.2
    · rw [if_pos hne] at h
      rcases hok : g.add_edge p.1 p.2 with e₁ | g₁
      · rw [hok] at h
        exact absurd h (by simp)
      · rw [hok] at h
        exact ih (Graph.reachableNE.step p.1 p.2 hne hr hok) h
    · rw [if_neg hne] at h
      exact ih hr h

/-- An (undirected, non-self-loop) occurrence of the pair `(a, b)` in the
input edge list. -/
def edgeListed (edges : List (ℤ × ℤ)) (a b : ℕ) : Prop :=
  ∃ p ∈ edges, p.1 ≠ p.2 ∧
    ((p.1 = (a : ℤ) ∧ p.2 = (b : ℤ)) ∨ (p.1 = (b : ℤ) ∧ p.2 = (a : ℤ)))

theorem edgeListed_nil (a b : ℕ) : ¬ edgeListed [] a b := by
  rintro ⟨p, hp, _⟩
  exact List.not_mem_nil p hp

theorem edgeListed_cons {p : ℤ × ℤ} {rest : List (ℤ × ℤ)} {a b : ℕ} :
    edgeListed (p :: rest) a b ↔
      ((p.1 ≠ p.2 ∧ ((p.1 = (a : ℤ) ∧ p.2 = (b : ℤ)) ∨
        (p.1 = (b : ℤ) ∧ p.2 = (a : ℤ)))) ∨ edgeListed rest a b) := by
  constructor
  · rintro ⟨q, hq, hq2⟩
    rcases List.mem_cons.mp hq with rfl | hq'
    · exact Or.inl hq2
    · exact Or.inr ⟨q, hq', hq2⟩
  · rintro (h | ⟨q, hq, hq2⟩)
    · exact ⟨p, List.mem_cons_self p rest, h⟩
    · exact ⟨q, List.mem_cons_of_mem p hq, hq2⟩

/-- What the adding pass does to the adjacency: exactly the listed
non-self-loop pairs are added, in both orientations. -/
theorem Graph.addAll_has_edge_iff {g g' : Graph} {edges : List (ℤ × ℤ)}
    (hinv : g.SInv0) (h : g.addAll edges = .ok g') (a b : ℕ) :
    (g'.has_edge a b = true ↔
      (edgeListed edges a b ∨ g.has_edge a b = true)) := by
  induction edges generalizing g with
  | nil =>
    unfold Graph.addAll at h
    injection h with h'
    rw [← h']
    constructor
    · intro hh
      exact Or.inr hh
    · rintro (hl | hh)
      · exact absurd hl (edgeListed_nil a b)
      · exact hh
  | cons p rest ih =>
    unfold Graph.addAll at h
    by_cases hne : p.1 ≠ p.2
    · rw [if_pos hne] at h
      rcases hok : g.add_edge p.1 p.2 with e₁ | g₁
      · rw [hok] at h
        exact absurd h (by simp)
      · rw [hok] at h
        obtain ⟨⟨hu0, hun, hv0, hvn⟩, _⟩ := Graph.add_edge_ok_cases hok
        have hstep := Graph.add_edge_has_edge_iff hinv.2.1 hok a b
        rw [ih (Graph.add_edge_SInv0_pres hinv hok) h, hstep, edgeListed_cons]
        constructor
        · rintro (hl | ⟨h1, h2⟩ | ⟨h1, h2⟩ | hh)
          · exact Or.inl (Or.inr hl)
          · exact Or.inl (Or.inl ⟨hne, Or.inl ⟨by omega, by omega⟩⟩)
          · exact Or.inl (Or.inl ⟨hne, Or.inr ⟨by omega, by omega⟩⟩)
          · exact Or.inr hh
        · rintro ((⟨-, (⟨h1, h2⟩ | ⟨h1, h2⟩)⟩ | hl) | hh)
          · exact Or.inr (Or.inl ⟨by omega, by omega⟩)
          · exact Or.inr (Or.inr (Or.inl ⟨by omega, by omega⟩))
          · exact Or.inl hl
          · exact Or.inr (Or.inr (Or.inr hh))
    · rw [if_neg hne] at h
      push_neg at hne
      rw [ih hinv h, edgeListed_cons]
      constructor
      · rintro (hl | hh)
        · exact Or.inl (Or.inr hl)
        · exact Or.inr hh
      · rintro ((⟨hne2, -⟩ | hl) | hh)
        · exact absurd hne hne2
        · exact Or.inl hl
        · exact Or.inr hh

/-- A self-loop pair anywhere in the list is skipped by the adding pass. -/
theorem Graph.addAll_skip_selfloop (g : Graph) (E₁ E₂ : List (ℤ × ℤ)) (w : ℤ) :
    g.addAll (E₁ ++ (w, w) :: E₂) = g.addAll (E₁ ++ E₂) := by
  induction E₁ generalizing g with
  | nil =>
    show (if w ≠ w then _ else g.addAll E₂) = g.addAll E₂
    rw [if_neg (by simp)]
  | cons p rest ih =>
    by_cases hne : p.1 ≠ p.2
    · rcases hok : g.add_edge p.1 p.2 with e₁ | g₁
      · show (if p.1 ≠ p.2 then
            match g.add_edge p.1 p.2 with
            | .ok g' => g'.addAll (rest ++ (w, w) :: E₂)
            | .error e => Except.error e
          else g.addAll (rest ++ (w, w) :: E₂)) =
          (if p.1 ≠ p.2 then
            match g.add_edge p.1 p.2 with
            | .ok g' => g'.addAll (rest ++ E₂)
            | .error e => Except.error e
          else g.addAll (rest ++ E₂))
        rw [if_pos hne, if_pos hne, hok]
      · show (if p.1 ≠ p.2 then
            match g.add_edge p.1 p.2 with
            | .ok g' => g'.addAll (rest ++ (w, w) :: E₂)
            | .error e => Except.error e
          else g.addAll (rest ++ (w, w) :: E₂)) =
          (if p.1 ≠ p.2 then
            match g.add_edge p.1 p.2 with
            | .ok g' => g'.addAll (rest ++ E₂)
            | .error e => Except.error e
          else g.addAll (rest ++ E₂))
        rw [if_pos hne, if_pos hne, hok]
        exact ih g₁
    · show (if p.1 ≠ p.2 then
          match g.add_edge p.1 p.2 with
          | .ok g' => g'.addAll (rest ++ (w, w) :: E₂)
          | .error e => Except.error e
        else g.addAll (rest ++ (w, w) :: E₂)) =
        (if p.1 ≠ p.2 then
          match g.add_edge p.1 p.2 with
          | .ok g' => g'.addAll (rest ++ E₂)
          | .error e => Except.error e
        else g.addAll (rest ++ E₂))
      rw [if_neg hne, if_neg hne]
      exact ih g

theorem Graph.add_edge_adjm_self {g g' : Graph} {u v : ℤ}
    (h : g.add_edge u v = .ok g') : g'.adjm u.toNat v.toNat = true := by
  rcases (Graph.add_edge_ok_cases h).2 with ⟨hex, heq⟩ | ⟨_, heq⟩
  · rw [heq]; exact hex
  · rw [heq]
    exact (Graph.insertEdge_adjm g u.toNat v.toNat _ _).mpr (Or.inl ⟨rfl, rfl⟩)

/-- A pair already listed earlier in the input (in either orientation) is
ignored by the adding pass: inserting it again changes nothing, not even
the error behavior. -/
theorem Graph.addAll_dup {u v : ℤ} (huv : u ≠ v) (E₁ E₂ : List (ℤ × ℤ)) :
    ∀ g : Graph, g.SInv0 →
    ((u, v) ∈ E₁ ∨ (v, u) ∈ E₁ ∨
      (0 ≤ u ∧ u < (g.n : ℤ) ∧ 0 ≤ v ∧ v < (g.n : ℤ) ∧
        g.adjm u.toNat v.toNat = true)) →
    g.addAll (E₁ ++ (u, v) :: E₂) = g.addAll (E₁ ++ E₂) := by
  induction E₁ with
  | nil =>
    intro g hinv hpre
    rcases hpre with hm | hm | ⟨h1, h2, h3, h4, h5⟩
    · exact absurd hm (List.not_mem_nil _)
    · exact absurd hm (List.not_mem_nil _)
    · show (if u ≠ v then
          match g.add_edge u v with
          | .ok g' => g'.addAll E₂
          | .error e => Except.error e
        else g.addAll E₂) = g.addAll E₂
      rw [if_pos huv]
      have hok : g.add_edge u v = .ok g := by
        unfold Graph.add_edge
        rw [if_neg (by push_neg; exact ⟨h1, h2, h3, h4⟩), if_pos h5]
      rw [hok]
  | cons p rest ih =>
    intro g hinv hpre
    by_cases hne : p.1 ≠ p.2
    · rcases hok : g.add_edge p.1 p.2 with e₁ | g₁
      · show (if p.1 ≠ p.2 then
            match g.add_edge p.1 p.2 with
            | .ok g' => g'.addAll (rest ++ (u, v) :: E₂)
            | .error e => Except.error e
          else g.addAll (rest ++ (u, v) :: E₂)) =
          (if p.1 ≠ p.2 then
            match g.add_edge p.1 p.2 with
            | .ok g' => g'.addAll (rest ++ E₂)
            | .error e => Except.error e
          else g.addAll (rest ++ E₂))
        rw [if_pos hne, if_pos hne, hok]
      · show (if p.1 ≠ p.2 then
            match g.add_edge p.1 p.2 with
            | .ok g' => g'.addAll (rest ++ (u, v) :: E₂)
            | .error e => Except.error e
          else g.addAll (rest ++ (u, v) :: E₂)) =
          (if p.1 ≠ p.2 then
            match g.add_edge p.1 p.2 with
            | .ok g' => g'.addAll (rest ++ E₂)
            | .error e => Except.error e
          else g.addAll (rest ++ E₂))
        rw [if_pos hne, if_pos hne, hok]
        have hinv₁ : g₁.SInv0 := Graph.add_edge_SInv0_pres hinv hok
        have hn₁ : g₁.n = g.n := Graph.add_edge_n hok
        apply ih g₁ hinv₁
        rcases hpre with hm | hm | ⟨h1, h2, h3, h4, h5⟩
        · rcases List.mem_cons.mp hm with heqp | hm'
          · -- p = (u, v): the pair is now present in g₁
            have hp1 : p.1 = u := by rw [← heqp]
            have hp2 : p.2 = v := by rw [← heqp]
            rw [hp1, hp2] at hok
            obtain ⟨⟨hu0, hun, hv0, hvn⟩, _⟩ := Graph.add_edge_ok_cases hok
            refine Or.inr (Or.inr ⟨hu0, by omega, hv0, by omega, ?_⟩)
            exact Graph.add_edge_adjm_self hok
          · exact Or.inl hm'
        · rcases List.mem_cons.mp hm with heqp | hm'
          · -- p = (v, u): present in the swapped orientation; use symmetry
            have hp1 : p.1 = v := by rw [← heqp]
            have hp2 : p.2 = u := by rw [← heqp]
            rw [hp1, hp2] at hok
            obtain ⟨⟨hu0, hun, hv0, hvn⟩, _⟩ := Graph.add_edge_ok_cases hok
            refine Or.inr (Or.inr ⟨hv0, by omega, hu0, by omega, ?_⟩)
            rw [hinv₁.2.1]
            exact Graph.add_edge_adjm_self hok
          · exact Or.inr (Or.inl hm')
        · refine Or.inr (Or.inr ⟨h1, by omega, h3, by omega, ?_⟩)
          exact Graph.add_edge_adjm_mono hok h5
    · show (if p.1 ≠ p.2 then
          match g.add_edge p.1 p.2 with
          | .ok g' => g'.addAll (rest ++ (u, v) :: E₂)
          | .error e => Except.error e
        else g.addAll (rest ++ (u, v) :: E₂)) =
        (if p.1 ≠ p.2 then
          match g.add_edge p.1 p.2 with
          | .ok g' => g'.addAll (rest ++ E₂)
          | .error e => Except.error e
        else g.addAll (rest ++ E₂))
      rw [if_neg hne, if_neg hne]
      apply ih g hinv
      push_neg at hne
      rcases hpre with hm | hm | hpres
      · rcases List.mem_cons.mp hm with heqp | hm'
        · have hp1 : p.1 = u := by rw [← heqp]
          have hp2 : p.2 = v := by rw [← heqp]
          rw [hp1, hp2] at hne
          exact absurd hne huv
        · exact Or.inl hm'
      · rcases List.mem_cons.mp hm with heqp | hm'
        · have hp1 : p.1 = v := by rw [← heqp]
          have hp2 : p.2 = u := by rw [← heqp]
          rw [hp1, hp2] at hne
          exact absurd hne.symm huv
        · exact Or.inr (Or.inl hm')
      · exact Or.inr (Or.inr hpres)

theorem bool_eq_of_iff {x y : Bool} (h : x = true ↔ y = true) : x = y := by
  cases x <;> cases y <;> simp_all

/-- Observational equivalence of two graph states: same edge count and
same `has_edge` predicate. -/
def GEquiv (g₁ g₂ : Graph) : Prop :=
  g₁.m = g₂.m ∧ ∀ a b : ℕ, g₁.has_edge a b = g₂.has_edge a b

/-- Running the adding pass on an observationally equivalent state with at
least as many vertices succeeds and gives an observationally equivalent
result. -/
theorem Graph.addAll_parallel {edges : List (ℤ × ℤ)} :
    ∀ {g₁ g₂ h₁ : Graph}, g₁.n ≤ g₂.n → GEquiv g₁ g₂ →
      g₁.addAll edges = .ok h₁ →
      ∃ h₂, g₂.addAll edges = .ok h₂ ∧ GEquiv h₁ h₂ := by
  induction edges with
  | nil =>
    intro g₁ g₂ h₁ hn heq h
    injection h with h'
    exact ⟨g₂, rfl, h' ▸ heq⟩
  | cons p rest ih =>
    intro g₁ g₂ h₁ hn heq h
    unfold Graph.addAll at h
    by_cases hne : p.1 ≠ p.2
    · rw [if_pos hne] at h
      rcases hok₁ : g₁.add_edge p.1 p.2 with e | gA
      · rw [hok₁] at h
        exact absurd h (by simp)
      · rw [hok₁] at h
        obtain ⟨⟨hu0, hun, hv0, hvn⟩, hbr⟩ := Graph.add_edge_ok_cases hok₁
        have hun1 : p.1.toNat < g₁.n := by omega
        have hvn1 : p.2.toNat < g₁.n := by omega
        have hun2 : p.1.toNat < g₂.n := by omega
        have hvn2 : p.2.toNat < g₂.n := by omega
        have hadj_eq : g₁.adjm p.1.toNat p.2.toNat = g₂.adjm p.1.toNat p.2.toNat := by
          have hh := heq.2 p.1.toNat p.2.toNat
          unfold Graph.has_edge at hh
          rw [if_pos ⟨hun1, hvn1⟩, if_pos ⟨hun2, hvn2⟩] at hh
          exact hh
        rcases hbr with ⟨hex, hEq⟩ | ⟨hex, hEq⟩
        · -- the edge was already present in both states
          have hok₂ : g₂.add_edge p.1 p.2 = .ok g₂ := by
            unfold Graph.add_edge
            rw [if_neg (by push_neg; refine ⟨hu0, by omega, hv0, by omega⟩)]
            rw [if_pos (hadj_eq ▸ hex)]
          rw [hEq] at h
          obtain ⟨h₂, hrun, heq'⟩ := ih hn heq h
          refine ⟨h₂, ?_, heq'⟩
          show (if p.1 ≠ p.2 then
              match g₂.add_edge p.1 p.2 with
              | .ok g' => g'.addAll rest
              | .error e => Except.error e
            else g₂.addAll rest) = .ok h₂
          rw [if_pos hne, hok₂]
          exact hrun
        · -- newly inserted in both states
          have hex₂ : g₂.adjm p.1.toNat p.2.toNat = false := hadj_eq ▸ hex
          have hok₂ : g₂.add_edge p.1 p.2 =
              .ok (g₂.insertEdge p.1.toNat p.2.toNat) := by
            unfold Graph.add_edge
            rw [if_neg (by push_neg; refine ⟨hu0, by omega, hv0, by omega⟩)]
            rw [if_neg (by rw [hex₂]; simp)]
          have heqI : GEquiv (g₁.insertEdge p.1.toNat p.2.toNat)
              (g₂.insertEdge p.1.toNat p.2.toNat) := by
            constructor
            · show g₁.m + 1 = g₂.m + 1
              rw [heq.1]
            · intro a b
              apply bool_eq_of_iff
              rw [Graph.insertEdge_has_edge_iff hun1 hvn1 a b,
                Graph.insertEdge_has_edge_iff hun2 hvn2 a b, heq.2 a b]
          rw [hEq] at h
          obtain ⟨h₂, hrun, heq'⟩ := ih (by
            rw [Graph.insertEdge_n, Graph.insertEdge_n]; exact hn) heqI h
          refine ⟨h₂, ?_, heq'⟩
          show (if p.1 ≠ p.2 then
              match g₂.add_edge p.1 p.2 with
              | .ok g' => g'.addAll rest
              | .error e => Except.error e
            else g₂.addAll rest) = .ok h₂
          rw [if_pos hne, hok₂]
          exact hrun
    · rw [if_neg hne] at h
      obtain ⟨h₂, hrun, heq'⟩ := ih hn heq h
      refine ⟨h₂, ?_, heq'⟩
      show (if p.1 ≠ p.2 then
          match g₂.add_edge p.1 p.2 with
          | .ok g' => g'.addAll rest
          | .error e => Except.error e
        else g₂.addAll rest) = .ok h₂
      rw [if_neg hne]
      exact hrun

theorem Graph.load_ok_extract {edges : List (ℤ × ℤ)} {g : Graph}
    (h : Graph.load_from_snap edges = .ok g) :
    0 ≤ snapMaxVertex edges ∧
      (Graph.init (snapMaxVertex edges + 1).toNat).addAll edges = .ok g := by
  unfold Graph.load_from_snap at h
  by_cases hm : snapMaxVertex edges < 0
  · rw [if_pos hm] at h
    exact absurd h (by simp)
  · rw [if_neg hm] at h
    exact ⟨by omega, h⟩

theorem Graph.load_n {edges : List (ℤ × ℤ)} {g : Graph}
    (h : Graph.load_from_snap edges = .ok g) :
    g.n = (snapMaxVertex edges + 1).toNat := by
  obtain ⟨_, hrun⟩ := Graph.load_ok_extract h
  rw [Graph.addAll_n hrun]
  rfl

theorem Graph.load_reachableNE {edges : List (ℤ × ℤ)} {g : Graph}
    (h : Graph.load_from_snap edges = .ok g) : g.reachableNE := by
  obtain ⟨_, hrun⟩ := Graph.load_ok_extract h
  exact Graph.addAll_reachableNE (Graph.reachableNE.init _) hrun

theorem Graph.init_has_edge (n : ℕ) (a b : ℕ) :
    (Graph.init n).has_edge a b = false := by
  unfold Graph.has_edge Graph.init
  split_ifs <;> rfl

theorem Graph.load_has_edge_iff {edges : List (ℤ × ℤ)} {g : Graph}
    (h : Graph.load_from_snap edges = .ok g) (a b : ℕ) :
    (g.has_edge a b = true ↔ edgeListed edges a b) := by
  obtain ⟨_, hrun⟩ := Graph.load_ok_extract h
  rw [Graph.addAll_has_edge_iff (Graph.init_SInv0 _) hrun a b,
    Graph.init_has_edge]
  constructor
  · rintro (hl | hfalse)
    · exact hl
    · exact absurd hfalse (by simp)
  · intro hl
    exact Or.inl hl

/-! ## Claim C10: duplicate edge insertion is idempotent -/

/-- C10: for every graph state and every edge `(u,v)` already present in
it, calling `add_edge(u, v)` again returns the state unchanged — the
vertex count, the edge count, the adjacency matrix and every neighbor set
are all identical because the very same state object is returned. -/
theorem c10_add_edge_idempotent (g : Graph) (u v : ℕ)
    (h : g.has_edge u v = true) :
    g.add_edge (u : ℤ) (v : ℤ) = .ok g := by
  have hu : u < g.n := Graph.has_edge_lt_left h
  have hv : v < g.n := Graph.has_edge_lt_right h
  have hadj : g.adjm u v = true := by
    unfold Graph.has_edge at h
    rw [if_pos ⟨hu, hv⟩] at h
    exact h
  unfold Graph.add_edge
  rw [if_neg (by push_neg; refine ⟨by omega, by omega, by omega, by omega⟩)]
  rw [show ((u : ℤ).toNat = u) from by omega, show ((v : ℤ).toNat = v) from by omega]
  rw [if_pos hadj]

/-- Helper for stating closed counterexamples: extract the graph of a
successful result. -/
def okD (r : Except GraphError Graph) : Graph :=
  match r with
  | .ok g => g
  | .error _ => Graph.init 0

/-- C10 witness at a concrete state. -/
theorem c10_add_edge_idempotent_witness :
    ((Graph.init 2).insertEdge 0 1).has_edge 0 1 = true ∧
      ((Graph.init 2).insertEdge 0 1).add_edge 0 1 =
        .ok ((Graph.init 2).insertEdge 0 1) :=
  ⟨by decide, c10_add_edge_idempotent _ 0 1 (by decide)⟩

/-! ## Claim C6: substrate invariants under add_edge -/

/-- C6 counterexample: the claim as stated is false.  From `Graph(1)`,
the single call `add_edge(0, 0)` succeeds and creates a self-loop, so the
reachable state violates I-2 (no self-loops) and I-3 (edge count is half
the degree sum): `m` becomes 1 while the degree sum is 1. -/
theorem c6_selfloop_counterexample :
    (Graph.init 1).add_edge 0 0 = .ok (okD ((Graph.init 1).add_edge 0 0)) ∧
    Graph.reachable (okD ((Graph.init 1).add_edge 0 0)) ∧
    (okD ((Graph.init 1).add_edge 0 0)).has_edge 0 0 = true ∧
    ¬ (okD ((Graph.init 1).add_edge 0 0)).I2 ∧
    ¬ (okD ((Graph.init 1).add_edge 0 0)).I3 := by
  refine ⟨rfl, Graph.reachable.step 0 0 (Graph.reachable.init 1) rfl, by decide, ?_, ?_⟩
  · intro h
    exact absurd (h 0) (by decide)
  · intro h
    have : (2 : ℕ) = 1 := by
      calc (2 : ℕ) = 2 * (okD ((Graph.init 1).add_edge 0 0)).m := by decide
      _ = ∑ v ∈ Finset.range (okD ((Graph.init 1).add_edge 0 0)).n,
            (okD ((Graph.init 1).add_edge 0 0)).get_degree v := h
      _ = 1 := by decide
    exact absurd this (by decide)

/-- C6 amended: every state reachable from the constructor by arbitrary
`add_edge` calls satisfies I-1; if moreover every call has distinct
endpoints (as all loader-issued calls do), the state also satisfies I-2
and I-3. -/
theorem c6_substrate_invariants_amended :
    (∀ g : Graph, g.reachable → g.I1) ∧
    (∀ g : Graph, g.reachableNE → g.I1 ∧ g.I2 ∧ g.I3) := by
  constructor
  · intro g h
    exact Graph.SInv0_I1 (Graph.reachable_SInv0 h)
  · intro g h
    have hs := Graph.reachableNE_SInvNE h
    exact ⟨Graph.SInv0_I1 hs.1, Graph.SInvNE_I2 hs, hs.2.2⟩

/-- C6 witness: the amended theorem applied to a concrete two-vertex
state reached by one distinct-endpoint call. -/
theorem c6_substrate_invariants_amended_witness :
    Graph.reachableNE (okD ((Graph.init 2).add_edge 0 1)) ∧
      ((okD ((Graph.init 2).add_edge 0 1)).I1 ∧
       (okD ((Graph.init 2).add_edge 0 1)).I2 ∧
       (okD ((Graph.init 2).add_edge 0 1)).I3) :=
  have hr : Graph.reachableNE (okD ((Graph.init 2).add_edge 0 1)) :=
    Graph.reachableNE.step 0 1 (by decide) (Graph.reachableNE.init 2) rfl
  ⟨hr, c6_substrate_invariants_amended.2 _ hr⟩

/-! ## Claim C7: loader error handling and idempotence -/

/-- C7 counterexample: a negative endpoint id does make the loader fail,
but through `add_edge`'s bounds check, i.e. with an out-of-range error —
not with `InvalidInput` as claimed; and a negative id occurring only in a
self-loop pair does not make the loader fail at all. -/
theorem c7_invalid_input_counterexample :
    Graph.load_from_snap [(-1, 5)] = .error .outOfRange ∧
    GraphError.outOfRange ≠ GraphError.invalidInput ∧
    Graph.load_from_snap [(-2, -2), (0, 1)] =
      .ok (okD (Graph.load_from_snap [(-2, -2), (0, 1)])) := by
  refine ⟨rfl, by decide, rfl⟩

/-- C7 amended: the loader ignores self-loop pairs (same edge count and
same adjacency), a pair already listed earlier (in either orientation) is
fully ignored, and a negative endpoint of a non-self-loop pair makes the
load fail with an out-of-range error (provided the first pass found any
non-negative id at all; otherwise the loader raises its runtime error
about missing edges before adding anything). -/
theorem c7_loader_amended :
    (∀ (E₁ E₂ : List (ℤ × ℤ)) (w : ℤ) (g : Graph),
      Graph.load_from_snap (E₁ ++ E₂) = .ok g →
      ∃ g', Graph.load_from_snap (E₁ ++ (w, w) :: E₂) = .ok g' ∧
        g'.m = g.m ∧ ∀ a b : ℕ, g'.has_edge a b = g.has_edge a b) ∧
    (∀ (E₁ E₂ : List (ℤ × ℤ)) (u v : ℤ), u ≠ v →
      ((u, v) ∈ E₁ ∨ (v, u) ∈ E₁) →
      Graph.load_from_snap (E₁ ++ (u, v) :: E₂) =
        Graph.load_from_snap (E₁ ++ E₂)) ∧
    (∀ edges : List (ℤ × ℤ), 0 ≤ snapMaxVertex edges →
      (∃ p ∈ edges, p.1 ≠ p.2 ∧ (p.1 < 0 ∨ p.2 < 0)) →
      Graph.load_from_snap edges = .error .outOfRange) := by
  refine ⟨?_, ?_, ?_⟩
  · -- self-loop pairs are ignored
    intro E₁ E₂ w g hok
    obtain ⟨hmax, hrun⟩ := Graph.load_ok_extract hok
    have hmax2 : snapMaxVertex (E₁ ++ (w, w) :: E₂) =
        max (snapMaxVertex (E₁ ++ E₂)) w := by
      rw [snapMaxVertex_middle]
      simp
    have hmax2' : 0 ≤ snapMaxVertex (E₁ ++ (w, w) :: E₂) := by
      rw [hmax2]
      omega
    have hn_le : (snapMaxVertex (E₁ ++ E₂) + 1).toNat ≤
        (snapMaxVertex (E₁ ++ (w, w) :: E₂) + 1).toNat := by
      rw [hmax2]
      omega
    have hequiv0 : GEquiv (Graph.init (snapMaxVertex (E₁ ++ E₂) + 1).toNat)
        (Graph.init (snapMaxVertex (E₁ ++ (w, w) :: E₂) + 1).toNat) := by
      refine ⟨rfl, ?_⟩
      intro a b
      rw [Graph.init_has_edge, Graph.init_has_edge]
    obtain ⟨g', hrun', hequiv⟩ := Graph.addAll_parallel hn_le hequiv0 hrun
    refine ⟨g', ?_, hequiv.1.symm, fun a b => (hequiv.2 a b).symm⟩
    unfold Graph.load_from_snap
    rw [if_neg (by omega)]
    rw [Graph.addAll_skip_selfloop]
    exact hrun'
  · -- duplicate pairs are fully ignored
    intro E₁ E₂ u v huv hmem
    have hmax_le : max u v ≤ snapMaxVertex (E₁ ++ E₂) := by
      rcases hmem with hm | hm
      · have := snapMaxVertex_bounds (List.mem_append_left E₂ hm)
        simp only at this
        omega
      · have := snapMaxVertex_bounds (List.mem_append_left E₂ hm)
        simp only at this
        omega
    have hmax_eq : snapMaxVertex (E₁ ++ (u, v) :: E₂) =
        snapMaxVertex (E₁ ++ E₂) := by
      rw [snapMaxVertex_middle]
      simp only
      omega
    unfold Graph.load_from_snap
    rw [hmax_eq]
    by_cases hm : snapMaxVertex (E₁ ++ E₂) < 0
    · rw [if_pos hm, if_pos hm]
    · rw [if_neg hm, if_neg hm]
      exact Graph.addAll_dup huv E₁ E₂ _ (Graph.init_SInv0 _)
        (by
          rcases hmem with hmm | hmm
          · exact Or.inl hmm
          · exact Or.inr (Or.inl hmm))
  · -- a negative endpoint of a real edge: out-of-range failure
    intro edges hmax hneg
    obtain ⟨p, hp, hpne, hplt⟩ := hneg
    unfold Graph.load_from_snap
    rw [if_neg (by omega)]
    rcases hres : (Graph.init (snapMaxVertex edges + 1).toNat).addAll edges with e | g'
    · rw [Graph.addAll_error hres]
    · obtain ⟨h1, _, h3, _⟩ := Graph.addAll_ok_bounds hres p hp hpne
      omega

/-- C7 witness: the amended duplicate clause applied to a concrete list. -/
theorem c7_loader_amended_witness :
    (0 : ℤ) ≠ 1 ∧ (((0 : ℤ), (1 : ℤ)) ∈ [((0 : ℤ), (1 : ℤ))]) ∧
      Graph.load_from_snap ([((0 : ℤ), (1 : ℤ))] ++ (0, 1) :: []) =
        Graph.load_from_snap ([((0 : ℤ), (1 : ℤ))] ++ []) :=
  ⟨by decide, by decide,
    c7_loader_amended.2.1 [(0, 1)] [] 0 1 (by decide) (Or.inl (by decide))⟩

/-! ## Claim C8: the loader does not remap ids -/

/-- C8 counterexample: loading the single edge `(2, 5)` produces a graph
on 6 vertices (ids are used directly, `n = max_id + 1`); vertex 0 of the
constructed graph corresponds to no id occurring in the input, refuting
the claimed dense remapping. -/
theorem c8_remap_counterexample :
    Graph.load_from_snap [(2, 5)] =
      .ok (okD (Graph.load_from_snap [(2, 5)])) ∧
    (okD (Graph.load_from_snap [(2, 5)])).n = 6 ∧
    ¬ (∀ w ∈ Finset.range (okD (Graph.load_from_snap [(2, 5)])).n,
        ∃ p ∈ [((2 : ℤ), (5 : ℤ))], p.1 = (w : ℤ) ∨ p.2 = (w : ℤ)) := by
  refine ⟨rfl, by decide, ?_⟩
  intro h
  obtain ⟨p, hp, hor⟩ := h 0 (by decide)
  rcases List.mem_cons.mp hp with rfl | hp'
  · rcases hor with h2 | h2 <;> exact absurd h2 (by decide)
  · exact absurd hp' (List.not_mem_nil p)

/-- C8 amended: the loader builds the graph over the dense range
`[0, max_id + 1)` without remapping: every listed non-self-loop pair is
connected at exactly its own (unchanged) ids; vertices below the maximum
id that do not occur in the input simply exist in the graph as isolated
vertices. -/
theorem c8_loader_range_amended (edges : List (ℤ × ℤ)) (g : Graph)
    (h : Graph.load_from_snap edges = .ok g) :
    g.n = (snapMaxVertex edges + 1).toNat ∧
    (∀ p ∈ edges, p.1 ≠ p.2 →
      p.1.toNat < g.n ∧ p.2.toNat < g.n ∧
        g.has_edge p.1.toNat p.2.toNat = true) := by
  obtain ⟨hmax, hrun⟩ := Graph.load_ok_extract h
  refine ⟨Graph.load_n h, ?_⟩
  intro p hp hpne
  obtain ⟨h1, h2, h3, h4⟩ := Graph.addAll_ok_bounds hrun p hp hpne
  have hn : g.n = (snapMaxVertex edges + 1).toNat := Graph.load_n h
  refine ⟨by simp only [Graph.init] at h2; omega, by simp only [Graph.init] at h4; omega, ?_⟩
  rw [Graph.load_has_edge_iff h]
  exact ⟨p, hp, hpne, Or.inl ⟨by omega, by omega⟩⟩

/-- C8 witness: the amended statement on the concrete input `[(2, 5)]`. -/
theorem c8_loader_range_amended_witness :
    Graph.load_from_snap [(2, 5)] =
      .ok (okD (Graph.load_from_snap [(2, 5)])) ∧
    ((okD (Graph.load_from_snap [(2, 5)])).n =
      (snapMaxVertex [(2, 5)] + 1).toNat ∧
    (∀ p ∈ [((2 : ℤ), (5 : ℤ))], p.1 ≠ p.2 →
      p.1.toNat < (okD (Graph.load_from_snap [(2, 5)])).n ∧
      p.2.toNat < (okD (Graph.load_from_snap [(2, 5)])).n ∧
      (okD (Graph.load_from_snap [(2, 5)])).has_edge p.1.toNat p.2.toNat = true)) :=
  ⟨rfl, c8_loader_range_amended [(2, 5)] _ rfl⟩

/-! ## Iteration order and argmax scans

`std::unordered_set` iteration order is unspecified; the model iterates
sets in ascending vertex id (the order the bitset variants use anyway). -/

/-- Ascending-id iteration of a vertex set bounded by `n`. -/
def ascListN (n : ℕ) (s : Finset ℕ) : List ℕ :=
  (List.range n).filter (fun v => decide (v ∈ s))

theorem ascListN_nodup (n : ℕ) (s : Finset ℕ) : (ascListN n s).Nodup :=
  (List.nodup_range n).filter _

theorem mem_ascListN {n : ℕ} {s : Finset ℕ} {v : ℕ} :
    v ∈ ascListN n s ↔ v < n ∧ v ∈ s := by
  unfold ascListN
  rw [List.mem_filter, List.mem_range]
  simp

theorem ascListN_toFinset {n : ℕ} {s : Finset ℕ} (hs : s ⊆ Finset.range n) :
    (ascListN n s).toFinset = s := by
  apply Finset.ext
  intro v
  rw [List.mem_toFinset, mem_ascListN]
  constructor
  · exact fun h => h.2
  · intro hv
    exact ⟨Finset.mem_range.mp (hs hv), hv⟩

/-- The select-the-strict-maximum scan: start from "no candidate"
(`best = -1` in the C++), take each element whose key strictly exceeds the
best so far. -/
def argmaxScan (f : ℕ → ℕ) (l : List ℕ) (acc : Option (ℕ × ℕ)) :
    Option (ℕ × ℕ) :=
  l.foldl (fun acc v =>
    match acc with
    | none => some (v, f v)
    | some (bv, bd) => if f v > bd then some (v, f v) else some (bv, bd)) acc

theorem argmaxScan_none_iff (f : ℕ → ℕ) (l : List ℕ) :
    argmaxScan f l none = none ↔ l = [] := by
  cases l with
  | nil => exact ⟨fun _ => rfl, fun _ => rfl⟩
  | cons x rest =>
    constructor
    · intro h
      exfalso
      -- the accumulator never returns to `none`
      have main : ∀ (l' : List ℕ) (b : ℕ × ℕ),
          argmaxScan f l' (some b) ≠ none := by
        intro l'
        induction l' with
        | nil => intro b h'; exact absurd h' (by simp [argmaxScan])
        | cons y ys ih =>
          intro b
          show argmaxScan f ys (if f y > b.2 then some (y, f y) else some (b.1, b.2)) ≠ none
          by_cases hy : f y > b.2
          · rw [if_pos hy]; exact ih (y, f y)
          · rw [if_neg hy]; exact ih (b.1, b.2)
      exact main rest (x, f x) h
    · intro h
      rw [h]
      rfl

/-- Full characterization of the scan started from accumulator
`some (b, f b)`: either nothing beat `b`, or the result is the first
element that strictly beats everything before it (and at least ties with
everything after). -/
theorem argmaxScan_spec (f : ℕ → ℕ) (l : List ℕ) (b : ℕ) {res : ℕ × ℕ}
    (h : argmaxScan f l (some (b, f b)) = some res) :
    (res = (b, f b) ∧ ∀ u ∈ l, f u ≤ f b) ∨
    (∃ v l₁ l₂, res = (v, f v) ∧ l = l₁ ++ v :: l₂ ∧ f b < f v ∧
      (∀ u ∈ l₁, f u < f v) ∧ (∀ u ∈ l₂, f u ≤ f v)) := by
  induction l generalizing b with
  | nil =>
    left
    constructor
    · have h' : some (b, f b) = some res := h
      injection h' with h''
      exact h''.symm
    · intro u hu
      exact absurd hu (List.not_mem_nil u)
  | cons x rest ih =>
    have hstep : argmaxScan f (x :: rest) (some (b, f b)) =
        argmaxScan f rest (if f x > f b then some (x, f x) else some (b, f b)) := rfl
    by_cases hx : f x > f b
    · rw [hstep, if_pos hx] at h
      rcases ih x h with ⟨hres, hall⟩ | ⟨v, l₁, l₂, hres, hsplit, hlt, hbefore, hafter⟩
      · right
        exact ⟨x, [], rest, hres, rfl, hx, fun u hu => absurd hu (List.not_mem_nil u), hall⟩
      · right
        refine ⟨v, x :: l₁, l₂, hres, by rw [hsplit]; rfl, by omega, ?_, hafter⟩
        intro u hu
        rcases List.mem_cons.mp hu with rfl | hu'
        · omega
        · exact hbefore u hu'
    · rw [hstep, if_neg hx] at h
      rcases ih b h with ⟨hres, hall⟩ | ⟨v, l₁, l₂, hres, hsplit, hlt, hbefore, hafter⟩
      · left
        refine ⟨hres, ?_⟩
        intro u hu
        rcases List.mem_cons.mp hu with rfl | hu'
        · omega
        · exact hall u hu'
      · right
        refine ⟨v, x :: l₁, l₂, hres, by rw [hsplit]; rfl, hlt, ?_, hafter⟩
        intro u hu
        rcases List.mem_cons.mp hu with rfl | hu'
        · omega
        · exact hbefore u hu'

/-- Weak consequences of the scan: the result is a list member achieving
the maximum key. -/
theorem argmaxScan_max {f : ℕ → ℕ} {l : List ℕ} {res : ℕ × ℕ}
    (h : argmaxScan f l none = some res) :
    res.1 ∈ l ∧ res.2 = f res.1 ∧ ∀ u ∈ l, f u ≤ f res.1 := by
  cases l with
  | nil => exact absurd h (by simp [argmaxScan])
  | cons x rest =>
    have hstep : argmaxScan f (x :: rest) none =
        argmaxScan f rest (some (x, f x)) := rfl
    rw [hstep] at h
    rcases argmaxScan_spec f rest x h with ⟨hres, hall⟩ | ⟨v, l₁, l₂, hres, hsplit, hlt, hbefore, hafter⟩
    · rw [hres]
      refine ⟨List.mem_cons_self x rest, rfl, ?_⟩
      intro u hu
      rcases List.mem_cons.mp hu with rfl | hu'
      · exact le_refl _
      · exact hall u hu'
    · have h1 : res.1 = v := by rw [hres]
      have h2 : res.2 = f res.1 := by rw [hres]
      refine ⟨?_, h2, ?_⟩
      · rw [h1, hsplit]
        exact List.mem_cons_of_mem x
          (List.mem_append_right l₁ (List.mem_cons_self v l₂))
      · intro u hu
        rw [h1]
        rcases List.mem_cons.mp hu with rfl | hu'
        · omega
        · rw [hsplit] at hu'
          rcases List.mem_append.mp hu' with hu₁ | hu₂
          · have := hbefore u hu₁
            omega
          · rcases List.mem_cons.mp hu₂ with rfl | hu₃
            · exact le_refl _
            · exact hafter u hu₃

/-! ## The greedy seed producer
(`TomitaAlgorithm::find_greedy_clique`, textually identical in
`DegeneracyBK::find_greedy_clique` and `MaxCliqueDyn::find_greedy_clique`) -/

/-- The candidate-selection loop: repeatedly pick the candidate with the
largest degree inside the candidate set (`-1` start, strict improvement,
ties to the first in iteration order), append it to the clique, and keep
only its neighbors among the remaining candidates. -/
def find_greedy_clique_loop (g : Graph) : ℕ → Finset ℕ → List ℕ → List ℕ
  | 0, _, clique => clique
  | fuel + 1, cand, clique =>
    if cand = ∅ then clique
    else
      match argmaxScan (fun v => (cand.filter (fun u => u ∈ g.adjl v)).card)
          (ascListN g.n cand) none with
      | none => clique
      | some (nv, _) =>
        find_greedy_clique_loop g fuel
          (cand.filter (fun u => u ≠ nv ∧ u ∈ g.adjl nv)) (clique ++ [nv])

/-- `find_greedy_clique`: start from the vertex of maximum degree
(first maximizer in id order), then run the candidate loop on its
neighborhood. -/
def find_greedy_clique (g : Graph) : List ℕ :=
  match argmaxScan (fun v => (g.adjl v).card) (List.range g.n) none with
  | none => []
  | some (bv, _) => find_greedy_clique_loop g g.n (g.adjl bv) [bv]

/-- Invariant carried by the greedy loop. -/
def GreedyInv (g : Graph) (cand : Finset ℕ) (clique : List ℕ) : Prop :=
  g.is_clique clique.toFinset ∧ clique.Nodup ∧
  (∀ q ∈ clique, q < g.n) ∧ cand ⊆ Finset.range g.n ∧
  (∀ c ∈ cand, ∀ q ∈ clique, g.has_edge c q = true) ∧
  (∀ c ∈ cand, c ∉ clique)

theorem find_greedy_clique_loop_spec {g : Graph} (hwf : g.WFb) :
    ∀ (fuel : ℕ) (cand : Finset ℕ) (clique : List ℕ),
      GreedyInv g cand clique →
      g.is_clique (find_greedy_clique_loop g fuel cand clique).toFinset ∧
        (find_greedy_clique_loop g fuel cand clique).Nodup ∧
        (∀ q ∈ find_greedy_clique_loop g fuel cand clique, q < g.n) ∧
        clique.length ≤ (find_greedy_clique_loop g fuel cand clique).length := by
  intro fuel
  induction fuel with
  | zero =>
    intro cand clique hinv
    exact ⟨hinv.1, hinv.2.1, hinv.2.2.1, le_refl _⟩
  | succ fuel ih =>
    intro cand clique hinv
    by_cases hc : cand = ∅
    · have hred : find_greedy_clique_loop g (fuel + 1) cand clique = clique := by
        show (if cand = ∅ then clique else _) = clique
        rw [if_pos hc]
      rw [hred]
      exact ⟨hinv.1, hinv.2.1, hinv.2.2.1, le_refl _⟩
    · rcases hscan : argmaxScan (fun v => (cand.filter (fun u => u ∈ g.adjl v)).card)
          (ascListN g.n cand) none with - | ⟨nv, d⟩
      · exfalso
        obtain ⟨x, hx⟩ := Finset.nonempty_iff_ne_empty.mpr hc
        have hx' : x ∈ ascListN g.n cand := mem_ascListN.mpr
          ⟨Finset.mem_range.mp (hinv.2.2.2.1 hx), hx⟩
        rw [(argmaxScan_none_iff _ _).mp hscan] at hx'
        exact absurd hx' (List.not_mem_nil x)
      · have hred : find_greedy_clique_loop g (fuel + 1) cand clique =
            find_greedy_clique_loop g fuel
              (cand.filter (fun u => u ≠ nv ∧ u ∈ g.adjl nv)) (clique ++ [nv]) := by
          show (if cand = ∅ then clique
            else match argmaxScan (fun v => (cand.filter (fun u => u ∈ g.adjl v)).card)
                (ascListN g.n cand) none with
              | none => clique
              | some (nv, _) =>
                find_greedy_clique_loop g fuel
                  (cand.filter (fun u => u ≠ nv ∧ u ∈ g.adjl nv)) (clique ++ [nv])) = _
          rw [if_neg hc, hscan]
        rw [hred]
        obtain ⟨hmem, -, -⟩ := argmaxScan_max hscan
        have hnv : nv ∈ cand := (mem_ascListN.mp hmem).2
        have hnvn : nv < g.n := (mem_ascListN.mp hmem).1
        obtain ⟨hclq, hnd, hlt, hcr, hadj, hdisj⟩ := hinv
        have hstep : GreedyInv g (cand.filter (fun u => u ≠ nv ∧ u ∈ g.adjl nv))
            (clique ++ [nv]) := by
          refine ⟨?_, ?_, ?_, ?_, ?_, ?_⟩
          · rw [List.toFinset_append]
            have hun : clique.toFinset ∪ [nv].toFinset = insert nv clique.toFinset := by
              show clique.toFinset ∪ {nv} = insert nv clique.toFinset
              rw [Finset.union_comm, ← Finset.insert_eq]
            rw [hun]
            exact AClique.insert_of_adj (Graph.has_edge_symm hwf) hclq
              (fun u hu _ => hadj nv hnv u (List.mem_toFinset.mp hu))
          · rw [List.nodup_append]
            refine ⟨hnd, List.nodup_singleton nv, ?_⟩
            intro a ha hb
            have hab : a = nv := List.mem_singleton.mp hb
            rw [hab] at ha
            exact hdisj nv hnv ha
          · intro q hq
            rcases List.mem_append.mp hq with hq' | hq'
            · exact hlt q hq'
            · rcases List.mem_singleton.mp hq' with rfl
              exact hnvn
          · exact (Finset.filter_subset _ _).trans hcr
          · intro c hcm q hq
            have hcm' := Finset.mem_filter.mp hcm
            rcases List.mem_append.mp hq with hq' | hq'
            · exact hadj c hcm'.1 q hq'
            · rcases List.mem_singleton.mp hq' with rfl
              rw [Graph.has_edge_symm hwf]
              exact (Graph.mem_adjl_iff hwf hnvn).mp hcm'.2.2
          · intro c hcm hq
            have hcm' := Finset.mem_filter.mp hcm
            rcases List.mem_append.mp hq with hq' | hq'
            · exact hdisj c hcm'.1 hq'
            · rcases List.mem_singleton.mp hq' with heq
              exact hcm'.2.1 heq
        obtain ⟨h1, h2, h3, hlen⟩ := ih _ _ hstep
        refine ⟨h1, h2, h3, ?_⟩
        calc clique.length ≤ (clique ++ [nv]).length := by
              rw [List.length_append]; omega
        _ ≤ _ := hlen

/-- C9: the greedy seed producer returns a duplicate-free vertex list that
is a clique of `G`; it returns the empty clique when `n = 0`, and a clique
of size at least 1 whenever `n ≥ 1`; being a total function, it never
fails. -/
theorem c9_greedy_seed_correct (g : Graph) (hwf : g.WFb) :
    g.is_clique (find_greedy_clique g).toFinset ∧
    (find_greedy_clique g).Nodup ∧
    (∀ v ∈ find_greedy_clique g, v < g.n) ∧
    (g.n = 0 → find_greedy_clique g = []) ∧
    (1 ≤ g.n → 1 ≤ (find_greedy_clique g).length) := by
  unfold find_greedy_clique
  rcases hscan : argmaxScan (fun v => (g.adjl v).card) (List.range g.n) none
      with - | ⟨bv, d⟩
  · refine ⟨?_, List.nodup_nil, ?_, fun _ => rfl, ?_⟩
    · intro u hu
      simp at hu
    · intro v hv
      exact absurd hv (List.not_mem_nil v)
    · intro hn
      have := (argmaxScan_none_iff _ _).mp hscan
      have h0 : (0 : ℕ) ∈ List.range g.n := List.mem_range.mpr (by omega)
      rw [this] at h0
      exact absurd h0 (List.not_mem_nil 0)
  · obtain ⟨hmem, -, -⟩ := argmaxScan_max hscan
    have hbv : bv < g.n := List.mem_range.mp hmem
    have hinv : GreedyInv g (g.adjl bv) [bv] := by
      refine ⟨?_, List.nodup_singleton bv, ?_, Graph.adjl_subset_range hwf hbv, ?_, ?_⟩
      · intro u hu v hv huv
        have h1 : u = bv := by simpa using hu
        have h2 : v = bv := by simpa using hv
        rw [h1, h2] at huv
        exact absurd rfl huv
      · intro q hq
        rcases List.mem_singleton.mp hq with rfl
        exact hbv
      · intro c hcm q hq
        rcases List.mem_singleton.mp hq with rfl
        rw [Graph.has_edge_symm hwf]
        exact (Graph.mem_adjl_iff hwf hbv).mp hcm
      · intro c hcm hq
        rcases List.mem_singleton.mp hq with rfl
        exact Graph.not_mem_adjl_self hwf hbv hcm
    obtain ⟨hclq, hnd, hlt, hlen⟩ :=
      find_greedy_clique_loop_spec hwf g.n (g.adjl bv) [bv] hinv
    refine ⟨hclq, hnd, hlt, ?_, ?_⟩
    · intro hn
      omega
    · intro _
      calc (1 : ℕ) = [bv].length := rfl
      _ ≤ _ := hlen

/-- A concrete well-formed triangle graph (scenario S1 of the spec),
used as witness input. -/
def triG : Graph :=
  { n := 3
    m := 3
    adjm := fun u v => decide ((u = 0 ∧ v = 1) ∨ (u = 1 ∧ v = 0) ∨
      (u = 0 ∧ v = 2) ∨ (u = 2 ∧ v = 0) ∨ (u = 1 ∧ v = 2) ∨ (u = 2 ∧ v = 1))
    adjl := fun v =>
      if v = 0 then {1, 2} else if v = 1 then {0, 2}
      else if v = 2 then {0, 1} else ∅ }

/-- C9 witness: the greedy seed on the triangle. -/
theorem c9_greedy_seed_correct_witness :
    triG.WFb ∧
      (triG.is_clique (find_greedy_clique triG).toFinset ∧
      (find_greedy_clique triG).Nodup ∧
      (∀ v ∈ find_greedy_clique triG, v < triG.n) ∧
      (triG.n = 0 → find_greedy_clique triG = []) ∧
      (1 ≤ triG.n → 1 ≤ (find_greedy_clique triG).length)) :=
  ⟨by decide, c9_greedy_seed_correct triG (by decide)⟩

/-! ## Claim C5: pivot selection -/

/-- The pivot key: `|P ∩ N(v)|`. -/
def pivotScore (g : Graph) (P : Finset ℕ) (v : ℕ) : ℕ :=
  (P.filter (fun u => u ∈ g.adjl v)).card

/-- `choose_pivot` (TomitaAlgorithm / DegeneracyBK / CPUOptimized): scan
the vertices of `P` and then those of `X` in ascending id order, keeping
the first vertex whose key strictly exceeds the best so far
(`max_intersection` starts at -1, so the first vertex scanned is always
taken); `-1` (no vertex) is modelled as `none`. -/
def choose_pivot (g : Graph) (P X : Finset ℕ) : Option ℕ :=
  (argmaxScan (pivotScore g P) (ascListN g.n P ++ ascListN g.n X) none).map
    Prod.fst

theorem split_align_not_mem {A B l₁ l₂ : List ℕ} {v : ℕ}
    (h : A ++ B = l₁ ++ v :: l₂) (hv : v ∉ A) :
    ∃ s₁, B = s₁ ++ v :: l₂ ∧ l₁ = A ++ s₁ := by
  induction A generalizing l₁ with
  | nil =>
    exact ⟨l₁, h, rfl⟩
  | cons a A' ih =>
    cases l₁ with
    | nil =>
      injection h with h1 h2
      exact absurd h1.symm (fun hh => hv (hh ▸ List.mem_cons_self a A'))
    | cons x l₁' =>
      injection h with h1 h2
      obtain ⟨s₁, hB, hl⟩ := ih h2 (fun hh => hv (List.mem_cons_of_mem a hh))
      exact ⟨s₁, hB, by rw [h1, hl]; rfl⟩

theorem split_align_mem {A B l₁ l₂ : List ℕ} {v : ℕ}
    (hnd : (A ++ B).Nodup) (h : A ++ B = l₁ ++ v :: l₂) (hv : v ∈ A) :
    ∃ s₂, A = l₁ ++ v :: s₂ ∧ l₂ = s₂ ++ B := by
  induction A generalizing l₁ with
  | nil => exact absurd hv (List.not_mem_nil v)
  | cons a A' ih =>
    cases l₁ with
    | nil =>
      injection h with h1 h2
      exact ⟨A', by rw [h1]; rfl, h2.symm⟩
    | cons x l₁' =>
      injection h with h1 h2
      have hva : v ≠ a := by
        intro hh
        have hnotin : a ∉ A' ++ B := (List.nodup_cons.mp hnd).1
        apply hnotin
        rw [← hh]
        show v ∈ A' ++ B
        rw [show A' ++ B = l₁' ++ v :: l₂ from h2]
        exact List.mem_append_right l₁' (List.mem_cons_self v l₂)
      have hv' : v ∈ A' := by
        rcases List.mem_cons.mp hv with hh | hh
        · exact absurd hh hva
        · exact hh
      obtain ⟨s₂, hA, hl⟩ := ih (List.nodup_cons.mp hnd).2 h2 hv'
      exact ⟨s₂, by rw [h1, hA]; rfl, hl⟩

theorem ascListN_sorted (n : ℕ) (s : Finset ℕ) :
    (ascListN n s).Pairwise (· < ·) :=
  (List.pairwise_lt_range n).filter _

/-- In an ascending list split at `v`, everything after `v` is larger. -/
theorem sorted_split_gt {l l₁ l₂ : List ℕ} {v : ℕ}
    (hs : l.Pairwise (· < ·)) (h : l = l₁ ++ v :: l₂) :
    ∀ p ∈ l₂, v < p := by
  rw [h] at hs
  have := (List.pairwise_append.mp hs).2.1
  exact (List.pairwise_cons.mp this).1

theorem argmaxScan_first {f : ℕ → ℕ} {l : List ℕ} {res : ℕ × ℕ}
    (h : argmaxScan f l none = some res) :
    ∃ v l₁ l₂, res = (v, f v) ∧ l = l₁ ++ v :: l₂ ∧
      (∀ u ∈ l₁, f u < f v) ∧ (∀ u ∈ l₂, f u ≤ f v) := by
  cases l with
  | nil => exact absurd h (by simp [argmaxScan])
  | cons x rest =>
    have hstep : argmaxScan f (x :: rest) none =
        argmaxScan f rest (some (x, f x)) := rfl
    rw [hstep] at h
    rcases argmaxScan_spec f rest x h with ⟨hres, hall⟩ |
        ⟨v, l₁, l₂, hres, hsplit, hlt, hbefore, hafter⟩
    · exact ⟨x, [], rest, hres, rfl,
        fun u hu => absurd hu (List.not_mem_nil u), hall⟩
    · refine ⟨v, x :: l₁, l₂, hres, by rw [hsplit]; rfl, ?_, hafter⟩
      intro u hu
      rcases List.mem_cons.mp hu with rfl | hu'
      · exact hlt
      · exact hbefore u hu'

/-- C5 amended: `choose_pivot` returns a vertex of `P ∪ X` maximizing
`|P ∩ N(u)|`; but the tie-break is not "globally smallest id": the scan
visits `P` before `X`, so the result is the smallest-id maximizer in `P`
whenever `P` contains a maximizer, and otherwise (all vertices of `P`
score strictly less) the smallest-id maximizer in `X`. -/
theorem c5_pivot_spec_amended (g : Graph) (P X : Finset ℕ)
    (hP : P ⊆ Finset.range g.n) (hX : X ⊆ Finset.range g.n)
    (hdisj : Disjoint P X) (hne : (P ∪ X).Nonempty) :
    ∃ u, choose_pivot g P X = some u ∧ u ∈ P ∪ X ∧
      (∀ w ∈ P ∪ X, pivotScore g P w ≤ pivotScore g P u) ∧
      ((u ∈ P ∧ ∀ p ∈ P, pivotScore g P p = pivotScore g P u → u ≤ p) ∨
       (u ∈ X ∧ (∀ p ∈ P, pivotScore g P p < pivotScore g P u) ∧
         (∀ x ∈ X, pivotScore g P x = pivotScore g P u → u ≤ x))) := by
  set f := pivotScore g P with hf
  set L := ascListN g.n P ++ ascListN g.n X with hL
  have hnodup : L.Nodup := by
    rw [hL, List.nodup_append]
    refine ⟨ascListN_nodup _ _, ascListN_nodup _ _, ?_⟩
    intro a haP haX
    have h1 := (mem_ascListN.mp haP).2
    have h2 := (mem_ascListN.mp haX).2
    exact Finset.disjoint_left.mp hdisj h1 h2
  have hLne : L ≠ [] := by
    obtain ⟨x, hx⟩ := hne
    rcases Finset.mem_union.mp hx with hx' | hx'
    · intro hc
      have : x ∈ L := by
        rw [hL]
        exact List.mem_append_left _
          (mem_ascListN.mpr ⟨Finset.mem_range.mp (hP hx'), hx'⟩)
      rw [hc] at this
      exact absurd this (List.not_mem_nil x)
    · intro hc
      have : x ∈ L := by
        rw [hL]
        exact List.mem_append_right _
          (mem_ascListN.mpr ⟨Finset.mem_range.mp (hX hx'), hx'⟩)
      rw [hc] at this
      exact absurd this (List.not_mem_nil x)
  rcases hscan : argmaxScan f L none with - | res
  · rw [(argmaxScan_none_iff f L).mp hscan] at hLne
    exact absurd rfl hLne
  · obtain ⟨v, l₁, l₂, hres, hsplit, hbefore, hafter⟩ := argmaxScan_first hscan
    have hret : choose_pivot g P X = some v := by
      unfold choose_pivot
      rw [← hL, ← hf, hscan, hres]
      rfl
    have hmem_split : ∀ w, w ∈ L → w ∈ l₁ ∨ w = v ∨ w ∈ l₂ := by
      intro w hw
      rw [hsplit] at hw
      rcases List.mem_append.mp hw with hw' | hw'
      · exact Or.inl hw'
      · rcases List.mem_cons.mp hw' with hw'' | hw''
        · exact Or.inr (Or.inl hw'')
        · exact Or.inr (Or.inr hw'')
    have hmemL : ∀ w ∈ P ∪ X, w ∈ L := by
      intro w hw
      rcases Finset.mem_union.mp hw with hw' | hw'
      · exact List.mem_append_left _
          (mem_ascListN.mpr ⟨Finset.mem_range.mp (hP hw'), hw'⟩)
      · exact List.mem_append_right _
          (mem_ascListN.mpr ⟨Finset.mem_range.mp (hX hw'), hw'⟩)
    have hvL : v ∈ L := by
      rw [hsplit]
      exact List.mem_append_right l₁ (List.mem_cons_self v l₂)
    have hvPX : v ∈ P ∪ X := by
      rcases List.mem_append.mp (hL ▸ hvL) with hv' | hv'
      · exact Finset.mem_union_left X (mem_ascListN.mp hv').2
      · exact Finset.mem_union_right P (mem_ascListN.mp hv').2
    have hmax : ∀ w ∈ P ∪ X, f w ≤ f v := by
      intro w hw
      rcases hmem_split w (hmemL w hw) with h' | h' | h'
      · exact le_of_lt (hbefore w h')
      · rw [h']
      · exact hafter w h'
    refine ⟨v, hret, hvPX, hmax, ?_⟩
    by_cases hvP : v ∈ P
    · left
      refine ⟨hvP, ?_⟩
      intro p hp hpeq
      have hvasc : v ∈ ascListN g.n P :=
        mem_ascListN.mpr ⟨Finset.mem_range.mp (hP hvP), hvP⟩
      have hsplit' : ascListN g.n P ++ ascListN g.n X = l₁ ++ v :: l₂ := by
        rw [← hL]; exact hsplit
      have hnodup' : (ascListN g.n P ++ ascListN g.n X).Nodup := by
        rw [← hL]; exact hnodup
      obtain ⟨s₂, hA, hl₂⟩ := split_align_mem hnodup' hsplit' hvasc
      have hpasc : p ∈ ascListN g.n P :=
        mem_ascListN.mpr ⟨Finset.mem_range.mp (hP hp), hp⟩
      rw [hA] at hpasc
      rcases List.mem_append.mp hpasc with hp' | hp'
      · have := hbefore p hp'
        omega
      · rcases List.mem_cons.mp hp' with heq | hp''
        · omega
        · have := sorted_split_gt (ascListN_sorted g.n P) hA p hp''
          omega
    · right
      have hvX : v ∈ X := by
        rcases Finset.mem_union.mp hvPX with h' | h'
        · exact absurd h' hvP
        · exact h'
      have hvasc : v ∉ ascListN g.n P := by
        intro hc
        exact hvP (mem_ascListN.mp hc).2
      have hsplit' : ascListN g.n P ++ ascListN g.n X = l₁ ++ v :: l₂ := by
        rw [← hL]; exact hsplit
      obtain ⟨s₁, hB, hl₁⟩ := split_align_not_mem hsplit' hvasc
      refine ⟨hvX, ?_, ?_⟩
      · intro p hp
        apply hbefore
        rw [hl₁]
        exact List.mem_append_left s₁
          (mem_ascListN.mpr ⟨Finset.mem_range.mp (hP hp), hp⟩)
      · intro x hx hxeq
        have hxasc : x ∈ ascListN g.n X :=
          mem_ascListN.mpr ⟨Finset.mem_range.mp (hX hx), hx⟩
        rw [hB] at hxasc
        rcases List.mem_append.mp hxasc with hx' | hx'
        · have : x ∈ l₁ := by
            rw [hl₁]
            exact List.mem_append_right _ hx'
          have := hbefore x this
          omega
        · rcases List.mem_cons.mp hx' with heq | hx''
          · omega
          · have := sorted_split_gt (ascListN_sorted g.n X) hB x hx''
            omega

/-- Concrete graph for the C5 counterexample: 6 vertices,
edges {4,5} and {0,5}. -/
def c5G : Graph :=
  { n := 6
    m := 2
    adjm := fun u v => decide ((u = 4 ∧ v = 5) ∨ (u = 5 ∧ v = 4) ∨
      (u = 0 ∧ v = 5) ∨ (u = 5 ∧ v = 0))
    adjl := fun v =>
      if v = 0 then {5} else if v = 4 then {5}
      else if v = 5 then {0, 4} else ∅ }

/-- C5 counterexample: with `P = {4,5}` and `X = {0}` all three vertices
tie at `|P ∩ N(u)| = 1`; the smallest-id maximizer is `0`, but
`choose_pivot` scans `P` first and returns `4`. -/
theorem c5_pivot_tiebreak_counterexample :
    choose_pivot c5G {4, 5} {0} = some 4 ∧
    (0 : ℕ) ∈ ({4, 5} : Finset ℕ) ∪ {0} ∧
    pivotScore c5G {4, 5} 0 = pivotScore c5G {4, 5} 4 ∧
    ¬ (4 : ℕ) ≤ 0 := by
  refine ⟨by decide, by decide, by decide, by decide⟩

/-- C5 witness: the amended characterization on the counterexample
instance. -/
theorem c5_pivot_spec_amended_witness :
    (({4, 5} : Finset ℕ) ⊆ Finset.range c5G.n ∧
     ({0} : Finset ℕ) ⊆ Finset.range c5G.n ∧
     Disjoint ({4, 5} : Finset ℕ) {0} ∧
     (({4, 5} : Finset ℕ) ∪ {0}).Nonempty) ∧
    (∃ u, choose_pivot c5G {4, 5} {0} = some u ∧ u ∈ ({4, 5} : Finset ℕ) ∪ {0} ∧
      (∀ w ∈ ({4, 5} : Finset ℕ) ∪ {0},
        pivotScore c5G {4, 5} w ≤ pivotScore c5G {4, 5} u) ∧
      ((u ∈ ({4, 5} : Finset ℕ) ∧ ∀ p ∈ ({4, 5} : Finset ℕ),
          pivotScore c5G {4, 5} p = pivotScore c5G {4, 5} u → u ≤ p) ∨
       (u ∈ ({0} : Finset ℕ) ∧
         (∀ p ∈ ({4, 5} : Finset ℕ),
           pivotScore c5G {4, 5} p < pivotScore c5G {4, 5} u) ∧
         (∀ x ∈ ({0} : Finset ℕ),
           pivotScore c5G {4, 5} x = pivotScore c5G {4, 5} u → u ≤ x)))) :=
  ⟨⟨by decide, by decide, by decide, by decide⟩,
    c5_pivot_spec_amended c5G {4, 5} {0} (by decide) (by decide) (by decide)
      (by decide)⟩

/-! ## Claim C4: degeneracy ordering
(`Graph::compute_degeneracy_ordering` and `Graph::get_degeneracy` run the
same selection loop — find the unremoved vertex of minimum residual degree
scanning ids upward with `min_degree` starting at `n+1`, remove it, and
decrement the residual degrees of its unremoved neighbors.  The shared
loop is modelled once by `degeneracy_peel`, which records the pair
`(min_vertex, min_degree)` of every iteration; the ordering keeps the
vertices, the degeneracy folds `max` over the recorded degrees starting
from 0.) -/

/-- One selection scan of the loop body: `(min_degree, min_vertex)` with
`min_degree` starting at `n + 1` and `min_vertex` at "none" (`-1`). -/
def degMinSelect (degs : ℕ → ℕ) (removed : Finset ℕ) (n : ℕ) : ℕ × Option ℕ :=
  (List.range n).foldl
    (fun acc v => if v ∉ removed ∧ degs v < acc.1 then (degs v, some v) else acc)
    (n + 1, none)

/-- The tracked minimum never increases along the selection fold. -/
theorem degMinFold_mono (degs : ℕ → ℕ) (removed : Finset ℕ) (l : List ℕ) :
    ∀ acc : ℕ × Option ℕ,
      (l.foldl (fun acc v =>
        if v ∉ removed ∧ degs v < acc.1 then (degs v, some v) else acc) acc).1 ≤
        acc.1 := by
  induction l with
  | nil => intro acc; exact le_refl _
  | cons y ys ih =>
    intro acc
    show (ys.foldl _ (if y ∉ removed ∧ degs y < acc.1 then (degs y, some y) else acc)).1 ≤ _
    by_cases hy : y ∉ removed ∧ degs y < acc.1
    · rw [if_pos hy]
      calc (ys.foldl _ (degs y, some y)).1 ≤ degs y := ih _
      _ ≤ acc.1 := le_of_lt hy.2
    · rw [if_neg hy]
      exact ih acc

/-- Once the fold has selected a vertex it never forgets it. -/
theorem degMinFold_stays (degs : ℕ → ℕ) (removed : Finset ℕ) (l : List ℕ) :
    ∀ (b bd : ℕ),
      (l.foldl (fun acc v =>
        if v ∉ removed ∧ degs v < acc.1 then (degs v, some v) else acc)
        (bd, some b)).2 ≠ none := by
  induction l with
  | nil => intro b bd h; exact absurd h (by simp)
  | cons y ys ih =>
    intro b bd
    show (ys.foldl _ (if y ∉ removed ∧ degs y < bd then (degs y, some y) else (bd, some b))).2 ≠ none
    by_cases hy : y ∉ removed ∧ degs y < bd
    · rw [if_pos hy]; exact ih y (degs y)
    · rw [if_neg hy]; exact ih b bd

theorem degMinFold_spec (degs : ℕ → ℕ) (removed : Finset ℕ) (l : List ℕ) :
    ∀ acc : ℕ × Option ℕ,
      (∀ bv, acc.2 = some bv → acc.1 = degs bv ∧ bv ∉ removed) →
      ((∀ bv, (l.foldl (fun acc v =>
          if v ∉ removed ∧ degs v < acc.1 then (degs v, some v) else acc) acc).2 =
            some bv →
        (l.foldl (fun acc v =>
          if v ∉ removed ∧ degs v < acc.1 then (degs v, some v) else acc) acc).1 =
            degs bv ∧ bv ∉ removed ∧ (bv ∈ l ∨ acc.2 = some bv)) ∧
      (∀ v ∈ l, v ∉ removed →
        (l.foldl (fun acc v =>
          if v ∉ removed ∧ degs v < acc.1 then (degs v, some v) else acc) acc).1 ≤
          degs v) ∧
      ((l.foldl (fun acc v =>
          if v ∉ removed ∧ degs v < acc.1 then (degs v, some v) else acc) acc).2 =
            none →
        ∀ v ∈ l, v ∉ removed → acc.1 ≤ degs v)) := by
  induction l with
  | nil =>
    intro acc hacc
    refine ⟨?_, ?_, ?_⟩
    · intro bv h
      obtain ⟨h1, h2⟩ := hacc bv h
      exact ⟨h1, h2, Or.inr h⟩
    · intro v hv
      exact absurd hv (List.not_mem_nil v)
    · intro _ v hv
      exact absurd hv (List.not_mem_nil v)
  | cons x rest ih =>
    intro acc hacc
    by_cases hx : x ∉ removed ∧ degs x < acc.1
    · have hred : ((x :: rest).foldl (fun acc v =>
          if v ∉ removed ∧ degs v < acc.1 then (degs v, some v) else acc) acc) =
          rest.foldl (fun acc v =>
            if v ∉ removed ∧ degs v < acc.1 then (degs v, some v) else acc)
            (degs x, some x) := by
        show rest.foldl _ (if x ∉ removed ∧ degs x < acc.1 then (degs x, some x) else acc) = _
        rw [if_pos hx]
      obtain ⟨ih1, ih2, ih3⟩ := ih (degs x, some x)
        (fun bv h => by
          injection h with h'
          rw [← h']
          exact ⟨rfl, hx.1⟩)
      rw [hred]
      refine ⟨?_, ?_, ?_⟩
      · intro bv h
        obtain ⟨h1, h2, h3⟩ := ih1 bv h
        refine ⟨h1, h2, ?_⟩
        rcases h3 with h3 | h3
        · exact Or.inl (List.mem_cons_of_mem x h3)
        · injection h3 with h3'
          rw [← h3']
          exact Or.inl (List.mem_cons_self x rest)
      · intro v hv hvr
        rcases List.mem_cons.mp hv with rfl | hv'
        · calc (rest.foldl _ (degs v, some v)).1 ≤ (degs v, some v).1 :=
              degMinFold_mono degs removed rest _
          _ = degs v := rfl
        · exact ih2 v hv' hvr
      · intro hnone
        exact absurd hnone (degMinFold_stays degs removed rest x (degs x))
    · have hred : ((x :: rest).foldl (fun acc v =>
          if v ∉ removed ∧ degs v < acc.1 then (degs v, some v) else acc) acc) =
          rest.foldl (fun acc v =>
            if v ∉ removed ∧ degs v < acc.1 then (degs v, some v) else acc) acc := by
        show rest.foldl _ (if x ∉ removed ∧ degs x < acc.1 then (degs x, some x) else acc) = _
        rw [if_neg hx]
      obtain ⟨ih1, ih2, ih3⟩ := ih acc hacc
      rw [hred]
      refine ⟨?_, ?_, ?_⟩
      · intro bv h
        obtain ⟨h1, h2, h3⟩ := ih1 bv h
        refine ⟨h1, h2, ?_⟩
        rcases h3 with h3 | h3
        · exact Or.inl (List.mem_cons_of_mem x h3)
        · exact Or.inr h3
      · intro v hv hvr
        rcases List.mem_cons.mp hv with rfl | hv'
        · have hxge : acc.1 ≤ degs v := by
            rcases not_and_or.mp hx with hc | hc
            · exact absurd hvr (by simpa using hc)
            · omega
          calc (rest.foldl _ acc).1 ≤ acc.1 := degMinFold_mono degs removed rest acc
          _ ≤ degs v := hxge
        · exact ih2 v hv' hvr
      · intro hnone v hv hvr
        rcases List.mem_cons.mp hv with rfl | hv'
        · rcases not_and_or.mp hx with hc | hc
          · exact absurd hvr (by simpa using hc)
          · omega
        · exact ih3 hnone v hv' hvr

theorem degMinSelect_some_spec {degs : ℕ → ℕ} {removed : Finset ℕ} {n mv : ℕ}
    (h : (degMinSelect degs removed n).2 = some mv) :
    mv < n ∧ mv ∉ removed ∧ (degMinSelect degs removed n).1 = degs mv ∧
      ∀ v < n, v ∉ removed → degs mv ≤ degs v := by
  obtain ⟨h1, h2, h3⟩ := degMinFold_spec degs removed (List.range n) (n + 1, none)
    (fun bv hbv => absurd hbv (by simp))
  obtain ⟨he, hr, hm⟩ := h1 mv h
  rcases hm with hm | hm
  · refine ⟨List.mem_range.mp hm, hr, he, ?_⟩
    intro v hv hvr
    have := h2 v (List.mem_range.mpr hv) hvr
    rw [he] at this
    exact this
  · exact absurd hm (by simp)

theorem degMinSelect_finds {degs : ℕ → ℕ} {removed : Finset ℕ} {n : ℕ}
    (x : ℕ) (hx : x < n) (hxr : x ∉ removed) (hdx : degs x ≤ n) :
    ∃ mv, (degMinSelect degs removed n).2 = some mv := by
  rcases hres : (degMinSelect degs removed n).2 with - | mv
  · exfalso
    obtain ⟨-, -, h3⟩ := degMinFold_spec degs removed (List.range n) (n + 1, none)
      (fun bv hbv => absurd hbv (by simp))
    have := h3 hres x (List.mem_range.mpr hx) hxr
    simp only at this
    omega
  · exact ⟨mv, rfl⟩

/-- The shared peeling loop of `compute_degeneracy_ordering` and
`get_degeneracy`: repeatedly select the minimum-residual-degree unremoved
vertex (smallest id on ties), record `(min_vertex, min_degree)`, mark it
removed, and decrement the residual degree of its unremoved neighbors. -/
def degeneracy_peel (g : Graph) : ℕ → (ℕ → ℕ) → Finset ℕ → List (ℕ × ℕ)
  | 0, _, _ => []
  | iter + 1, degs, removed =>
    match (degMinSelect degs removed g.n).2 with
    | none => []
    | some mv =>
      (mv, degs mv) ::
        degeneracy_peel g iter
          (fun u => if u ∈ g.adjl mv ∧ u ∉ insert mv removed
            then degs u - 1 else degs u)
          (insert mv removed)

/-- `Graph::compute_degeneracy_ordering`. -/
def Graph.compute_degeneracy_ordering (g : Graph) : List ℕ :=
  (degeneracy_peel g g.n (fun v => (g.adjl v).card) ∅).map Prod.fst

/-- `Graph::get_degeneracy`: maximum over the removals of the residual
degree of the removed vertex (0 for the empty graph). -/
def Graph.get_degeneracy (g : Graph) : ℕ :=
  (degeneracy_peel g g.n (fun v => (g.adjl v).card) ∅).foldl
    (fun a p => max a p.2) 0

theorem degeneracy_peel_spec {g : Graph} (hwf : g.WFb) :
    ∀ (iter : ℕ) (degs : ℕ → ℕ) (removed : Finset ℕ),
      removed ⊆ Finset.range g.n →
      removed.card + iter = g.n →
      (∀ v, v < g.n → v ∉ removed → degs v = (g.adjl v \ removed).card) →
      ((degeneracy_peel g iter degs removed).map Prod.fst).Nodup ∧
      ((degeneracy_peel g iter degs removed).map Prod.fst).toFinset =
        Finset.range g.n \ removed ∧
      (∀ L₁ v d L₂, degeneracy_peel g iter degs removed = L₁ ++ (v, d) :: L₂ →
        d = (g.adjl v ∩ (L₂.map Prod.fst).toFinset).card) := by
  intro iter
  induction iter with
  | zero =>
    intro degs removed hsub hcard hinv
    refine ⟨List.nodup_nil, ?_, ?_⟩
    · have heq : removed = Finset.range g.n := by
        apply Finset.eq_of_subset_of_card_le hsub
        rw [Finset.card_range]
        omega
      rw [heq, Finset.sdiff_self]
      rfl
    · intro L₁ v d L₂ h
      have h0 : degeneracy_peel g 0 degs removed = ([] : List (ℕ × ℕ)) := rfl
      rw [h0] at h
      have h' := List.append_eq_nil.mp h.symm
      exact absurd h'.2 (by simp)
  | succ iter ih =>
    intro degs removed hsub hcard hinv
    -- some unremoved vertex exists, with residual degree at most n
    have hur : (Finset.range g.n \ removed).Nonempty := by
      rw [← Finset.card_pos, Finset.card_sdiff hsub, Finset.card_range]
      omega
    obtain ⟨x, hx⟩ := hur
    have hxn : x < g.n := Finset.mem_range.mp (Finset.mem_sdiff.mp hx).1
    have hxr : x ∉ removed := (Finset.mem_sdiff.mp hx).2
    have hdx : degs x ≤ g.n := by
      rw [hinv x hxn hxr]
      calc (g.adjl x \ removed).card ≤ (g.adjl x).card :=
            Finset.card_le_card (Finset.sdiff_subset)
      _ ≤ (Finset.range g.n).card :=
            Finset.card_le_card (Graph.adjl_subset_range hwf hxn)
      _ = g.n := Finset.card_range g.n
    obtain ⟨mv, hsel⟩ := degMinSelect_finds x hxn hxr hdx
    obtain ⟨hmvn, hmvr, -, -⟩ := degMinSelect_some_spec hsel
    have hred : degeneracy_peel g (iter + 1) degs removed =
        (mv, degs mv) ::
          degeneracy_peel g iter
            (fun u => if u ∈ g.adjl mv ∧ u ∉ insert mv removed
              then degs u - 1 else degs u)
            (insert mv removed) := by
      show (match (degMinSelect degs removed g.n).2 with
        | none => []
        | some mv =>
          (mv, degs mv) ::
            degeneracy_peel g iter
              (fun u => if u ∈ g.adjl mv ∧ u ∉ insert mv removed
                then degs u - 1 else degs u)
              (insert mv removed)) = _
      rw [hsel]
    have hsub' : insert mv removed ⊆ Finset.range g.n :=
      Finset.insert_subset (Finset.mem_range.mpr hmvn) hsub
    have hcard' : (insert mv removed).card + iter = g.n := by
      rw [Finset.card_insert_of_not_mem hmvr]
      omega
    have hinv' : ∀ v, v < g.n → v ∉ insert mv removed →
        (fun u => if u ∈ g.adjl mv ∧ u ∉ insert mv removed
          then degs u - 1 else degs u) v = (g.adjl v \ insert mv removed).card := by
      intro v hvn hvr
      have hvmv : v ≠ mv := fun hc => hvr (hc ▸ Finset.mem_insert_self mv removed)
      have hvr' : v ∉ removed := fun hc => hvr (Finset.mem_insert_of_mem hc)
      simp only
      by_cases hadj : v ∈ g.adjl mv
      · rw [if_pos ⟨hadj, hvr⟩]
        have hmv_in : mv ∈ g.adjl v := by
          rw [Graph.mem_adjl_iff hwf hvn, ← Graph.has_edge_symm hwf,
            ← Graph.mem_adjl_iff hwf hmvn]
          exact hadj
        have hsd : g.adjl v \ insert mv removed = (g.adjl v \ removed).erase mv := by
          apply Finset.ext
          intro a
          rw [Finset.mem_sdiff, Finset.mem_insert, Finset.mem_erase, Finset.mem_sdiff]
          constructor
          · rintro ⟨h1, h2⟩
            push_neg at h2
            exact ⟨h2.1, h1, h2.2⟩
          · rintro ⟨h1, h2, h3⟩
            exact ⟨h2, by push_neg; exact ⟨h1, h3⟩⟩
        rw [hsd, Finset.card_erase_of_mem (Finset.mem_sdiff.mpr ⟨hmv_in, hmvr⟩)]
        rw [hinv v hvn hvr']
      · rw [if_neg (by rintro ⟨h1, -⟩; exact hadj h1)]
        have hmv_nin : mv ∉ g.adjl v := by
          intro hc
          apply hadj
          rw [Graph.mem_adjl_iff hwf hmvn, ← Graph.has_edge_symm hwf,
            ← Graph.mem_adjl_iff hwf hvn]
          exact hc
        have hsd : g.adjl v \ insert mv removed = g.adjl v \ removed := by
          apply Finset.ext
          intro a
          rw [Finset.mem_sdiff, Finset.mem_insert, Finset.mem_sdiff]
          constructor
          · rintro ⟨h1, h2⟩
            push_neg at h2
            exact ⟨h1, h2.2⟩
          · rintro ⟨h1, h2⟩
            refine ⟨h1, ?_⟩
            push_neg
            exact ⟨fun hc => hmv_nin (hc ▸ h1), h2⟩
        rw [hsd, hinv v hvn hvr']
    obtain ⟨ihnd, ihfin, ihsplit⟩ := ih _ _ hsub' hcard' hinv'
    rw [hred]
    refine ⟨?_, ?_, ?_⟩
    · rw [List.map_cons, List.nodup_cons]
      refine ⟨?_, ihnd⟩
      intro hc
      have : mv ∈ Finset.range g.n \ insert mv removed := by
        rw [← ihfin]
        exact List.mem_toFinset.mpr hc
      exact (Finset.mem_sdiff.mp this).2 (Finset.mem_insert_self mv removed)
    · rw [List.map_cons, List.toFinset_cons, ihfin]
      apply Finset.ext
      intro a
      rw [Finset.mem_insert, Finset.mem_sdiff, Finset.mem_sdiff, Finset.mem_insert]
      constructor
      · rintro (rfl | ⟨h1, h2⟩)
        · exact ⟨Finset.mem_range.mpr hmvn, hmvr⟩
        · push_neg at h2
          exact ⟨h1, h2.2⟩
      · rintro ⟨h1, h2⟩
        by_cases hamv : a = mv
        · exact Or.inl hamv
        · exact Or.inr ⟨h1, by push_neg; exact ⟨hamv, h2⟩⟩
    · intro L₁ v d L₂ h
      cases L₁ with
      | nil =>
        injection h with h1 h2
        injection h1 with h1a h1b
        subst h1a
        rw [← h2, ihfin]
        rw [← h1b]
        rw [hinv mv hmvn hmvr]
        congr 1
        apply Finset.ext
        intro a
        rw [Finset.mem_sdiff, Finset.mem_inter, Finset.mem_sdiff, Finset.mem_insert]
        constructor
        · rintro ⟨h1, h2⟩
          refine ⟨h1, Graph.adjl_subset_range hwf hmvn h1, ?_⟩
          push_neg
          refine ⟨?_, h2⟩
          intro hc
          rw [hc] at h1
          exact Graph.not_mem_adjl_self hwf hmvn h1
        · rintro ⟨h1, h2, h3⟩
          push_neg at h3
          exact ⟨h1, h3.2⟩
      | cons q L₁' =>
        injection h with h1 h2
        exact ihsplit L₁' v d L₂ h2

theorem foldl_max_snd_le (L : List (ℕ × ℕ)) :
    ∀ acc : ℕ, (∀ p ∈ L, p.2 ≤ L.foldl (fun a p => max a p.2) acc) ∧
      acc ≤ L.foldl (fun a p => max a p.2) acc := by
  induction L with
  | nil =>
    intro acc
    exact ⟨fun p hp => absurd hp (List.not_mem_nil p), le_refl acc⟩
  | cons q rest ih =>
    intro acc
    obtain ⟨ih1, ih2⟩ := ih (max acc q.2)
    refine ⟨?_, ?_⟩
    · intro p hp
      rcases List.mem_cons.mp hp with rfl | hp'
      · calc p.2 ≤ max acc p.2 := le_max_right _ _
        _ ≤ _ := ih2
      · exact ih1 p hp'
    · calc acc ≤ max acc q.2 := le_max_left _ _
      _ ≤ _ := ih2

theorem map_split {α β : Type} {f : α → β} {L : List α} {l₁ l₂ : List β} {b : β}
    (h : L.map f = l₁ ++ b :: l₂) :
    ∃ L₁ x L₂, L = L₁ ++ x :: L₂ ∧ l₁ = L₁.map f ∧ b = f x ∧ l₂ = L₂.map f := by
  induction L generalizing l₁ with
  | nil =>
    have := List.append_eq_nil.mp h.symm
    exact absurd this.2 (by simp)
  | cons a L' ih =>
    cases l₁ with
    | nil =>
      rw [List.map_cons] at h
      injection h with h1 h2
      exact ⟨[], a, L', rfl, rfl, h1.symm, h2.symm⟩
    | cons y l₁' =>
      rw [List.map_cons] at h
      injection h with h1 h2
      obtain ⟨L₁, x, L₂, hL, hl₁, hb, hl₂⟩ := ih h2
      exact ⟨a :: L₁, x, L₂, by rw [hL]; rfl, by rw [List.map_cons, ← hl₁, h1], hb, hl₂⟩

/-- C4: the degeneracy ordering is a permutation of the `n` vertices, and
each vertex has at most `d = get_degeneracy(G)` neighbors that appear
later in the ordering (the recorded residual degree at removal equals the
number of later neighbors, and `d` is the maximum of those values). -/
theorem c4_degeneracy_ordering_correct (g : Graph) (hwf : g.WFb) :
    (g.compute_degeneracy_ordering).Nodup ∧
    (g.compute_degeneracy_ordering).toFinset = Finset.range g.n ∧
    (∀ pre v post, g.compute_degeneracy_ordering = pre ++ v :: post →
      (post.filter (fun u => decide (u ∈ g.adjl v))).length ≤ g.get_degeneracy) := by
  have hspec := degeneracy_peel_spec hwf g.n (fun v => (g.adjl v).card) ∅
    (Finset.empty_subset _) (by rw [Finset.card_empty]; omega) (by
      intro v _ _
      rw [Finset.sdiff_empty])
  obtain ⟨hnd, hfin, hsplit⟩ := hspec
  have hfin' : (g.compute_degeneracy_ordering).toFinset = Finset.range g.n := by
    unfold Graph.compute_degeneracy_ordering
    rw [hfin, Finset.sdiff_empty]
  refine ⟨hnd, hfin', ?_⟩
  intro pre v post h
  unfold Graph.compute_degeneracy_ordering at h
  obtain ⟨L₁, x, L₂, hL, hpre, hb, hpost⟩ := map_split h
  obtain ⟨xv, xd⟩ := x
  have hbv : v = xv := hb
  have hd := hsplit L₁ xv xd L₂ (by rw [hL])
  -- the later-neighbor count equals the recorded residual degree
  have hpostnd : post.Nodup := by
    have : (pre ++ v :: post).Nodup := h ▸ hnd
    have h2 := (List.nodup_append.mp this).2.1
    exact (List.nodup_cons.mp h2).2
  have hlen : (post.filter (fun u => decide (u ∈ g.adjl v))).length =
      (g.adjl xv ∩ (L₂.map Prod.fst).toFinset).card := by
    rw [← hpost, ← hbv]
    have hndf : (post.filter (fun u => decide (u ∈ g.adjl v))).Nodup :=
      hpostnd.filter _
    rw [← List.toFinset_card_of_nodup hndf, List.toFinset_filter]
    congr 1
    apply Finset.ext
    intro a
    rw [Finset.mem_inter, Finset.mem_filter]
    constructor
    · rintro ⟨h1, h2⟩
      exact ⟨by simpa using h2, h1⟩
    · rintro ⟨h1, h2⟩
      exact ⟨h2, by simpa using h1⟩
  rw [hlen, ← hd]
  -- the recorded degree is bounded by the running maximum
  unfold Graph.get_degeneracy
  have hmem : (xv, xd) ∈ degeneracy_peel g g.n (fun v => (g.adjl v).card) ∅ := by
    rw [hL]
    exact List.mem_append_right L₁ (List.mem_cons_self _ L₂)
  exact (foldl_max_snd_le _ 0).1 (xv, xd) hmem

/-- C4 witness: the degeneracy ordering on the triangle. -/
theorem c4_degeneracy_ordering_correct_witness :
    triG.WFb ∧
      ((triG.compute_degeneracy_ordering).Nodup ∧
      (triG.compute_degeneracy_ordering).toFinset = Finset.range triG.n ∧
      (∀ pre v post, triG.compute_degeneracy_ordering = pre ++ v :: post →
        (post.filter (fun u => decide (u ∈ triG.adjl v))).length ≤
          triG.get_degeneracy)) :=
  ⟨by decide, c4_degeneracy_ordering_correct triG (by decide)⟩

/-! ## Greedy coloring bounds -/

/-- Smallest color not in `s` (the C++ `while (used_colors[color]) color++`;
the used-color array has room for `|P|+1` colors, and the mex never
exceeds the number of used colors). -/
def mex (s : Finset ℕ) : ℕ :=
  ((List.range (s.card + 1)).filter (fun k => decide (k ∉ s))).headD 0

theorem mex_not_mem (s : Finset ℕ) : mex s ∉ s := by
  have hne : ((List.range (s.card + 1)).filter (fun k => decide (k ∉ s))) ≠ [] := by
    intro hempty
    have hsub : Finset.range (s.card + 1) ⊆ s := by
      intro k hk
      by_contra hks
      have hmem : k ∈ (List.range (s.card + 1)).filter (fun k => decide (k ∉ s)) := by
        rw [List.mem_filter]
        exact ⟨List.mem_range.mpr (Finset.mem_range.mp hk), by simpa using hks⟩
      rw [hempty] at hmem
      exact absurd hmem (List.not_mem_nil k)
    have := Finset.card_le_card hsub
    rw [Finset.card_range] at this
    omega
  rcases hl : (List.range (s.card + 1)).filter (fun k => decide (k ∉ s)) with - | ⟨x, rest⟩
  · exact absurd hl hne
  · have hx : x ∈ (List.range (s.card + 1)).filter (fun k => decide (k ∉ s)) := by
      rw [hl]
      exact List.mem_cons_self x rest
    have := (List.mem_filter.mp hx).2
    unfold mex
    rw [hl]
    simpa using this

/-- Insertion sort by strictly larger key first; tied elements keep their
(unspecified in C++) relative order deterministically. -/
def insertDesc (key : ℕ → ℕ) (x : ℕ) : List ℕ → List ℕ
  | [] => [x]
  | y :: ys => if key y < key x then x :: y :: ys else y :: insertDesc key x ys

def sortDesc (key : ℕ → ℕ) (l : List ℕ) : List ℕ :=
  l.foldr (insertDesc key) []

theorem insertDesc_perm (key : ℕ → ℕ) (x : ℕ) (l : List ℕ) :
    (insertDesc key x l).Perm (x :: l) := by
  induction l with
  | nil => exact List.Perm.refl _
  | cons y ys ih =>
    show (if key y < key x then x :: y :: ys else y :: insertDesc key x ys).Perm _
    by_cases h : key y < key x
    · rw [if_pos h]
    · rw [if_neg h]
      exact (List.Perm.cons y ih).trans (List.Perm.swap x y ys)

theorem sortDesc_perm (key : ℕ → ℕ) (l : List ℕ) : (sortDesc key l).Perm l := by
  induction l with
  | nil => exact List.Perm.refl _
  | cons x xs ih =>
    show (insertDesc key x (sortDesc key xs)).Perm (x :: xs)
    exact (insertDesc_perm key x (sortDesc key xs)).trans (List.Perm.cons x ih)

/-- One coloring step: give `v` the smallest color unused among the
already-colored vertices of `P` adjacent to `v`. -/
def seqColorF (adjF : ℕ → ℕ → Bool) (P : Finset ℕ) :
    List ℕ → (ℕ → Option ℕ) → (ℕ → Option ℕ)
  | [], col => col
  | v :: rest, col =>
    seqColorF adjF P rest
      (fun w => if w = v then
        some (mex ((P.filter (fun u => u ≠ v ∧ adjF v u)).biUnion
          (fun u => (col u).toFinset)))
        else col w)

theorem seqColorF_stable (adjF : ℕ → ℕ → Bool) (P : Finset ℕ) :
    ∀ (order : List ℕ) (col : ℕ → Option ℕ) (w : ℕ), w ∉ order →
      seqColorF adjF P order col w = col w := by
  intro order
  induction order with
  | nil => intro col w _; rfl
  | cons v rest ih =>
    intro col w hw
    have hwv : w ≠ v := fun hc => hw (hc ▸ List.mem_cons_self v rest)
    have hwr : w ∉ rest := fun hc => hw (List.mem_cons_of_mem v hc)
    show seqColorF adjF P rest _ w = col w
    rw [ih _ w hwr]
    rw [if_neg hwv]

theorem seqColorF_assigned (adjF : ℕ → ℕ → Bool) (P : Finset ℕ) :
    ∀ (order : List ℕ) (col : ℕ → Option ℕ) (w : ℕ),
      order.Nodup → w ∈ order →
      ∃ c, seqColorF adjF P order col w = some c := by
  intro order
  induction order with
  | nil => intro col w _ hw; exact absurd hw (List.not_mem_nil w)
  | cons v rest ih =>
    intro col w hnd hw
    rcases List.mem_cons.mp hw with rfl | hw'
    · have hwr : w ∉ rest := (List.nodup_cons.mp hnd).1
      have hval : seqColorF adjF P (w :: rest) col w =
          some (mex ((P.filter (fun u => u ≠ w ∧ adjF w u)).biUnion
            (fun u => (col u).toFinset))) := by
        show seqColorF adjF P rest _ w = _
        rw [seqColorF_stable adjF P rest _ w hwr, if_pos rfl]
      exact ⟨_, hval⟩
    · exact ih _ w (List.nodup_cons.mp hnd).2 hw'

theorem seqColorF_avoid (adjF : ℕ → ℕ → Bool) (P : Finset ℕ) :
    ∀ (order : List ℕ) (col : ℕ → Option ℕ) (u c w : ℕ),
      order.Nodup → w ∈ order → u ∉ order → col u = some c → u ∈ P →
      u ≠ w → adjF w u = true →
      seqColorF adjF P order col w ≠ some c := by
  intro order
  induction order with
  | nil => intro col u c w _ hw _ _ _ _ _; exact absurd hw (List.not_mem_nil w)
  | cons v rest ih =>
    intro col u c w hnd hw hu hcol huP huw hadj
    have huv : u ≠ v := fun hc => hu (hc ▸ List.mem_cons_self v rest)
    have hur : u ∉ rest := fun hc => hu (List.mem_cons_of_mem v hc)
    rcases List.mem_cons.mp hw with rfl | hw'
    · have hwr : w ∉ rest := (List.nodup_cons.mp hnd).1
      have hval : seqColorF adjF P (w :: rest) col w =
          some (mex ((P.filter (fun x => x ≠ w ∧ adjF w x)).biUnion
            (fun x => (col x).toFinset))) := by
        show seqColorF adjF P rest _ w = _
        rw [seqColorF_stable adjF P rest _ w hwr, if_pos rfl]
      rw [hval]
      intro heq
      have hcmem : c ∈ (P.filter (fun x => x ≠ w ∧ adjF w x)).biUnion
          (fun x => (col x).toFinset) := by
        rw [Finset.mem_biUnion]
        refine ⟨u, Finset.mem_filter.mpr ⟨huP, huw, hadj⟩, ?_⟩
        rw [hcol]
        simp
      have := mex_not_mem ((P.filter (fun x => x ≠ w ∧ adjF w x)).biUnion
          (fun x => (col x).toFinset))
      rw [Option.some_inj] at heq
      rw [heq] at this
      exact this hcmem
    · show seqColorF adjF P rest _ w ≠ some c
      refine ih _ u c w (List.nodup_cons.mp hnd).2 hw' hur ?_ huP huw hadj
      rw [if_neg huv]
      exact hcol

theorem seqColorF_proper (adjF : ℕ → ℕ → Bool) (P : Finset ℕ) :
    ∀ (order : List ℕ) (col : ℕ → Option ℕ) (u w : ℕ),
      order.Nodup → (∀ v ∈ order, v ∈ P) →
      u ∈ order → w ∈ order → u ≠ w →
      adjF u w = true → adjF w u = true →
      seqColorF adjF P order col u ≠ seqColorF adjF P order col w := by
  intro order
  induction order with
  | nil => intro col u w _ _ hu _ _ _ _; exact absurd hu (List.not_mem_nil u)
  | cons v rest ih =>
    intro col u w hnd hP hu hw huw hadj₁ hadj₂
    have hvr : v ∉ rest := (List.nodup_cons.mp hnd).1
    have hndr : rest.Nodup := (List.nodup_cons.mp hnd).2
    have hvP : v ∈ P := hP v (List.mem_cons_self v rest)
    have hvcol : seqColorF adjF P (v :: rest) col v =
        some (mex ((P.filter (fun x => x ≠ v ∧ adjF v x)).biUnion
          (fun x => (col x).toFinset))) := by
      show seqColorF adjF P rest _ v = _
      rw [seqColorF_stable adjF P rest _ v hvr, if_pos rfl]
    rcases List.mem_cons.mp hu with rfl | hu'
    · rcases List.mem_cons.mp hw with rfl | hw'
      · exact absurd rfl huw
      · rw [hvcol]
        intro heq
        exact seqColorF_avoid adjF P rest _ u _ w hndr hw' hvr
          (by rw [if_pos rfl]) hvP huw hadj₂ heq.symm
    · rcases List.mem_cons.mp hw with rfl | hw'
      · rw [hvcol]
        exact seqColorF_avoid adjF P rest _ w _ u hndr hu' hvr
          (by rw [if_pos rfl]) hvP (Ne.symm huw) hadj₁
      · exact ih _ u w hndr (fun x hx => hP x (List.mem_cons_of_mem v hx))
          hu' hw' huw hadj₁ hadj₂

theorem le_foldl_max : ∀ (l : List ℕ) (a : ℕ),
    a ≤ l.foldl max a ∧ ∀ x ∈ l, x ≤ l.foldl max a := by
  intro l
  induction l with
  | nil => intro a; exact ⟨le_refl a, fun x hx => absurd hx (List.not_mem_nil x)⟩
  | cons y ys ih =>
    intro a
    have h := ih (max a y)
    constructor
    · exact le_trans (le_max_left a y) h.1
    · intro x hx
      rcases List.mem_cons.mp hx with rfl | hx'
      · exact le_trans (le_max_right a x) h.1
      · exact h.2 x hx'

/-- Master bound for sequential greedy coloring: a clique inside the
colored order uses pairwise distinct colors, all at most the maximum. -/
theorem seqColor_clique_bound (adjF : ℕ → ℕ → Bool) (P : Finset ℕ)
    (order : List ℕ) (hnd : order.Nodup) (hP : ∀ v ∈ order, v ∈ P)
    (K : Finset ℕ) (hKo : ∀ k ∈ K, k ∈ order)
    (hKadj : ∀ u ∈ K, ∀ w ∈ K, u ≠ w → adjF u w = true) :
    K.card ≤ (order.map (fun v =>
      (seqColorF adjF P order (fun _ => none) v).getD 0)).foldl max 0 + 1 := by
  set col := seqColorF adjF P order (fun _ => none) with hcol
  set M := (order.map (fun v => (col v).getD 0)).foldl max 0 with hM
  have hmaps : ∀ k ∈ K, (fun v => (col v).getD 0) k ∈ Finset.range (M + 1) := by
    intro k hk
    show (col k).getD 0 ∈ Finset.range (M + 1)
    have hmem : (col k).getD 0 ∈ order.map (fun v => (col v).getD 0) :=
      List.mem_map.mpr ⟨k, hKo k hk, rfl⟩
    have := (le_foldl_max (order.map (fun v => (col v).getD 0)) 0).2 _ hmem
    rw [Finset.mem_range]
    omega
  have hinj : Set.InjOn (fun v => (col v).getD 0) K := by
    intro u hu w hw heq
    by_contra huw
    have hne := seqColorF_proper adjF P order (fun _ => none) u w hnd hP
      (hKo u hu) (hKo w hw) huw (hKadj u hu w hw huw)
      (hKadj w hw u hu (Ne.symm huw))
    obtain ⟨cu, hcu⟩ := seqColorF_assigned adjF P order (fun _ => none) u hnd (hKo u hu)
    obtain ⟨cw, hcw⟩ := seqColorF_assigned adjF P order (fun _ => none) w hnd (hKo w hw)
    rw [hcu, hcw] at hne
    have hcu' : col u = some cu := hcu
    have hcw' : col w = some cw := hcw
    have heq' : (col u).getD 0 = (col w).getD 0 := heq
    rw [hcu', hcw'] at heq'
    simp only [Option.getD_some] at heq'
    exact hne (by rw [heq'])
  have := Finset.card_le_card_of_injOn _ hmaps hinj
  rwa [Finset.card_range] at this

/-! ### BBMC `bb_colour`: colour classes over a bitset, generic in the
adjacency predicate (`Q &= invN[v]` keeps exactly the non-neighbors). -/

/-- Inner loop of `bb_colour`: repeatedly take the first set bit `v` of
`Q`, remove it from `copyP` and `Q`, and drop the neighbors of `v` from
`Q`; returns the remaining `copyP` and the vertices of the class in
order. -/
def bbInner (adjF : ℕ → ℕ → Bool) (n : ℕ) :
    ℕ → Finset ℕ → Finset ℕ → Finset ℕ × List ℕ
  | 0, copyP, _ => (copyP, [])
  | fuel+1, copyP, Q =>
    match (ascListN n Q).head? with
    | none => (copyP, [])
    | some v =>
      let r := bbInner adjF n fuel (copyP.erase v)
        ((Q.erase v).filter (fun j => adjF v j = false))
      (r.1, v :: r.2)

/-- Outer loop of `bb_colour`: one colour class per iteration, classes
numbered from `cls + 1`; returns the `(vertex, colour)` records. -/
def bbColourLoop (adjF : ℕ → ℕ → Bool) (n : ℕ) :
    ℕ → Finset ℕ → ℕ → List (ℕ × ℕ)
  | 0, _, _ => []
  | fuel+1, copyP, cls =>
    if copyP = ∅ then []
    else
      let r := bbInner adjF n (copyP.card + 1) copyP copyP
      (r.2.map (fun v => (v, cls + 1))) ++ bbColourLoop adjF n fuel r.1 (cls + 1)

/-- `BBMC::bb_colour(P, U, colour)` as the list of `(vertex, colour)`
records in the order they are written into `U`/`colour`. -/
def bb_colour (adjF : ℕ → ℕ → Bool) (n : ℕ) (P : Finset ℕ) : List (ℕ × ℕ) :=
  bbColourLoop adjF n P.card P 0

theorem pairwise_or {R : ℕ → ℕ → Prop} :
    ∀ (l : List ℕ), List.Pairwise R l →
      ∀ a ∈ l, ∀ b ∈ l, a ≠ b → R a b ∨ R b a := by
  intro l
  induction l with
  | nil => intro _ a ha; exact absurd ha (List.not_mem_nil a)
  | cons x xs ih =>
    intro hp a ha b hb hab
    rcases List.mem_cons.mp ha with rfl | ha'
    · rcases List.mem_cons.mp hb with rfl | hb'
      · exact absurd rfl hab
      · exact Or.inl ((List.pairwise_cons.mp hp).1 b hb')
    · rcases List.mem_cons.mp hb with rfl | hb'
      · exact Or.inr ((List.pairwise_cons.mp hp).1 a ha')
      · exact ih (List.pairwise_cons.mp hp).2 a ha' b hb' hab

theorem bbInner_spec (adjF : ℕ → ℕ → Bool) (n : ℕ) :
    ∀ (fuel : ℕ) (copyP Q : Finset ℕ), Q ⊆ copyP → Q ⊆ Finset.range n →
      Q.card ≤ fuel →
      (bbInner adjF n fuel copyP Q).1
          = copyP \ (bbInner adjF n fuel copyP Q).2.toFinset ∧
      (bbInner adjF n fuel copyP Q).2.toFinset ⊆ Q ∧
      ((bbInner adjF n fuel copyP Q).2 = [] ↔ Q = ∅) ∧
      List.Pairwise (fun u w => adjF u w = false)
        (bbInner adjF n fuel copyP Q).2 ∧
      (bbInner adjF n fuel copyP Q).2.Nodup := by
  intro fuel
  induction fuel with
  | zero =>
    intro copyP Q _ _ hcard
    have hQ : Q = ∅ := Finset.card_eq_zero.mp (Nat.le_zero.mp hcard)
    refine ⟨by simp [bbInner], by simp [bbInner], ?_, List.Pairwise.nil,
      List.nodup_nil⟩
    simp [hQ, bbInner]
  | succ fuel ih =>
    intro copyP Q hQP hQn hcard
    rcases hhd : (ascListN n Q).head? with - | ⟨v⟩
    · have hQ : Q = ∅ := by
        have hasc : ascListN n Q = [] := List.head?_eq_none_iff.mp hhd
        ext x
        simp only [Finset.not_mem_empty, iff_false]
        intro hx
        have hxr : x < n := Finset.mem_range.mp (hQn hx)
        have : x ∈ ascListN n Q := mem_ascListN.mpr ⟨hxr, hx⟩
        rw [hasc] at this
        exact absurd this (List.not_mem_nil x)
      have hred : bbInner adjF n (fuel+1) copyP Q = (copyP, []) := by
        show (match (ascListN n Q).head? with
          | none => (copyP, [])
          | some v =>
            let r := bbInner adjF n fuel (copyP.erase v)
              ((Q.erase v).filter (fun j => adjF v j = false))
            (r.1, v :: r.2)) = _
        rw [hhd]
      rw [hred]
      exact ⟨by simp, by simp, by simp [hQ], List.Pairwise.nil, List.nodup_nil⟩
    · have hvQ : v ∈ Q ∧ v < n := by
        have : v ∈ ascListN n Q := List.mem_of_mem_head? hhd
        have h := mem_ascListN.mp this
        exact ⟨h.2, h.1⟩
      set Q' := (Q.erase v).filter (fun j => adjF v j = false) with hQ'
      set r := bbInner adjF n fuel (copyP.erase v) Q' with hr
      have hred : bbInner adjF n (fuel+1) copyP Q = (r.1, v :: r.2) := by
        show (match (ascListN n Q).head? with
          | none => (copyP, [])
          | some v =>
            let r := bbInner adjF n fuel (copyP.erase v)
              ((Q.erase v).filter (fun j => adjF v j = false))
            (r.1, v :: r.2)) = _
        rw [hhd]
      have hQ'sub : Q' ⊆ Q.erase v := Finset.filter_subset _ _
      have hQ'Q : Q' ⊆ Q := hQ'sub.trans (Finset.erase_subset v Q)
      have hspec := ih (copyP.erase v) Q'
        (fun x hx => Finset.mem_erase.mpr
          ⟨(Finset.mem_erase.mp (hQ'sub hx)).1, hQP (hQ'Q hx)⟩)
        (hQ'Q.trans hQn)
        (by
          have h1 := Finset.card_le_card hQ'sub
          have h2 := Finset.card_erase_of_mem hvQ.1
          omega)
      rw [hred]
      obtain ⟨hs1, hs2, _, hs4, hs5⟩ := hspec
      refine ⟨?_, ?_, ?_, ?_, ?_⟩
      · show r.1 = copyP \ (v :: r.2).toFinset
        rw [hs1]
        ext x
        simp only [Finset.mem_sdiff, Finset.mem_erase, List.toFinset_cons,
          Finset.mem_insert, List.mem_toFinset]
        tauto
      · show (v :: r.2).toFinset ⊆ Q
        intro x hx
        rw [List.toFinset_cons, Finset.mem_insert] at hx
        rcases hx with rfl | hx'
        · exact hvQ.1
        · exact hQ'Q (hs2 hx')
      · constructor
        · intro h; exact absurd h (List.cons_ne_nil v r.2)
        · intro h
          rw [h] at hvQ
          exact absurd hvQ.1 (Finset.not_mem_empty v)
      · refine List.pairwise_cons.mpr ⟨?_, hs4⟩
        intro w hw
        have hwQ' : w ∈ Q' := hs2 (List.mem_toFinset.mpr hw)
        exact (Finset.mem_filter.mp hwQ').2
      · refine List.nodup_cons.mpr ⟨?_, hs5⟩
        intro hv
        have : v ∈ Q' := hs2 (List.mem_toFinset.mpr hv)
        exact (Finset.mem_erase.mp (hQ'sub this)).1 rfl

theorem foldl_max_const (b : ℕ) :
    ∀ (l : List ℕ) (a : ℕ), l ≠ [] → (l.map (fun _ => b)).foldl max a = max a b := by
  intro l
  induction l with
  | nil => intro a h; exact absurd rfl h
  | cons x xs ih =>
    intro a _
    show (xs.map (fun _ => b)).foldl max (max a b) = max a b
    rcases hxs : xs with - | ⟨y, ys⟩
    · rfl
    · rw [← hxs, ih (max a b) (by rw [hxs]; exact List.cons_ne_nil y ys)]
      rw [max_assoc, max_self]

theorem bbColourLoop_bound (adjF : ℕ → ℕ → Bool) (n : ℕ) :
    ∀ (fuel : ℕ) (copyP : Finset ℕ) (cls : ℕ), copyP ⊆ Finset.range n →
      copyP.card ≤ fuel →
      ∀ K : Finset ℕ, K ⊆ copyP →
        (∀ u ∈ K, ∀ w ∈ K, u ≠ w → adjF u w = true) →
        K.card + cls ≤ ((bbColourLoop adjF n fuel copyP cls).map Prod.snd).foldl max cls := by
  intro fuel
  induction fuel with
  | zero =>
    intro copyP cls _ hcard K hK _
    have hcP : copyP = ∅ := Finset.card_eq_zero.mp (Nat.le_zero.mp hcard)
    have hKe : K = ∅ := Finset.subset_empty.mp (hcP ▸ hK)
    simp [bbColourLoop, hKe]
  | succ fuel ih =>
    intro copyP cls hsub hcard K hK hKadj
    by_cases hcP : copyP = ∅
    · have hKe : K = ∅ := Finset.subset_empty.mp (hcP ▸ hK)
      have hred : bbColourLoop adjF n (fuel+1) copyP cls = [] := by
        show (if copyP = ∅ then [] else _) = []
        rw [if_pos hcP]
      rw [hred, hKe]
      simp
    · set r := bbInner adjF n (copyP.card + 1) copyP copyP with hr
      have hred : bbColourLoop adjF n (fuel+1) copyP cls =
          (r.2.map (fun v => (v, cls + 1))) ++
            bbColourLoop adjF n fuel r.1 (cls + 1) := by
        show (if copyP = ∅ then [] else
          (r.2.map (fun v => (v, cls + 1))) ++
            bbColourLoop adjF n fuel r.1 (cls + 1)) = _
        rw [if_neg hcP]
      obtain ⟨hs1, hs2, hs3, hs4, _⟩ :=
        bbInner_spec adjF n (copyP.card + 1) copyP copyP
          (Finset.Subset.refl copyP) hsub (Nat.le_succ _)
      rw [← hr] at hs1 hs2 hs3 hs4
      have husne : r.2 ≠ [] := fun h => hcP (hs3.mp h)
      have husfin : r.2.toFinset.Nonempty := by
        rw [List.toFinset_nonempty_iff]
        exact husne
      have hr1sub : r.1 ⊆ copyP := by rw [hs1]; exact Finset.sdiff_subset
      have hr1card : r.1.card ≤ fuel := by
        have h1 : r.1.card = copyP.card - r.2.toFinset.card := by
          rw [hs1, Finset.card_sdiff hs2]
        have h2 : 1 ≤ r.2.toFinset.card := Finset.card_pos.mpr husfin
        omega
      have hinter : (K ∩ r.2.toFinset).card ≤ 1 := by
        rw [Finset.card_le_one]
        intro a ha b hb
        by_contra hab
        have haK := Finset.mem_inter.mp ha
        have hbK := Finset.mem_inter.mp hb
        have h := pairwise_or r.2 hs4 a (List.mem_toFinset.mp haK.2)
          b (List.mem_toFinset.mp hbK.2) hab
        rcases h with h' | h'
        · rw [hKadj a haK.1 b hbK.1 hab] at h'
          exact absurd h' (by simp)
        · rw [hKadj b hbK.1 a haK.1 (Ne.symm hab)] at h'
          exact absurd h' (by simp)
      set K' := K \ r.2.toFinset with hK'
      have hK'sub : K' ⊆ r.1 := by
        intro x hx
        have hx' := Finset.mem_sdiff.mp hx
        rw [hs1]
        exact Finset.mem_sdiff.mpr ⟨hK hx'.1, hx'.2⟩
      have hKcard : K.card ≤ K'.card + 1 := by
        have h := Finset.card_sdiff_add_card_inter K r.2.toFinset
        rw [← hK'] at h
        omega
      have hih := ih r.1 (cls + 1) (hr1sub.trans hsub) hr1card K' hK'sub
        (fun u hu w hw huw =>
          hKadj u (Finset.mem_sdiff.mp hu).1 w (Finset.mem_sdiff.mp hw).1 huw)
      rw [hred, List.map_append, List.foldl_append]
      have hmap : (r.2.map (fun v => (v, cls + 1))).map Prod.snd =
          r.2.map (fun _ => cls + 1) := by
        rw [List.map_map]
        rfl
      rw [hmap, foldl_max_const (cls + 1) r.2 cls husne]
      have hmax : max cls (cls + 1) = cls + 1 := by omega
      rw [hmax]
      omega

/-- `TomitaAlgorithm::compute_coloring_bound(P, g)`: order the vertices of
`P` by degree inside `P` descending, greedily colour them sequentially
(smallest colour unused among already-coloured `P`-neighbors), and return
`max_color + 1`; `0` on empty `P`. -/
def Graph.compute_coloring_bound (g : Graph) (P : Finset ℕ) : ℕ :=
  if P = ∅ then 0
  else
    ((sortDesc (pivotScore g P) (ascListN g.n P)).map (fun v =>
      (seqColorF (fun a b => decide (b ∈ g.adjl a)) P
        (sortDesc (pivotScore g P) (ascListN g.n P)) (fun _ => none) v).getD 0)).foldl
      max 0 + 1

/-- `OstergardAlgorithm::color_bound(candidates, g)`: greedy sequential
colouring of the candidate list in its given order, adjacency through
`has_edge`; returns `num_colors`. -/
def Graph.color_bound (g : Graph) (candidates : List ℕ) : ℕ :=
  if candidates = [] then 0
  else
    (candidates.map (fun v =>
      (seqColorF (fun a b => g.has_edge a b) candidates.toFinset candidates
        (fun _ => none) v).getD 0)).foldl max 0 + 1

theorem compute_coloring_bound_ge (g : Graph) (hwf : g.WFb) (P : Finset ℕ)
    (hP : P ⊆ Finset.range g.n) (K : Finset ℕ) (hK : g.is_clique K)
    (hKP : K ⊆ P) : K.card ≤ g.compute_coloring_bound P := by
  by_cases hPe : P = ∅
  · have : K = ∅ := Finset.subset_empty.mp (hPe ▸ hKP)
    rw [this]
    simp
  · have hred : g.compute_coloring_bound P =
        ((sortDesc (pivotScore g P) (ascListN g.n P)).map (fun v =>
          (seqColorF (fun a b => decide (b ∈ g.adjl a)) P
            (sortDesc (pivotScore g P) (ascListN g.n P)) (fun _ => none) v).getD 0)).foldl
          max 0 + 1 := by
      show (if P = ∅ then 0 else _) = _
      rw [if_neg hPe]
    rw [hred]
    have hperm := sortDesc_perm (pivotScore g P) (ascListN g.n P)
    refine seqColor_clique_bound _ P _ (hperm.nodup_iff.mpr (ascListN_nodup _ _))
      ?_ K ?_ ?_
    · intro v hv
      exact (mem_ascListN.mp (hperm.mem_iff.mp hv)).2
    · intro k hk
      refine hperm.mem_iff.mpr (mem_ascListN.mpr ⟨?_, hKP hk⟩)
      exact Finset.mem_range.mp (hP (hKP hk))
    · intro u hu w hw huw
      have he := hK u hu w hw huw
      have hun : u < g.n := Finset.mem_range.mp (hP (hKP hu))
      have hwn : w < g.n := Finset.mem_range.mp (hP (hKP hw))
      have hm : g.adjm u w = true := by
        have : g.has_edge u w = true := he
        unfold Graph.has_edge at this
        rwa [if_pos ⟨hun, hwn⟩] at this
      have := (hwf.2.2.1 u (Finset.mem_range.mpr hun) w
        (Finset.mem_range.mpr hwn)).mpr hm
      simpa using this

theorem color_bound_ge (g : Graph) (cands : List ℕ) (hnd : cands.Nodup)
    (K : Finset ℕ) (hK : g.is_clique K) (hKc : ∀ k ∈ K, k ∈ cands) :
    K.card ≤ g.color_bound cands := by
  rcases hc : cands with - | ⟨y, ys⟩
  · have : K = ∅ := by
      ext x
      simp only [Finset.not_mem_empty, iff_false]
      intro hx
      have := hKc x hx
      rw [hc] at this
      exact absurd this (List.not_mem_nil x)
    rw [this]
    simp [Graph.color_bound]
  · rw [← hc]
    have hred : g.color_bound cands =
        (cands.map (fun v =>
          (seqColorF (fun a b => g.has_edge a b) cands.toFinset cands
            (fun _ => none) v).getD 0)).foldl max 0 + 1 := by
      show (if cands = [] then 0 else _) = _
      rw [if_neg (by rw [hc]; exact List.cons_ne_nil y ys)]
    rw [hred]
    exact seqColor_clique_bound _ cands.toFinset cands hnd
      (fun v hv => List.mem_toFinset.mpr hv) K hKc
      (fun u hu w hw huw => hK u hu w hw huw)

theorem bb_colour_ge (adjF : ℕ → ℕ → Bool) (n : ℕ) (P : Finset ℕ)
    (hP : P ⊆ Finset.range n) (K : Finset ℕ) (hK : K ⊆ P)
    (hadj : ∀ u ∈ K, ∀ w ∈ K, u ≠ w → adjF u w = true) :
    K.card ≤ ((bb_colour adjF n P).map Prod.snd).foldl max 0 := by
  have := bbColourLoop_bound adjF n P.card P 0 hP (le_refl _) K hK hadj
  unfold bb_colour
  omega

/-- **C2.** For every well-formed graph state and every candidate set `P`
inside the vertex range, each greedy-coloring bound of the suite —
`TomitaAlgorithm::compute_coloring_bound(P, g)`,
`OstergardAlgorithm::color_bound` on the iteration order of `P`, and the
largest colour class produced by `BBMC::bb_colour` on `P` — is at least
the size of every clique contained in `P`, hence at least the maximum
clique size of the subgraph induced by `P`; consequently pruning a node
when `|R|` plus the coloring bound is at most the incumbent size never
discards a clique larger than the incumbent. -/
theorem c2_coloring_bound_sound (g : Graph) (hwf : g.WFb) (P : Finset ℕ)
    (hP : P ⊆ Finset.range g.n) (K : Finset ℕ) (hK : g.is_clique K)
    (hKP : K ⊆ P) :
    (K.card ≤ g.compute_coloring_bound P ∧
     K.card ≤ g.color_bound (ascListN g.n P) ∧
     K.card ≤ ((bb_colour g.has_edge g.n P).map Prod.snd).foldl max 0) ∧
    (∀ R best : Finset ℕ,
      R.card + g.compute_coloring_bound P ≤ best.card →
      ∀ C : Finset ℕ, g.is_clique C → R ⊆ C → C \ R ⊆ P →
        C.card ≤ best.card) := by
  constructor
  · refine ⟨compute_coloring_bound_ge g hwf P hP K hK hKP, ?_, ?_⟩
    · refine color_bound_ge g (ascListN g.n P) (ascListN_nodup _ _) K hK ?_
      intro k hk
      exact mem_ascListN.mpr ⟨Finset.mem_range.mp (hP (hKP hk)), hKP hk⟩
    · refine bb_colour_ge g.has_edge g.n P hP K hKP ?_
      intro u hu w hw huw
      exact hK u hu w hw huw
  · intro R best hprune C hC hRC hCRP
    have hclq : g.is_clique (C \ R) := by
      intro u hu w hw huw
      exact hC u (Finset.mem_sdiff.mp hu).1 w (Finset.mem_sdiff.mp hw).1 huw
    have hbound := compute_coloring_bound_ge g hwf P hP (C \ R) hclq hCRP
    have hcard : (C \ R).card = C.card - R.card := Finset.card_sdiff hRC
    have hle : R.card ≤ C.card := Finset.card_le_card hRC
    omega

theorem c2_coloring_bound_sound_witness :
    (triG.WFb ∧ ({0, 1, 2} : Finset ℕ) ⊆ Finset.range triG.n ∧
      triG.is_clique {0, 1, 2} ∧ ({0, 1, 2} : Finset ℕ) ⊆ {0, 1, 2}) ∧
    ((({0, 1, 2} : Finset ℕ).card ≤ triG.compute_coloring_bound {0, 1, 2} ∧
      ({0, 1, 2} : Finset ℕ).card ≤ triG.color_bound (ascListN triG.n {0, 1, 2}) ∧
      ({0, 1, 2} : Finset ℕ).card ≤
        ((bb_colour triG.has_edge triG.n {0, 1, 2}).map Prod.snd).foldl max 0) ∧
     (∀ R best : Finset ℕ,
        R.card + triG.compute_coloring_bound {0, 1, 2} ≤ best.card →
        ∀ C : Finset ℕ, triG.is_clique C → R ⊆ C → C \ R ⊆ {0, 1, 2} →
          C.card ≤ best.card)) :=
  ⟨⟨by decide, by decide, by decide, by decide⟩,
    c2_coloring_bound_sound triG (by decide) {0, 1, 2} (by decide) {0, 1, 2}
      (by decide) (by decide)⟩

/-! ## C3: pivot-branch completeness.

`bkEnum` is the Bron–Kerbosch recursion skeleton shared by
`TomitaAlgorithm::tomita_recursive` and `CPUOptimized::optimized_bk` with
the incumbent-size pruning removed (the claim is about the branching rule
alone): at a node `(R, P, X)` a pivot `u` is picked, the branch set is
`P \ N(u)`, and each branch vertex `v` yields a child
`(R ∪ {v}, P ∩ N(v), X ∩ N(v))` after which `v` moves from `P` to `X`.
The pivot choice and the branch iteration order are parameters. -/

def bkFoldWith (child : Finset ℕ → Finset ℕ → Finset ℕ → List (Finset ℕ))
    (adj : ℕ → Finset ℕ) :
    List ℕ → Finset ℕ → Finset ℕ → Finset ℕ → List (Finset ℕ)
  | [], _, _, _ => []
  | v :: rest, R, P, X =>
    child (insert v R) (P ∩ adj v) (X ∩ adj v) ++
      bkFoldWith child adj rest R (P.erase v) (insert v X)

def bkEnum (g : Graph) (pick : Finset ℕ → Finset ℕ → Option ℕ)
    (ord : Finset ℕ → List ℕ) :
    ℕ → Finset ℕ → Finset ℕ → Finset ℕ → List (Finset ℕ)
  | 0, _, _, _ => []
  | fuel+1, R, P, X =>
    if P = ∅ ∧ X = ∅ then [R]
    else
      bkFoldWith (bkEnum g pick ord fuel) g.adjl
        (ord (match pick P X with
          | some u => P.filter (fun v => v ∉ g.adjl u)
          | none => P)) R P X

/-- A maximal clique admits no outside vertex adjacent to all its
members. -/
theorem maximal_no_extender {g : Graph} (hwf : g.WFb) {C : Finset ℕ}
    (hC : AMaximal g.n g.has_edge C) {u : ℕ} (hun : u < g.n)
    (hadj : ∀ c ∈ C, g.has_edge u c = true) : False := by
  have huC : u ∉ C := by
    intro huC
    have h := hadj u huC
    rw [Graph.has_edge_irrefl hwf] at h
    exact Bool.false_ne_true h
  apply hC.2.2 u (Finset.mem_range.mpr hun) huC
  intro a ha b hb hab
  rcases Finset.mem_insert.mp ha with rfl | haC
  · rcases Finset.mem_insert.mp hb with rfl | hbC
    · exact absurd rfl hab
    · exact hadj b hbC
  · rcases Finset.mem_insert.mp hb with rfl | hbC
    · rw [Graph.has_edge_symm hwf a b]
      exact hadj a haC
    · exact hC.1 a haC b hbC hab

/-- The pivot returned by `choose_pivot` lies in `P ∪ X`. -/
theorem choose_pivot_mem (g : Graph) :
    ∀ (P X : Finset ℕ) (u : ℕ), choose_pivot g P X = some u → u ∈ P ∪ X := by
  intro P X u h
  unfold choose_pivot at h
  rcases hres : argmaxScan (pivotScore g P) (ascListN g.n P ++ ascListN g.n X)
      none with - | ⟨res⟩
  · rw [hres] at h
    exact absurd h (by simp)
  · rw [hres] at h
    have hrmem := (argmaxScan_max hres).1
    have hru : res.1 = u := by simpa using h
    rw [← hru]
    rcases List.mem_append.mp hrmem with h' | h'
    · exact Finset.mem_union_left _ (mem_ascListN.mp h').2
    · exact Finset.mem_union_right _ (mem_ascListN.mp h').2

/-- **C3.** At any node `(R, P, X)` satisfying the Bron–Kerbosch
invariants (sets inside the vertex range, every vertex of `P ∪ X`
adjacent to all of `R`), for every pivot rule `pick` that returns a
vertex of `P ∪ X` and every iteration order `ord` that enumerates its
set, branching only on the vertices of `P \ N(pick P X)` still reaches
every maximal clique of `G` that contains `R` and is reachable from the
node (`C \ R ⊆ P`). -/
theorem c3_pivot_branch_complete (g : Graph) (hwf : g.WFb)
    (pick : Finset ℕ → Finset ℕ → Option ℕ)
    (hpick : ∀ P X u, pick P X = some u → u ∈ P ∪ X)
    (ord : Finset ℕ → List ℕ)
    (hord : ∀ s, s ⊆ Finset.range g.n →
      ((ord s).Nodup ∧ ∀ v, v ∈ ord s ↔ v ∈ s))
    (fuel : ℕ) (R P X : Finset ℕ) (hfuel : P.card + 1 ≤ fuel)
    (hPX : P ∪ X ⊆ Finset.range g.n) (hR : R ⊆ Finset.range g.n)
    (hadjR : ∀ v ∈ P ∪ X, ∀ r ∈ R, g.has_edge v r = true)
    (C : Finset ℕ) (hC : AMaximal g.n g.has_edge C) (hRC : R ⊆ C)
    (hCRP : C \ R ⊆ P) :
    C ∈ bkEnum g pick ord fuel R P X := by
  induction fuel generalizing R P X with
  | zero => exact absurd hfuel (by omega)
  | succ fuel ih =>
    by_cases hbase : P = ∅ ∧ X = ∅
    · have hred : bkEnum g pick ord (fuel+1) R P X = [R] := by
        show (if P = ∅ ∧ X = ∅ then [R] else _) = _
        rw [if_pos hbase]
      rw [hred]
      have hCeq : C = R := by
        apply Finset.Subset.antisymm
        · intro x hx
          by_contra hxR
          have hmem : x ∈ C \ R := Finset.mem_sdiff.mpr ⟨hx, hxR⟩
          have := hCRP hmem
          rw [hbase.1] at this
          exact absurd this (Finset.not_mem_empty x)
        · exact hRC
      rw [hCeq]
      exact List.mem_singleton.mpr rfl
    · have hred : bkEnum g pick ord (fuel+1) R P X =
          bkFoldWith (bkEnum g pick ord fuel) g.adjl
            (ord (match pick P X with
              | some u => P.filter (fun v => v ∉ g.adjl u)
              | none => P)) R P X := by
        show (if P = ∅ ∧ X = ∅ then [R]
          else bkFoldWith (bkEnum g pick ord fuel) g.adjl
            (ord (match pick P X with
              | some u => P.filter (fun v => v ∉ g.adjl u)
              | none => P)) R P X) = _
        rw [if_neg hbase]
      rw [hred]
      have inner : ∀ l : List ℕ, l.Nodup → ∀ P' X' : Finset ℕ,
          (∀ v ∈ l, v ∈ P') → P' ∪ X' ⊆ Finset.range g.n →
          (∀ v ∈ P' ∪ X', ∀ r ∈ R, g.has_edge v r = true) →
          P'.card ≤ fuel → C \ R ⊆ P' →
          (∃ w ∈ l, w ∈ C) →
          C ∈ bkFoldWith (bkEnum g pick ord fuel) g.adjl l R P' X' := by
        intro l
        induction l with
        | nil =>
          intro _ P' X' _ _ _ _ _ hex
          obtain ⟨w, hw, _⟩ := hex
          exact absurd hw (List.not_mem_nil w)
        | cons v rest ihl =>
          intro hnd P' X' hlP hPX' hadjR' hcard hCRP' hex
          have hvP' : v ∈ P' := hlP v (List.mem_cons_self v rest)
          have hvn : v < g.n :=
            Finset.mem_range.mp (hPX' (Finset.mem_union_left _ hvP'))
          show C ∈ bkEnum g pick ord fuel (insert v R) (P' ∩ g.adjl v)
            (X' ∩ g.adjl v) ++
            bkFoldWith (bkEnum g pick ord fuel) g.adjl rest R (P'.erase v)
              (insert v X')
          by_cases hvC : v ∈ C
          · refine List.mem_append.mpr (Or.inl ?_)
            have hsub2 : P' ∩ g.adjl v ⊆ P'.erase v := by
              intro x hx
              have hx' := Finset.mem_inter.mp hx
              refine Finset.mem_erase.mpr ⟨?_, hx'.1⟩
              intro hxv
              rw [hxv] at hx'
              exact Graph.not_mem_adjl_self hwf hvn hx'.2
            have hcard2 : (P' ∩ g.adjl v).card + 1 ≤ fuel := by
              have h1 := Finset.card_le_card hsub2
              have h2 := Finset.card_erase_of_mem hvP'
              have h3 : 0 < P'.card := Finset.card_pos.mpr ⟨v, hvP'⟩
              omega
            refine ih (insert v R) (P' ∩ g.adjl v) (X' ∩ g.adjl v) hcard2
              ?_ ?_ ?_ ?_ ?_
            · intro x hx
              rcases Finset.mem_union.mp hx with hx' | hx'
              · exact hPX' (Finset.mem_union_left _ (Finset.mem_inter.mp hx').1)
              · exact hPX' (Finset.mem_union_right _ (Finset.mem_inter.mp hx').1)
            · intro x hx
              rcases Finset.mem_insert.mp hx with rfl | hx'
              · exact Finset.mem_range.mpr hvn
              · exact hR hx'
            · intro x hx r hr
              have hxadj : x ∈ g.adjl v ∧ x ∈ P' ∪ X' := by
                rcases Finset.mem_union.mp hx with hx' | hx'
                · have h' := Finset.mem_inter.mp hx'
                  exact ⟨h'.2, Finset.mem_union_left _ h'.1⟩
                · have h' := Finset.mem_inter.mp hx'
                  exact ⟨h'.2, Finset.mem_union_right _ h'.1⟩
              rcases Finset.mem_insert.mp hr with rfl | hr'
              · have h' := (Graph.mem_adjl_iff hwf hvn).mp hxadj.1
                rw [Graph.has_edge_symm hwf x r]
                exact h'
              · exact hadjR' x hxadj.2 r hr'
            · intro x hx
              rcases Finset.mem_insert.mp hx with rfl | hx'
              · exact hvC
              · exact hRC hx'
            · intro x hx
              have hx' := Finset.mem_sdiff.mp hx
              have hxv : x ≠ v := by
                intro hxv
                exact hx'.2 (Finset.mem_insert.mpr (Or.inl hxv))
              have hxR : x ∉ R := fun h =>
                hx'.2 (Finset.mem_insert.mpr (Or.inr h))
              have hxP : x ∈ P' := hCRP' (Finset.mem_sdiff.mpr ⟨hx'.1, hxR⟩)
              refine Finset.mem_inter.mpr ⟨hxP, ?_⟩
              refine (Graph.mem_adjl_iff hwf hvn).mpr ?_
              exact hC.1 v hvC x hx'.1 (Ne.symm hxv)
          · refine List.mem_append.mpr (Or.inr ?_)
            have hvrest : v ∉ rest := (List.nodup_cons.mp hnd).1
            refine ihl (List.nodup_cons.mp hnd).2 (P'.erase v) (insert v X')
              ?_ ?_ ?_ ?_ ?_ ?_
            · intro x hx
              refine Finset.mem_erase.mpr ⟨?_, hlP x (List.mem_cons_of_mem v hx)⟩
              intro hxv
              rw [hxv] at hx
              exact hvrest hx
            · intro x hx
              rcases Finset.mem_union.mp hx with hx' | hx'
              · exact hPX' (Finset.mem_union_left _ (Finset.mem_erase.mp hx').2)
              · rcases Finset.mem_insert.mp hx' with rfl | hx''
                · exact Finset.mem_range.mpr hvn
                · exact hPX' (Finset.mem_union_right _ hx'')
            · intro x hx r hr
              rcases Finset.mem_union.mp hx with hx' | hx'
              · exact hadjR' x
                  (Finset.mem_union_left _ (Finset.mem_erase.mp hx').2) r hr
              · rcases Finset.mem_insert.mp hx' with rfl | hx''
                · exact hadjR' x (Finset.mem_union_left _ hvP') r hr
                · exact hadjR' x (Finset.mem_union_right _ hx'') r hr
            · have hce : (P'.erase v).card ≤ P'.card := Finset.card_erase_le
              omega
            · intro x hx
              refine Finset.mem_erase.mpr ⟨?_, hCRP' hx⟩
              intro hxv
              rw [hxv] at hx
              exact hvC (Finset.mem_sdiff.mp hx).1
            · obtain ⟨w, hwl, hwC⟩ := hex
              rcases List.mem_cons.mp hwl with rfl | hw'
              · exact absurd hwC hvC
              · exact ⟨w, hw', hwC⟩
      have hPrange : P ⊆ Finset.range g.n :=
        Finset.Subset.trans Finset.subset_union_left hPX
      have main : ∀ E : Finset ℕ, E ⊆ P → (∃ w ∈ C \ R, w ∈ E) →
          C ∈ bkFoldWith (bkEnum g pick ord fuel) g.adjl (ord E) R P X := by
        intro E hEP hwex
        obtain ⟨hndE, hmemE⟩ := hord E (hEP.trans hPrange)
        obtain ⟨w, hwCR, hwE⟩ := hwex
        refine inner (ord E) hndE P X (fun v hv => hEP ((hmemE v).mp hv))
          hPX hadjR (by omega) hCRP
          ⟨w, (hmemE w).mpr hwE, (Finset.mem_sdiff.mp hwCR).1⟩
      rcases hpk : pick P X with - | ⟨u⟩
      · show C ∈ bkFoldWith (bkEnum g pick ord fuel) g.adjl (ord P) R P X
        by_cases hCRe : C \ R = ∅
        · exfalso
          have hCeq : C = R := by
            apply Finset.Subset.antisymm
            · intro x hx
              by_contra hxR
              have : x ∈ C \ R := Finset.mem_sdiff.mpr ⟨hx, hxR⟩
              rw [hCRe] at this
              exact absurd this (Finset.not_mem_empty x)
            · exact hRC
          have hne : (P ∪ X).Nonempty := by
            rcases Finset.eq_empty_or_nonempty P with hP0 | hP0
            · rcases Finset.eq_empty_or_nonempty X with hX0 | hX0
              · exact absurd ⟨hP0, hX0⟩ hbase
              · obtain ⟨x, hx⟩ := hX0
                exact ⟨x, Finset.mem_union_right _ hx⟩
            · obtain ⟨x, hx⟩ := hP0
              exact ⟨x, Finset.mem_union_left _ hx⟩
          obtain ⟨v, hv⟩ := hne
          refine maximal_no_extender hwf hC (Finset.mem_range.mp (hPX hv)) ?_
          intro c hc
          rw [hCeq] at hc
          exact hadjR v hv c hc
        · obtain ⟨w, hw⟩ := Finset.nonempty_iff_ne_empty.mpr hCRe
          exact main P (Finset.Subset.refl P) ⟨w, hw, hCRP hw⟩
      · have huPX : u ∈ P ∪ X := hpick P X u hpk
        have hun : u < g.n := Finset.mem_range.mp (hPX huPX)
        show C ∈ bkFoldWith (bkEnum g pick ord fuel) g.adjl
          (ord (P.filter (fun v => v ∉ g.adjl u))) R P X
        by_cases hcov : ∀ w ∈ C \ R, w ∈ g.adjl u
        · exfalso
          refine maximal_no_extender hwf hC hun ?_
          intro c hc
          by_cases hcR : c ∈ R
          · exact hadjR u huPX c hcR
          · have hcCR : c ∈ C \ R := Finset.mem_sdiff.mpr ⟨hc, hcR⟩
            exact (Graph.mem_adjl_iff hwf hun).mp (hcov c hcCR)
        · push_neg at hcov
          obtain ⟨w, hwCR, hwnadj⟩ := hcov
          exact main (P.filter (fun v => v ∉ g.adjl u))
            (Finset.filter_subset _ _)
            ⟨w, hwCR, Finset.mem_filter.mpr ⟨hCRP hwCR, hwnadj⟩⟩

instance (n : ℕ) (adj : ℕ → ℕ → Bool) (K : Finset ℕ) :
    Decidable (AMaximal n adj K) := by
  unfold AMaximal
  infer_instance

theorem c3_pivot_branch_complete_witness :
    (triG.WFb ∧ ({0, 1, 2} : Finset ℕ).card + 1 ≤ 4 ∧
      (({0, 1, 2} : Finset ℕ) ∪ ∅) ⊆ Finset.range triG.n ∧
      (∅ : Finset ℕ) ⊆ Finset.range triG.n ∧
      (∀ v ∈ (({0, 1, 2} : Finset ℕ) ∪ ∅), ∀ r ∈ (∅ : Finset ℕ),
        triG.has_edge v r = true) ∧
      AMaximal triG.n triG.has_edge {0, 1, 2} ∧
      (∅ : Finset ℕ) ⊆ {0, 1, 2} ∧
      ({0, 1, 2} : Finset ℕ) \ ∅ ⊆ {0, 1, 2}) ∧
    ({0, 1, 2} : Finset ℕ) ∈
      bkEnum triG (choose_pivot triG) (ascListN triG.n) 4 ∅ {0, 1, 2} ∅ :=
  ⟨⟨by decide, by decide, by decide, by decide, by decide, by decide,
    by decide, by decide⟩,
   c3_pivot_branch_complete triG (by decide) (choose_pivot triG)
     (choose_pivot_mem triG) (ascListN triG.n)
     (fun s hs => ⟨ascListN_nodup _ _, fun v =>
       ⟨fun h => (mem_ascListN.mp h).2,
        fun h => mem_ascListN.mpr ⟨Finset.mem_range.mp (hs h), h⟩⟩⟩)
     4 ∅ {0, 1, 2} ∅ (by decide) (by decide) (by decide) (by decide)
     {0, 1, 2} (by decide) (by decide) (by decide)⟩

/-! ## C1: the six exact solvers.

`bkBest` is the common best-tracking Bron–Kerbosch recursion of
`BronKerbosch::bron_kerbosch` (no coloring prune, no pivot),
`TomitaAlgorithm::tomita_recursive` / `DegeneracyBK::tomita_with_pivot`
(coloring prune, pivot, branch vertices sorted by degree in `P`
descending) and `CPUOptimized::optimized_bk` (pivot, ascending order):
  * optional prune `|R| + bound(P) ≤ |best|`,
  * prune `|R| + |P| ≤ |best|`,
  * base case `P = ∅ ∧ X = ∅` records `R` when strictly larger,
  * otherwise loop over the branch set `candFn P X` in order `ord`,
    breaking when `|R| + 1 + |P| ≤ |best|`, recursing on
    `(R ∪ {v}, P ∩ N(v), X ∩ N(v))` and moving `v` from `P` to `X`. -/

def bkBestFoldWith (child : Finset ℕ → Finset ℕ → Finset ℕ → Finset ℕ → Finset ℕ)
    (adj : ℕ → Finset ℕ) :
    List ℕ → Finset ℕ → Finset ℕ → Finset ℕ → Finset ℕ → Finset ℕ
  | [], _, _, _, best => best
  | v :: rest, R, P, X, best =>
    if R.card + 1 + P.card ≤ best.card then best
    else
      bkBestFoldWith child adj rest R (P.erase v) (insert v X)
        (child (insert v R) (P ∩ adj v) (X ∩ adj v) best)

def bkBest (g : Graph) (useColor : Bool) (boundFn : Finset ℕ → ℕ)
    (candFn : Finset ℕ → Finset ℕ → Finset ℕ)
    (ord : Finset ℕ → Finset ℕ → List ℕ) :
    ℕ → Finset ℕ → Finset ℕ → Finset ℕ → Finset ℕ → Finset ℕ
  | 0, _, _, _, best => best
  | fuel+1, R, P, X, best =>
    if useColor = true ∧ R.card + boundFn P ≤ best.card then best
    else if R.card + P.card ≤ best.card then best
    else if P = ∅ ∧ X = ∅ then (if best.card < R.card then R else best)
    else
      bkBestFoldWith (bkBest g useColor boundFn candFn ord fuel) g.adjl
        (ord P (candFn P X)) R P X best

/-- The pivot-restricted branch set used by Tomita, DegeneracyBK and
CPUOptimized: `P \ N(pivot)`, or all of `P` when no pivot exists. -/
def tomitaCand (g : Graph) (P X : Finset ℕ) : Finset ℕ :=
  match choose_pivot g P X with
  | some u => P.filter (fun v => v ∉ g.adjl u)
  | none => P

/-- `BronKerbosch::find_maximum_clique` (part_007): basic recursion,
iteration in set order, empty seed, `P` initially all vertices. -/
def BronKerbosch_find_maximum_clique (g : Graph) : Finset ℕ :=
  bkBest g false (fun _ => 0) (fun P _ => P) (fun _ s => ascListN g.n s)
    (g.n + 1) ∅ (Finset.range g.n) ∅ ∅

/-- `TomitaAlgorithm::find_maximum_clique`: greedy seed, coloring prune,
pivot, branch vertices sorted by degree in `P` descending. -/
def TomitaAlgorithm_find_maximum_clique (g : Graph) : Finset ℕ :=
  bkBest g true g.compute_coloring_bound (tomitaCand g)
    (fun P s => sortDesc (pivotScore g P) (ascListN g.n s))
    (g.n + 1) ∅ (Finset.range g.n) ∅ (find_greedy_clique g).toFinset

/-- `CPUOptimized::find_maximum_clique` (part_005): pivoted bitset
recursion, ascending bit order, empty seed. -/
def CPUOptimized_find_maximum_clique (g : Graph) : Finset ℕ :=
  bkBest g false (fun _ => 0) (tomitaCand g) (fun _ s => ascListN g.n s)
    (g.n + 1) ∅ (Finset.range g.n) ∅ ∅

theorem bkBestFold_mono
    {child : Finset ℕ → Finset ℕ → Finset ℕ → Finset ℕ → Finset ℕ}
    (hchild : ∀ R P X b, b.card ≤ (child R P X b).card)
    (adj : ℕ → Finset ℕ) :
    ∀ (l : List ℕ) (R P X best : Finset ℕ),
      best.card ≤ (bkBestFoldWith child adj l R P X best).card := by
  intro l
  induction l with
  | nil => intro R P X best; exact le_refl _
  | cons v rest ih =>
    intro R P X best
    show best.card ≤ (if R.card + 1 + P.card ≤ best.card then best
      else bkBestFoldWith child adj rest R (P.erase v) (insert v X)
        (child (insert v R) (P ∩ adj v) (X ∩ adj v) best)).card
    by_cases hbr : R.card + 1 + P.card ≤ best.card
    · rw [if_pos hbr]
    · rw [if_neg hbr]
      exact le_trans (hchild (insert v R) (P ∩ adj v) (X ∩ adj v) best)
        (ih R (P.erase v) (insert v X) _)

theorem bkBest_mono (g : Graph) (useColor : Bool) (boundFn : Finset ℕ → ℕ)
    (candFn : Finset ℕ → Finset ℕ → Finset ℕ)
    (ord : Finset ℕ → Finset ℕ → List ℕ) :
    ∀ (fuel : ℕ) (R P X best : Finset ℕ),
      best.card ≤ (bkBest g useColor boundFn candFn ord fuel R P X best).card := by
  intro fuel
  induction fuel with
  | zero => intro R P X best; exact le_refl _
  | succ fuel ih =>
    intro R P X best
    show best.card ≤ (if useColor = true ∧ R.card + boundFn P ≤ best.card then best
      else if R.card + P.card ≤ best.card then best
      else if P = ∅ ∧ X = ∅ then (if best.card < R.card then R else best)
      else bkBestFoldWith (bkBest g useColor boundFn candFn ord fuel) g.adjl
        (ord P (candFn P X)) R P X best).card
    by_cases h1 : useColor = true ∧ R.card + boundFn P ≤ best.card
    · rw [if_pos h1]
    · rw [if_neg h1]
      by_cases h2 : R.card + P.card ≤ best.card
      · rw [if_pos h2]
      · rw [if_neg h2]
        by_cases h3 : P = ∅ ∧ X = ∅
        · rw [if_pos h3]
          by_cases h4 : best.card < R.card
          · rw [if_pos h4]; omega
          · rw [if_neg h4]
        · rw [if_neg h3]
          exact bkBestFold_mono (fun R' P' X' b' => ih R' P' X' b') g.adjl _ R P X best

theorem bkBest_sound (g : Graph) (hwf : g.WFb) (useColor : Bool)
    (boundFn : Finset ℕ → ℕ) (candFn : Finset ℕ → Finset ℕ → Finset ℕ)
    (ord : Finset ℕ → Finset ℕ → List ℕ)
    (hcand : ∀ P X, candFn P X ⊆ P)
    (hord : ∀ P s v, v ∈ ord P s → v ∈ s) :
    ∀ (fuel : ℕ) (R P X best : Finset ℕ),
      g.is_clique R → R ⊆ Finset.range g.n → P ∪ X ⊆ Finset.range g.n →
      (∀ v ∈ P ∪ X, ∀ r ∈ R, g.has_edge v r = true) →
      g.is_clique best → best ⊆ Finset.range g.n →
      (g.is_clique (bkBest g useColor boundFn candFn ord fuel R P X best) ∧
       bkBest g useColor boundFn candFn ord fuel R P X best ⊆ Finset.range g.n) := by
  intro fuel
  induction fuel with
  | zero => intro R P X best _ _ _ _ hb1 hb2; exact ⟨hb1, hb2⟩
  | succ fuel ih =>
    intro R P X best hRclq hRr hPXr hPXadjR hbest hbestr
    have hgoal : ∀ res : Finset ℕ,
        res = bkBest g useColor boundFn candFn ord (fuel+1) R P X best →
        (g.is_clique res ∧ res ⊆ Finset.range g.n) := by
      intro res hres
      have hred : bkBest g useColor boundFn candFn ord (fuel+1) R P X best =
          (if useColor = true ∧ R.card + boundFn P ≤ best.card then best
          else if R.card + P.card ≤ best.card then best
          else if P = ∅ ∧ X = ∅ then (if best.card < R.card then R else best)
          else bkBestFoldWith (bkBest g useColor boundFn candFn ord fuel) g.adjl
            (ord P (candFn P X)) R P X best) := rfl
      rw [hred] at hres
      by_cases h1 : useColor = true ∧ R.card + boundFn P ≤ best.card
      · rw [if_pos h1] at hres; rw [hres]; exact ⟨hbest, hbestr⟩
      · rw [if_neg h1] at hres
        by_cases h2 : R.card + P.card ≤ best.card
        · rw [if_pos h2] at hres; rw [hres]; exact ⟨hbest, hbestr⟩
        · rw [if_neg h2] at hres
          by_cases h3 : P = ∅ ∧ X = ∅
          · rw [if_pos h3] at hres
            by_cases h4 : best.card < R.card
            · rw [if_pos h4] at hres; rw [hres]; exact ⟨hRclq, hRr⟩
            · rw [if_neg h4] at hres; rw [hres]; exact ⟨hbest, hbestr⟩
          · rw [if_neg h3] at hres
            have inner : ∀ (l : List ℕ) (P' X' best' : Finset ℕ),
                (∀ v ∈ l, v ∈ P' ∪ X') → P' ∪ X' ⊆ Finset.range g.n →
                (∀ v ∈ P' ∪ X', ∀ r ∈ R, g.has_edge v r = true) →
                g.is_clique best' → best' ⊆ Finset.range g.n →
                (g.is_clique (bkBestFoldWith
                    (bkBest g useColor boundFn candFn ord fuel) g.adjl
                    l R P' X' best') ∧
                  bkBestFoldWith (bkBest g useColor boundFn candFn ord fuel)
                    g.adjl l R P' X' best' ⊆ Finset.range g.n) := by
              intro l
              induction l with
              | nil => intro P' X' best' _ _ _ hb1 hb2; exact ⟨hb1, hb2⟩
              | cons v rest ihl =>
                intro P' X' best' hlP hP'r hP'adjR hb1 hb2
                have hred2 : bkBestFoldWith
                    (bkBest g useColor boundFn candFn ord fuel) g.adjl
                    (v :: rest) R P' X' best' =
                    (if R.card + 1 + P'.card ≤ best'.card then best'
                    else bkBestFoldWith
                      (bkBest g useColor boundFn candFn ord fuel) g.adjl rest R
                      (P'.erase v) (insert v X')
                      (bkBest g useColor boundFn candFn ord fuel (insert v R)
                        (P' ∩ g.adjl v) (X' ∩ g.adjl v) best')) := rfl
                rw [hred2]
                by_cases hbr : R.card + 1 + P'.card ≤ best'.card
                · rw [if_pos hbr]; exact ⟨hb1, hb2⟩
                · rw [if_neg hbr]
                  have hvPX : v ∈ P' ∪ X' := hlP v (List.mem_cons_self v rest)
                  have hvn : v < g.n := Finset.mem_range.mp (hP'r hvPX)
                  have hR'clq : g.is_clique (insert v R) := by
                    refine AClique.insert_of_adj
                      (fun a b => Graph.has_edge_symm hwf a b) hRclq ?_
                    intro r hr _
                    exact hP'adjR v hvPX r hr
                  have hmemstep : ∀ x, x ∈ (P' ∩ g.adjl v) ∪ (X' ∩ g.adjl v) →
                      x ∈ g.adjl v ∧ x ∈ P' ∪ X' := by
                    intro x hx
                    rcases Finset.mem_union.mp hx with hx' | hx'
                    · have h' := Finset.mem_inter.mp hx'
                      exact ⟨h'.2, Finset.mem_union_left _ h'.1⟩
                    · have h' := Finset.mem_inter.mp hx'
                      exact ⟨h'.2, Finset.mem_union_right _ h'.1⟩
                  have hchild := ih (insert v R) (P' ∩ g.adjl v) (X' ∩ g.adjl v)
                    best' hR'clq
                    (by
                      intro x hx
                      rcases Finset.mem_insert.mp hx with rfl | hx'
                      · exact Finset.mem_range.mpr hvn
                      · exact hRr hx')
                    (fun x hx => hP'r (hmemstep x hx).2)
                    (by
                      intro x hx r hr
                      rcases Finset.mem_insert.mp hr with rfl | hr'
                      · rw [Graph.has_edge_symm hwf x r]
                        exact (Graph.mem_adjl_iff hwf hvn).mp (hmemstep x hx).1
                      · exact hP'adjR x (hmemstep x hx).2 r hr')
                    hb1 hb2
                  refine ihl (P'.erase v) (insert v X') _ ?_ ?_ ?_
                    hchild.1 hchild.2
                  · intro x hx
                    rcases Finset.mem_union.mp
                        (hlP x (List.mem_cons_of_mem v hx)) with hx' | hx'
                    · by_cases hxv : x = v
                      · exact Finset.mem_union_right _
                          (Finset.mem_insert.mpr (Or.inl hxv))
                      · exact Finset.mem_union_left _
                          (Finset.mem_erase.mpr ⟨hxv, hx'⟩)
                    · exact Finset.mem_union_right _
                        (Finset.mem_insert.mpr (Or.inr hx'))
                  · intro x hx
                    rcases Finset.mem_union.mp hx with hx' | hx'
                    · exact hP'r
                        (Finset.mem_union_left _ (Finset.mem_erase.mp hx').2)
                    · rcases Finset.mem_insert.mp hx' with rfl | hx''
                      · exact Finset.mem_range.mpr hvn
                      · exact hP'r (Finset.mem_union_right _ hx'')
                  · intro x hx r hr
                    rcases Finset.mem_union.mp hx with hx' | hx'
                    · exact hP'adjR x
                        (Finset.mem_union_left _ (Finset.mem_erase.mp hx').2) r hr
                    · rcases Finset.mem_insert.mp hx' with rfl | hx''
                      · exact hP'adjR x hvPX r hr
                      · exact hP'adjR x (Finset.mem_union_right _ hx'') r hr
            rw [hres]
            exact inner _ P X best
              (fun v hv => Finset.mem_union_left _ (hcand P X (hord P _ v hv)))
              hPXr hPXadjR hbest hbestr
    exact hgoal _ rfl

theorem bkBest_complete (g : Graph) (hwf : g.WFb) (useColor : Bool)
    (boundFn : Finset ℕ → ℕ) (candFn : Finset ℕ → Finset ℕ → Finset ℕ)
    (ord : Finset ℕ → Finset ℕ → List ℕ)
    (hbound : useColor = true → ∀ P, P ⊆ Finset.range g.n →
      ∀ K, g.is_clique K → K ⊆ P → K.card ≤ boundFn P)
    (hcand : ∀ P X, candFn P X = P ∨
      ∃ u ∈ P ∪ X, candFn P X = P.filter (fun v => v ∉ g.adjl u))
    (hord : ∀ P s, s ⊆ Finset.range g.n →
      ((ord P s).Nodup ∧ ∀ v, v ∈ ord P s ↔ v ∈ s)) :
    ∀ (fuel : ℕ) (R P X best : Finset ℕ), P.card + 1 ≤ fuel →
      P ∪ X ⊆ Finset.range g.n → R ⊆ Finset.range g.n →
      (∀ v ∈ P ∪ X, ∀ r ∈ R, g.has_edge v r = true) →
      ∀ C, AMaximal g.n g.has_edge C → R ⊆ C → C \ R ⊆ P →
        C.card ≤ (bkBest g useColor boundFn candFn ord fuel R P X best).card := by
  intro fuel
  induction fuel with
  | zero => intro R P X best hfuel; exact absurd hfuel (by omega)
  | succ fuel ih =>
    intro R P X best hfuel hPX hR hadjR C hC hRC hCRP
    have hPr : P ⊆ Finset.range g.n :=
      Finset.Subset.trans Finset.subset_union_left hPX
    have hCcard : C.card = R.card + (C \ R).card := by
      have h1 : (C \ R).card = C.card - R.card := Finset.card_sdiff hRC
      have h2 : R.card ≤ C.card := Finset.card_le_card hRC
      omega
    have hred : bkBest g useColor boundFn candFn ord (fuel+1) R P X best =
        (if useColor = true ∧ R.card + boundFn P ≤ best.card then best
        else if R.card + P.card ≤ best.card then best
        else if P = ∅ ∧ X = ∅ then (if best.card < R.card then R else best)
        else bkBestFoldWith (bkBest g useColor boundFn candFn ord fuel) g.adjl
          (ord P (candFn P X)) R P X best) := rfl
    rw [hred]
    by_cases h1 : useColor = true ∧ R.card + boundFn P ≤ best.card
    · rw [if_pos h1]
      have hCRclq : g.is_clique (C \ R) := AClique.subset Finset.sdiff_subset hC.1
      have := hbound h1.1 P hPr (C \ R) hCRclq hCRP
      omega
    · rw [if_neg h1]
      by_cases h2 : R.card + P.card ≤ best.card
      · rw [if_pos h2]
        have := Finset.card_le_card hCRP
        omega
      · rw [if_neg h2]
        by_cases h3 : P = ∅ ∧ X = ∅
        · rw [if_pos h3]
          have hCeq : C = R := by
            apply Finset.Subset.antisymm
            · intro x hx
              by_contra hxR
              have hmem : x ∈ C \ R := Finset.mem_sdiff.mpr ⟨hx, hxR⟩
              have := hCRP hmem
              rw [h3.1] at this
              exact absurd this (Finset.not_mem_empty x)
            · exact hRC
          rw [hCeq]
          by_cases h4 : best.card < R.card
          · rw [if_pos h4]
          · rw [if_neg h4]; omega
        · rw [if_neg h3]
          have inner : ∀ (l : List ℕ), l.Nodup → ∀ (P' X' best' : Finset ℕ),
              (∀ v ∈ l, v ∈ P') → P' ∪ X' ⊆ Finset.range g.n →
              (∀ v ∈ P' ∪ X', ∀ r ∈ R, g.has_edge v r = true) →
              P'.card ≤ fuel → C \ R ⊆ P' →
              ((∃ w ∈ l, w ∈ C) ∨ C.card ≤ best'.card) →
              C.card ≤ (bkBestFoldWith
                (bkBest g useColor boundFn candFn ord fuel) g.adjl
                l R P' X' best').card := by
            intro l
            induction l with
            | nil =>
              intro _ P' X' best' _ _ _ _ _ hex
              rcases hex with ⟨w, hw, _⟩ | hle
              · exact absurd hw (List.not_mem_nil w)
              · exact hle
            | cons v rest ihl =>
              intro hnd P' X' best' hlP hP'r hadjR' hcard hCRP' hex
              have hvP' : v ∈ P' := hlP v (List.mem_cons_self v rest)
              have hvn : v < g.n :=
                Finset.mem_range.mp (hP'r (Finset.mem_union_left _ hvP'))
              have hCP'card : C.card ≤ R.card + P'.card := by
                have := Finset.card_le_card hCRP'
                omega
              have hred2 : bkBestFoldWith
                  (bkBest g useColor boundFn candFn ord fuel) g.adjl
                  (v :: rest) R P' X' best' =
                  (if R.card + 1 + P'.card ≤ best'.card then best'
                  else bkBestFoldWith
                    (bkBest g useColor boundFn candFn ord fuel) g.adjl rest R
                    (P'.erase v) (insert v X')
                    (bkBest g useColor boundFn candFn ord fuel (insert v R)
                      (P' ∩ g.adjl v) (X' ∩ g.adjl v) best')) := rfl
              rw [hred2]
              by_cases hbr : R.card + 1 + P'.card ≤ best'.card
              · rw [if_pos hbr]
                rcases hex with ⟨w, _, _⟩ | hle
                · omega
                · exact hle
              · rw [if_neg hbr]
                have hmono2 : ∀ b : Finset ℕ,
                    b.card ≤ (bkBestFoldWith
                      (bkBest g useColor boundFn candFn ord fuel) g.adjl rest R
                      (P'.erase v) (insert v X') b).card :=
                  fun b => bkBestFold_mono
                    (fun R'' P'' X'' b'' =>
                      bkBest_mono g useColor boundFn candFn ord fuel R'' P'' X'' b'')
                    g.adjl rest R (P'.erase v) (insert v X') b
                by_cases hvC : v ∈ C
                · -- the child starting at v dominates C
                  have hsub2 : P' ∩ g.adjl v ⊆ P'.erase v := by
                    intro x hx
                    have hx' := Finset.mem_inter.mp hx
                    refine Finset.mem_erase.mpr ⟨?_, hx'.1⟩
                    intro hxv
                    rw [hxv] at hx'
                    exact Graph.not_mem_adjl_self hwf hvn hx'.2
                  have hcard2 : (P' ∩ g.adjl v).card + 1 ≤ fuel := by
                    have ha := Finset.card_le_card hsub2
                    have hb := Finset.card_erase_of_mem hvP'
                    have hc : 0 < P'.card := Finset.card_pos.mpr ⟨v, hvP'⟩
                    omega
                  have hchild := ih (insert v R) (P' ∩ g.adjl v)
                    (X' ∩ g.adjl v) best' hcard2
                    (by
                      intro x hx
                      rcases Finset.mem_union.mp hx with hx' | hx'
                      · exact hP'r (Finset.mem_union_left _
                          (Finset.mem_inter.mp hx').1)
                      · exact hP'r (Finset.mem_union_right _
                          (Finset.mem_inter.mp hx').1))
                    (by
                      intro x hx
                      rcases Finset.mem_insert.mp hx with rfl | hx'
                      · exact Finset.mem_range.mpr hvn
                      · exact hR hx')
                    (by
                      intro x hx r hr
                      have hxa : x ∈ g.adjl v ∧ x ∈ P' ∪ X' := by
                        rcases Finset.mem_union.mp hx with hx' | hx'
                        · have h' := Finset.mem_inter.mp hx'
                          exact ⟨h'.2, Finset.mem_union_left _ h'.1⟩
                        · have h' := Finset.mem_inter.mp hx'
                          exact ⟨h'.2, Finset.mem_union_right _ h'.1⟩
                      rcases Finset.mem_insert.mp hr with rfl | hr'
                      · rw [Graph.has_edge_symm hwf x r]
                        exact (Graph.mem_adjl_iff hwf hvn).mp hxa.1
                      · exact hadjR' x hxa.2 r hr')
                    C hC
                    (by
                      intro x hx
                      rcases Finset.mem_insert.mp hx with rfl | hx'
                      · exact hvC
                      · exact hRC hx')
                    (by
                      intro x hx
                      have hx' := Finset.mem_sdiff.mp hx
                      have hxv : x ≠ v := fun h =>
                        hx'.2 (Finset.mem_insert.mpr (Or.inl h))
                      have hxR : x ∉ R := fun h =>
                        hx'.2 (Finset.mem_insert.mpr (Or.inr h))
                      have hxP : x ∈ P' :=
                        hCRP' (Finset.mem_sdiff.mpr ⟨hx'.1, hxR⟩)
                      refine Finset.mem_inter.mpr ⟨hxP, ?_⟩
                      exact (Graph.mem_adjl_iff hwf hvn).mpr
                        (hC.1 v hvC x hx'.1 (Ne.symm hxv)))
                  exact le_trans hchild (hmono2 _)
                · -- v not in C: keep going on the rest
                  have hvrest : v ∉ rest := (List.nodup_cons.mp hnd).1
                  refine ihl (List.nodup_cons.mp hnd).2 (P'.erase v)
                    (insert v X') _ ?_ ?_ ?_ ?_ ?_ ?_
                  · intro x hx
                    refine Finset.mem_erase.mpr
                      ⟨?_, hlP x (List.mem_cons_of_mem v hx)⟩
                    intro hxv
                    rw [hxv] at hx
                    exact hvrest hx
                  · intro x hx
                    rcases Finset.mem_union.mp hx with hx' | hx'
                    · exact hP'r (Finset.mem_union_left _
                        (Finset.mem_erase.mp hx').2)
                    · rcases Finset.mem_insert.mp hx' with rfl | hx''
                      · exact Finset.mem_range.mpr hvn
                      · exact hP'r (Finset.mem_union_right _ hx'')
                  · intro x hx r hr
                    rcases Finset.mem_union.mp hx with hx' | hx'
                    · exact hadjR' x (Finset.mem_union_left _
                        (Finset.mem_erase.mp hx').2) r hr
                    · rcases Finset.mem_insert.mp hx' with rfl | hx''
                      · exact hadjR' x (Finset.mem_union_left _ hvP') r hr
                      · exact hadjR' x (Finset.mem_union_right _ hx'') r hr
                  · have hce : (P'.erase v).card ≤ P'.card := Finset.card_erase_le
                    omega
                  · intro x hx
                    refine Finset.mem_erase.mpr ⟨?_, hCRP' hx⟩
                    intro hxv
                    rw [hxv] at hx
                    exact hvC (Finset.mem_sdiff.mp hx).1
                  · rcases hex with ⟨w, hwl, hwC⟩ | hle
                    · rcases List.mem_cons.mp hwl with rfl | hw'
                      · exact absurd hwC hvC
                      · exact Or.inl ⟨w, hw', hwC⟩
                    · exact Or.inr (le_trans hle
                        (bkBest_mono g useColor boundFn candFn ord fuel
                          (insert v R) (P' ∩ g.adjl v) (X' ∩ g.adjl v) best'))
          have main : ∀ E : Finset ℕ, E ⊆ P → (∃ w ∈ C \ R, w ∈ E) →
              C.card ≤ (bkBestFoldWith
                (bkBest g useColor boundFn candFn ord fuel) g.adjl
                (ord P E) R P X best).card := by
            intro E hEP hwex
            obtain ⟨hndE, hmemE⟩ := hord P E (hEP.trans hPr)
            obtain ⟨w, hwCR, hwE⟩ := hwex
            exact inner (ord P E) hndE P X best
              (fun v hv => hEP ((hmemE v).mp hv)) hPX hadjR (by omega) hCRP
              (Or.inl ⟨w, (hmemE w).mpr hwE, (Finset.mem_sdiff.mp hwCR).1⟩)
          rcases hcand P X with hcP | ⟨u, huPX, hcF⟩
          · rw [hcP]
            by_cases hCRe : C \ R = ∅
            · exfalso
              have hCeq : C = R := by
                apply Finset.Subset.antisymm
                · intro x hx
                  by_contra hxR
                  have hmem : x ∈ C \ R := Finset.mem_sdiff.mpr ⟨hx, hxR⟩
                  rw [hCRe] at hmem
                  exact absurd hmem (Finset.not_mem_empty x)
                · exact hRC
              have hne : (P ∪ X).Nonempty := by
                rcases Finset.eq_empty_or_nonempty P with hP0 | hP0
                · rcases Finset.eq_empty_or_nonempty X with hX0 | hX0
                  · exact absurd ⟨hP0, hX0⟩ h3
                  · obtain ⟨x, hx⟩ := hX0
                    exact ⟨x, Finset.mem_union_right _ hx⟩
                · obtain ⟨x, hx⟩ := hP0
                  exact ⟨x, Finset.mem_union_left _ hx⟩
              obtain ⟨v, hv⟩ := hne
              refine maximal_no_extender hwf hC (Finset.mem_range.mp (hPX hv)) ?_
              intro c hc
              rw [hCeq] at hc
              exact hadjR v hv c hc
            · obtain ⟨w, hw⟩ := Finset.nonempty_iff_ne_empty.mpr hCRe
              exact main P (Finset.Subset.refl P) ⟨w, hw, hCRP hw⟩
          · rw [hcF]
            have hun : u < g.n := Finset.mem_range.mp (hPX huPX)
            by_cases hcov : ∀ w ∈ C \ R, w ∈ g.adjl u
            · exfalso
              refine maximal_no_extender hwf hC hun ?_
              intro c hc
              by_cases hcR : c ∈ R
              · exact hadjR u huPX c hcR
              · exact (Graph.mem_adjl_iff hwf hun).mp
                  (hcov c (Finset.mem_sdiff.mpr ⟨hc, hcR⟩))
            · push_neg at hcov
              obtain ⟨w, hwCR, hwnadj⟩ := hcov
              exact main (P.filter (fun v => v ∉ g.adjl u))
                (Finset.filter_subset _ _)
                ⟨w, hwCR, Finset.mem_filter.mpr ⟨hCRP hwCR, hwnadj⟩⟩

/-- The greedy seed clique is a clique inside the vertex range. -/
theorem find_greedy_clique_seed (g : Graph) (hwf : g.WFb) :
    g.is_clique (find_greedy_clique g).toFinset ∧
    (find_greedy_clique g).toFinset ⊆ Finset.range g.n := by
  unfold find_greedy_clique
  rcases hscan : argmaxScan (fun v => (g.adjl v).card) (List.range g.n) none
      with - | ⟨bv, d⟩
  · constructor
    · intro u hu
      simp at hu
    · intro v hv
      simp at hv
  · obtain ⟨hmem, -, -⟩ := argmaxScan_max hscan
    have hbv : bv < g.n := List.mem_range.mp hmem
    have hinv : GreedyInv g (g.adjl bv) [bv] := by
      refine ⟨?_, List.nodup_singleton bv, ?_,
        Graph.adjl_subset_range hwf hbv, ?_, ?_⟩
      · intro u hu v hv huv
        have h1 : u = bv := by simpa using hu
        have h2 : v = bv := by simpa using hv
        rw [h1, h2] at huv
        exact absurd rfl huv
      · intro q hq
        rcases List.mem_singleton.mp hq with rfl
        exact hbv
      · intro c hcm q hq
        rcases List.mem_singleton.mp hq with rfl
        rw [Graph.has_edge_symm hwf]
        exact (Graph.mem_adjl_iff hwf hbv).mp hcm
      · intro c hcm hq
        rcases List.mem_singleton.mp hq with rfl
        exact Graph.not_mem_adjl_self hwf hbv hcm
    obtain ⟨hclq, -, hlt, -⟩ :=
      find_greedy_clique_loop_spec hwf g.n (g.adjl bv) [bv] hinv
    refine ⟨hclq, ?_⟩
    intro v hv
    exact Finset.mem_range.mpr (hlt v (List.mem_toFinset.mp hv))

theorem ascListN_mem_iff {n : ℕ} {s : Finset ℕ} (hs : s ⊆ Finset.range n) :
    ∀ v, v ∈ ascListN n s ↔ v ∈ s := by
  intro v
  constructor
  · intro h
    exact (mem_ascListN.mp h).2
  · intro h
    exact mem_ascListN.mpr ⟨Finset.mem_range.mp (hs h), h⟩

theorem sortDesc_ord_spec (g : Graph) (key : ℕ → ℕ) (s : Finset ℕ)
    (hs : s ⊆ Finset.range g.n) :
    (sortDesc key (ascListN g.n s)).Nodup ∧
    ∀ v, v ∈ sortDesc key (ascListN g.n s) ↔ v ∈ s := by
  have hperm := sortDesc_perm key (ascListN g.n s)
  refine ⟨hperm.nodup_iff.mpr (ascListN_nodup _ _), ?_⟩
  intro v
  rw [hperm.mem_iff]
  exact ascListN_mem_iff hs v

/-- Master correctness of the shared recursion from the standard root
`(∅, [0, n), ∅)` with a valid seed. -/
theorem bkBest_correct (g : Graph) (hwf : g.WFb) (useColor : Bool)
    (boundFn : Finset ℕ → ℕ) (candFn : Finset ℕ → Finset ℕ → Finset ℕ)
    (ord : Finset ℕ → Finset ℕ → List ℕ)
    (hbound : useColor = true → ∀ P, P ⊆ Finset.range g.n →
      ∀ K, g.is_clique K → K ⊆ P → K.card ≤ boundFn P)
    (hcand : ∀ P X, candFn P X = P ∨
      ∃ u ∈ P ∪ X, candFn P X = P.filter (fun v => v ∉ g.adjl u))
    (hord : ∀ P s, s ⊆ Finset.range g.n →
      ((ord P s).Nodup ∧ ∀ v, v ∈ ord P s ↔ v ∈ s))
    (hordmem : ∀ P s v, v ∈ ord P s → v ∈ s)
    (seed : Finset ℕ) (hseed1 : g.is_clique seed)
    (hseed2 : seed ⊆ Finset.range g.n) :
    g.is_clique (bkBest g useColor boundFn candFn ord (g.n + 1) ∅
      (Finset.range g.n) ∅ seed) ∧
    (bkBest g useColor boundFn candFn ord (g.n + 1) ∅
      (Finset.range g.n) ∅ seed).card = g.omega := by
  have hcand' : ∀ P X, candFn P X ⊆ P := by
    intro P X
    rcases hcand P X with h | ⟨u, _, h⟩
    · rw [h]
    · rw [h]; exact Finset.filter_subset _ _
  have hsound := bkBest_sound g hwf useColor boundFn candFn ord hcand' hordmem
    (g.n + 1) ∅ (Finset.range g.n) ∅ seed AClique.empty
    (Finset.empty_subset _)
    (by rw [Finset.union_empty])
    (fun v _ r hr => absurd hr (Finset.not_mem_empty r))
    hseed1 hseed2
  refine ⟨hsound.1, ?_⟩
  have hle : (bkBest g useColor boundFn candFn ord (g.n + 1) ∅
      (Finset.range g.n) ∅ seed).card ≤ omegaA g.n g.has_edge :=
    card_le_omegaA hsound.1 hsound.2
  obtain ⟨C, hCmax, hCcard⟩ := @omegaA_exists_maximal g.n g.has_edge
  have hge := bkBest_complete g hwf useColor boundFn candFn ord hbound hcand hord
    (g.n + 1) ∅ (Finset.range g.n) ∅ seed
    (by rw [Finset.card_range])
    (by rw [Finset.union_empty])
    (Finset.empty_subset _)
    (fun v _ r hr => absurd hr (Finset.not_mem_empty r))
    C hCmax (Finset.empty_subset _)
    (by rw [Finset.sdiff_empty]; exact hCmax.2.1)
  show _ = omegaA g.n g.has_edge
  omega

theorem tomitaCand_spec (g : Graph) :
    ∀ P X, tomitaCand g P X = P ∨
      ∃ u ∈ P ∪ X, tomitaCand g P X = P.filter (fun v => v ∉ g.adjl u) := by
  intro P X
  unfold tomitaCand
  rcases hpk : choose_pivot g P X with - | ⟨u⟩
  · exact Or.inl rfl
  · exact Or.inr ⟨u, choose_pivot_mem g P X u hpk, rfl⟩

theorem sortDesc_ascListN_mem (g : Graph) (key : ℕ → ℕ) (s : Finset ℕ)
    (v : ℕ) (hv : v ∈ sortDesc key (ascListN g.n s)) : v ∈ s :=
  (mem_ascListN.mp ((sortDesc_perm key (ascListN g.n s)).mem_iff.mp hv)).2

theorem BronKerbosch_correct (g : Graph) (hwf : g.WFb) :
    g.is_clique (BronKerbosch_find_maximum_clique g) ∧
    (BronKerbosch_find_maximum_clique g).card = g.omega :=
  bkBest_correct g hwf false (fun _ => 0) (fun P _ => P)
    (fun _ s => ascListN g.n s)
    (fun h => absurd h (by simp))
    (fun _ _ => Or.inl rfl)
    (fun _ s hs => ⟨ascListN_nodup _ _, ascListN_mem_iff hs⟩)
    (fun _ _ v hv => (mem_ascListN.mp hv).2)
    ∅ AClique.empty (Finset.empty_subset _)

theorem TomitaAlgorithm_correct (g : Graph) (hwf : g.WFb) :
    g.is_clique (TomitaAlgorithm_find_maximum_clique g) ∧
    (TomitaAlgorithm_find_maximum_clique g).card = g.omega :=
  bkBest_correct g hwf true g.compute_coloring_bound (tomitaCand g)
    (fun P s => sortDesc (pivotScore g P) (ascListN g.n s))
    (fun _ P hP K hK hKP => compute_coloring_bound_ge g hwf P hP K hK hKP)
    (tomitaCand_spec g)
    (fun P s hs => sortDesc_ord_spec g (pivotScore g P) s hs)
    (fun P s v hv => sortDesc_ascListN_mem g (pivotScore g P) s v hv)
    (find_greedy_clique g).toFinset
    (find_greedy_clique_seed g hwf).1 (find_greedy_clique_seed g hwf).2

theorem CPUOptimized_correct (g : Graph) (hwf : g.WFb) :
    g.is_clique (CPUOptimized_find_maximum_clique g) ∧
    (CPUOptimized_find_maximum_clique g).card = g.omega :=
  bkBest_correct g hwf false (fun _ => 0) (tomitaCand g)
    (fun _ s => ascListN g.n s)
    (fun h => absurd h (by simp))
    (tomitaCand_spec g)
    (fun _ s hs => ⟨ascListN_nodup _ _, ascListN_mem_iff hs⟩)
    (fun _ _ v hv => (mem_ascListN.mp hv).2)
    ∅ AClique.empty (Finset.empty_subset _)

/-! ### DegeneracyBK: outer loop over the degeneracy ordering. -/

/-- `position[ordering[i]] = i` array construction. -/
def buildPos : List ℕ → ℕ → (ℕ → ℕ) → (ℕ → ℕ)
  | [], _, acc => acc
  | v :: rest, i, acc => buildPos rest (i + 1) (fun w => if w = v then i else acc w)

def positionOf (l : List ℕ) : ℕ → ℕ := buildPos l 0 (fun _ => 0)

theorem buildPos_notmem : ∀ (l : List ℕ) (i : ℕ) (acc : ℕ → ℕ) (w : ℕ),
    w ∉ l → buildPos l i acc w = acc w := by
  intro l
  induction l with
  | nil => intro i acc w _; rfl
  | cons v rest ih =>
    intro i acc w hw
    have hwv : w ≠ v := fun h => hw (h ▸ List.mem_cons_self v rest)
    have hwr : w ∉ rest := fun h => hw (List.mem_cons_of_mem v h)
    show buildPos rest (i + 1) _ w = acc w
    rw [ih (i + 1) _ w hwr]
    rw [if_neg hwv]

theorem buildPos_split : ∀ (l₁ : List ℕ) (v : ℕ) (l₂ : List ℕ) (i : ℕ)
    (acc : ℕ → ℕ), v ∉ l₁ → v ∉ l₂ →
    buildPos (l₁ ++ v :: l₂) i acc v = i + l₁.length := by
  intro l₁
  induction l₁ with
  | nil =>
    intro v l₂ i acc _ hv₂
    show buildPos l₂ (i + 1) (fun w => if w = v then i else acc w) v = i + 0
    rw [buildPos_notmem l₂ (i + 1) _ v hv₂, if_pos rfl]
    omega
  | cons a l₁ ih =>
    intro v l₂ i acc hv₁ hv₂
    have hva : v ≠ a := fun h => hv₁ (h ▸ List.mem_cons_self a l₁)
    have hv₁' : v ∉ l₁ := fun h => hv₁ (List.mem_cons_of_mem a h)
    show buildPos (l₁ ++ v :: l₂) (i + 1) _ v = i + (l₁.length + 1)
    rw [ih v l₂ (i + 1) _ hv₁' hv₂]
    omega

theorem positionOf_split {l₁ : List ℕ} {v : ℕ} {l₂ : List ℕ}
    (h : (l₁ ++ v :: l₂).Nodup) : positionOf (l₁ ++ v :: l₂) v = l₁.length := by
  obtain ⟨h1, h2, h3⟩ := List.nodup_append.mp h
  have hv₁ : v ∉ l₁ := fun hv => h3 hv (List.mem_cons_self v l₂)
  have hv₂ : v ∉ l₂ := (List.nodup_cons.mp h2).1
  unfold positionOf
  rw [buildPos_split l₁ v l₂ 0 _ hv₁ hv₂]
  omega

/-- For a duplicate-free list, every element of the tail of a split sits
at a strictly later position. -/
theorem positionOf_later {pre : List ℕ} {v : ℕ} {post : List ℕ}
    (h : (pre ++ v :: post).Nodup) {u : ℕ} (hu : u ∈ post) :
    pre.length < positionOf (pre ++ v :: post) u := by
  obtain ⟨p1, p2, hpost⟩ := List.append_of_mem hu
  have hassoc : pre ++ v :: post = (pre ++ v :: p1) ++ u :: p2 := by
    rw [hpost, List.append_assoc]
    rfl
  have h' : ((pre ++ v :: p1) ++ u :: p2).Nodup := hassoc ▸ h
  have := positionOf_split h'
  rw [hassoc, this, List.length_append]
  simp only [List.length_cons]
  omega

/-- The degeneracy ordering is duplicate-free and enumerates the vertex
range (shared consequence of the peeling loop). -/
theorem degeneracy_ordering_facts (g : Graph) (hwf : g.WFb) :
    (g.compute_degeneracy_ordering).Nodup ∧
    (g.compute_degeneracy_ordering).toFinset = Finset.range g.n := by
  have hspec := degeneracy_peel_spec hwf g.n (fun v => (g.adjl v).card) ∅
    (Finset.empty_subset _) (by rw [Finset.card_empty]; omega) (by
      intro v _ _
      rw [Finset.sdiff_empty])
  obtain ⟨hnd, hfin, -⟩ := hspec
  refine ⟨hnd, ?_⟩
  unfold Graph.compute_degeneracy_ordering
  rw [hfin, Finset.sdiff_empty]

/-- Outer loop of `DegeneracyBK::find_maximum_clique`: for each vertex of
the ordering, run pivoted Tomita from `R = {v}`,
`P = N(v) ∩ {later in the ordering}`, `X = N(v) ∩ {earlier}`, skipping the
vertex when `1 + |later|` cannot beat the incumbent. -/
def DegeneracyBK_loop (g : Graph) (pos : ℕ → ℕ) :
    List ℕ → ℕ → Finset ℕ → Finset ℕ
  | [], _, best => best
  | v :: rest, i, best =>
    DegeneracyBK_loop g pos rest (i + 1)
      (if 1 + ((g.adjl v).filter (fun u => i < pos u)).card ≤ best.card then best
       else bkBest g true g.compute_coloring_bound (tomitaCand g)
        (fun P s => sortDesc (pivotScore g P) (ascListN g.n s)) (g.n + 1)
        {v} ((g.adjl v).filter (fun u => i < pos u))
        ((g.adjl v).filter (fun u => pos u < i)) best)

def DegeneracyBK_find_maximum_clique (g : Graph) : Finset ℕ :=
  DegeneracyBK_loop g (positionOf g.compute_degeneracy_ordering)
    g.compute_degeneracy_ordering 0 (find_greedy_clique g).toFinset

theorem DegeneracyBK_loop_mono (g : Graph) (pos : ℕ → ℕ) :
    ∀ (l : List ℕ) (i : ℕ) (best : Finset ℕ),
      best.card ≤ (DegeneracyBK_loop g pos l i best).card := by
  intro l
  induction l with
  | nil => intro i best; exact le_refl _
  | cons v rest ih =>
    intro i best
    show best.card ≤ (DegeneracyBK_loop g pos rest (i + 1) _).card
    refine le_trans ?_ (ih (i + 1) _)
    by_cases hsk : 1 + ((g.adjl v).filter (fun u => i < pos u)).card ≤ best.card
    · rw [if_pos hsk]
    · rw [if_neg hsk]
      exact bkBest_mono g true g.compute_coloring_bound (tomitaCand g) _ _ _ _ _ _

theorem DegeneracyBK_loop_sound (g : Graph) (hwf : g.WFb) (pos : ℕ → ℕ) :
    ∀ (l : List ℕ) (i : ℕ) (best : Finset ℕ), (∀ v ∈ l, v < g.n) →
      g.is_clique best → best ⊆ Finset.range g.n →
      (g.is_clique (DegeneracyBK_loop g pos l i best) ∧
        DegeneracyBK_loop g pos l i best ⊆ Finset.range g.n) := by
  intro l
  induction l with
  | nil => intro i best _ hb1 hb2; exact ⟨hb1, hb2⟩
  | cons v rest ih =>
    intro i best hlt hb1 hb2
    have hvn : v < g.n := hlt v (List.mem_cons_self v rest)
    show (g.is_clique (DegeneracyBK_loop g pos rest (i + 1) _) ∧ _)
    refine ih (i + 1) _ (fun x hx => hlt x (List.mem_cons_of_mem v hx)) ?_ ?_
    all_goals
      by_cases hsk : 1 + ((g.adjl v).filter (fun u => i < pos u)).card ≤ best.card
    · rw [if_pos hsk]; exact hb1
    · rw [if_neg hsk]
      refine (bkBest_sound g hwf true g.compute_coloring_bound (tomitaCand g) _
        (fun P X => by
          rcases tomitaCand_spec g P X with h | ⟨u, _, h⟩
          · rw [h]
          · rw [h]; exact Finset.filter_subset _ _)
        (fun P s u hu => sortDesc_ascListN_mem g (pivotScore g P) s u hu)
        (g.n + 1) {v} _ _ best ?_ ?_ ?_ ?_ hb1 hb2).1
      · intro a ha b hb hab
        rw [Finset.mem_singleton.mp ha, Finset.mem_singleton.mp hb] at hab
        exact absurd rfl hab
      · intro x hx
        rw [Finset.mem_singleton.mp hx]
        exact Finset.mem_range.mpr hvn
      · intro x hx
        rcases Finset.mem_union.mp hx with hx' | hx'
        · exact Graph.adjl_subset_range hwf hvn (Finset.mem_filter.mp hx').1
        · exact Graph.adjl_subset_range hwf hvn (Finset.mem_filter.mp hx').1
      · intro x hx r hr
        rw [Finset.mem_singleton.mp hr]
        have hxa : x ∈ g.adjl v := by
          rcases Finset.mem_union.mp hx with hx' | hx'
          · exact (Finset.mem_filter.mp hx').1
          · exact (Finset.mem_filter.mp hx').1
        rw [Graph.has_edge_symm hwf]
        exact (Graph.mem_adjl_iff hwf hvn).mp hxa
    · rw [if_pos hsk]; exact hb2
    · rw [if_neg hsk]
      refine (bkBest_sound g hwf true g.compute_coloring_bound (tomitaCand g) _
        (fun P X => by
          rcases tomitaCand_spec g P X with h | ⟨u, _, h⟩
          · rw [h]
          · rw [h]; exact Finset.filter_subset _ _)
        (fun P s u hu => sortDesc_ascListN_mem g (pivotScore g P) s u hu)
        (g.n + 1) {v} _ _ best ?_ ?_ ?_ ?_ hb1 hb2).2
      · intro a ha b hb hab
        rw [Finset.mem_singleton.mp ha, Finset.mem_singleton.mp hb] at hab
        exact absurd rfl hab
      · intro x hx
        rw [Finset.mem_singleton.mp hx]
        exact Finset.mem_range.mpr hvn
      · intro x hx
        rcases Finset.mem_union.mp hx with hx' | hx'
        · exact Graph.adjl_subset_range hwf hvn (Finset.mem_filter.mp hx').1
        · exact Graph.adjl_subset_range hwf hvn (Finset.mem_filter.mp hx').1
      · intro x hx r hr
        rw [Finset.mem_singleton.mp hr]
        have hxa : x ∈ g.adjl v := by
          rcases Finset.mem_union.mp hx with hx' | hx'
          · exact (Finset.mem_filter.mp hx').1
          · exact (Finset.mem_filter.mp hx').1
        rw [Graph.has_edge_symm hwf]
        exact (Graph.mem_adjl_iff hwf hvn).mp hxa

theorem DegeneracyBK_correct (g : Graph) (hwf : g.WFb) :
    g.is_clique (DegeneracyBK_find_maximum_clique g) ∧
    (DegeneracyBK_find_maximum_clique g).card = g.omega := by
  obtain ⟨hnd, hfin⟩ := degeneracy_ordering_facts g hwf
  have hsound := DegeneracyBK_loop_sound g hwf
    (positionOf g.compute_degeneracy_ordering) g.compute_degeneracy_ordering 0
    (find_greedy_clique g).toFinset
    (fun v hv => Finset.mem_range.mp (by
      rw [← hfin]
      exact List.mem_toFinset.mpr hv))
    (find_greedy_clique_seed g hwf).1 (find_greedy_clique_seed g hwf).2
  refine ⟨hsound.1, ?_⟩
  have hle : (DegeneracyBK_find_maximum_clique g).card ≤ omegaA g.n g.has_edge :=
    card_le_omegaA hsound.1 hsound.2
  obtain ⟨C, hCmax, hCcard⟩ := @omegaA_exists_maximal g.n g.has_edge
  have hCr : C ⊆ Finset.range g.n := hCmax.2.1
  have hcomplete : ∀ (rem pre : List ℕ) (best : Finset ℕ),
      g.compute_degeneracy_ordering = pre ++ rem → (∀ x ∈ pre, x ∉ C) →
      C.card ≤ (DegeneracyBK_loop g
        (positionOf g.compute_degeneracy_ordering) rem pre.length best).card := by
    intro rem
    induction rem with
    | nil =>
      intro pre best hsplit hpre
      have hCe : C = ∅ := by
        ext x
        simp only [Finset.not_mem_empty, iff_false]
        intro hx
        have hxo : x ∈ g.compute_degeneracy_ordering :=
          List.mem_toFinset.mp (by rw [hfin]; exact hCr hx)
        rw [hsplit, List.append_nil] at hxo
        exact hpre x hxo hx
      rw [hCe]
      simp
    | cons v rest ihr =>
      intro pre best hsplit hpre
      have hvo : v ∈ g.compute_degeneracy_ordering := by
        rw [hsplit]
        exact List.mem_append.mpr (Or.inr (List.mem_cons_self v rest))
      have hvn : v < g.n := Finset.mem_range.mp (by
        rw [← hfin]
        exact List.mem_toFinset.mpr hvo)
      show C.card ≤ (DegeneracyBK_loop g
        (positionOf g.compute_degeneracy_ordering) rest (pre.length + 1) _).card
      have hstep : ∀ b : Finset ℕ, C.card ≤ b.card →
          C.card ≤ (DegeneracyBK_loop g
            (positionOf g.compute_degeneracy_ordering) rest
            (pre.length + 1) b).card :=
        fun b hb => le_trans hb (DegeneracyBK_loop_mono g _ rest (pre.length + 1) b)
      by_cases hvC : v ∈ C
      · -- v is the first member of C in the ordering
        have hlater : C \ {v} ⊆ (g.adjl v).filter
            (fun u => pre.length < positionOf g.compute_degeneracy_ordering u) := by
          intro u hu
          have hu' := Finset.mem_sdiff.mp hu
          have huv : u ≠ v := fun h => hu'.2 (Finset.mem_singleton.mpr h)
          refine Finset.mem_filter.mpr ⟨?_, ?_⟩
          · exact (Graph.mem_adjl_iff hwf hvn).mpr
              (hCmax.1 v hvC u hu'.1 (Ne.symm huv))
          · have huo : u ∈ g.compute_degeneracy_ordering :=
              List.mem_toFinset.mp (by rw [hfin]; exact hCr hu'.1)
            have hurest : u ∈ rest := by
              rw [hsplit] at huo
              rcases List.mem_append.mp huo with h' | h'
              · exact absurd hu'.1 (hpre u h')
              · rcases List.mem_cons.mp h' with h'' | h''
                · exact absurd h'' huv
                · exact h''
            have hnd' : (pre ++ v :: rest).Nodup := hsplit ▸ hnd
            have := positionOf_later hnd' hurest
            rw [← hsplit] at this
            exact this
        have hCsplit : C.card ≤ 1 + (C \ {v}).card := by
          have h1 : (C \ {v}).card = C.card - ({v} : Finset ℕ).card :=
            Finset.card_sdiff (Finset.singleton_subset_iff.mpr hvC)
          have h2 : ({v} : Finset ℕ).card = 1 := Finset.card_singleton v
          have h3 : ({v} : Finset ℕ).card ≤ C.card :=
            Finset.card_le_card (Finset.singleton_subset_iff.mpr hvC)
          omega
        refine hstep _ ?_
        by_cases hsk : 1 + ((g.adjl v).filter (fun u => pre.length <
            positionOf g.compute_degeneracy_ordering u)).card ≤ best.card
        · rw [if_pos hsk]
          have := Finset.card_le_card hlater
          omega
        · rw [if_neg hsk]
          refine bkBest_complete g hwf true g.compute_coloring_bound
            (tomitaCand g) _
            (fun _ P hP K hK hKP => compute_coloring_bound_ge g hwf P hP K hK hKP)
            (tomitaCand_spec g)
            (fun P s hs => sortDesc_ord_spec g (pivotScore g P) s hs)
            (g.n + 1) {v} _ _ best ?_ ?_ ?_ ?_ C hCmax
            (Finset.singleton_subset_iff.mpr hvC) hlater
          · have hsub : (g.adjl v).filter (fun u => pre.length <
                positionOf g.compute_degeneracy_ordering u) ⊆ Finset.range g.n :=
              (Finset.filter_subset _ _).trans (Graph.adjl_subset_range hwf hvn)
            have := Finset.card_le_card hsub
            rw [Finset.card_range] at this
            omega
          · intro x hx
            rcases Finset.mem_union.mp hx with hx' | hx'
            · exact Graph.adjl_subset_range hwf hvn (Finset.mem_filter.mp hx').1
            · exact Graph.adjl_subset_range hwf hvn (Finset.mem_filter.mp hx').1
          · intro x hx
            rw [Finset.mem_singleton.mp hx]
            exact Finset.mem_range.mpr hvn
          · intro x hx r hr
            rw [Finset.mem_singleton.mp hr]
            have hxa : x ∈ g.adjl v := by
              rcases Finset.mem_union.mp hx with hx' | hx'
              · exact (Finset.mem_filter.mp hx').1
              · exact (Finset.mem_filter.mp hx').1
            rw [Graph.has_edge_symm hwf]
            exact (Graph.mem_adjl_iff hwf hvn).mp hxa
      · -- v outside C: move it to the processed prefix
        have hlen : pre.length + 1 = (pre ++ [v]).length := by simp
        rw [hlen]
        exact ihr (pre ++ [v]) _
          (by rw [hsplit, List.append_assoc]; rfl)
          (by
            intro x hx
            rcases List.mem_append.mp hx with hx' | hx'
            · exact hpre x hx'
            · rw [List.mem_singleton.mp hx']
              exact hvC)
  have hge := hcomplete g.compute_degeneracy_ordering [] (find_greedy_clique g).toFinset
    (by rw [List.nil_append]) (fun x hx => absurd hx (List.not_mem_nil x))
  show _ = omegaA g.n g.has_edge
  have hge' : C.card ≤ (DegeneracyBK_find_maximum_clique g).card := hge
  omega

/-! ### Ostergard branch and bound. -/

/-- The filtered candidate list passed to the recursive call: candidates
adjacent to the newly added vertex and to every member of the current
clique, in their existing order. -/
def obbNewCands (g : Graph) (cur : Finset ℕ) (v : ℕ) (cands : List ℕ) : List ℕ :=
  cands.filter (fun u => g.has_edge v u = true ∧ ∀ w ∈ cur, g.has_edge u w = true)

/-- The `while (!candidates.empty())` loop of
`OstergardAlgorithm::branch_and_bound`, processing the candidate vector
from the back; the list argument is the reversed remaining candidates. -/
def obbWhileWith (g : Graph)
    (child : Finset ℕ → List ℕ → Finset ℕ → Finset ℕ) :
    List ℕ → Finset ℕ → Finset ℕ → Finset ℕ
  | [], _, best => best
  | v :: revRest, cur, best =>
    if cur.card + revRest.length + 1 ≤ best.card then best
    else
      obbWhileWith g child revRest cur
        (child (insert v cur) (obbNewCands g cur v revRest.reverse) best)

def obbNode (g : Graph) : ℕ → Finset ℕ → List ℕ → Finset ℕ → Finset ℕ
  | 0, _, _, best => best
  | fuel+1, cur, cands, best =>
    if cands = [] then (if best.card < cur.card then cur else best)
    else if cur.card + g.color_bound cands ≤
        (if best.card < cur.card then cur else best).card then
      (if best.card < cur.card then cur else best)
    else obbWhileWith g (obbNode g fuel) cands.reverse cur
      (if best.card < cur.card then cur else best)

def OstergardAlgorithm_find_maximum_clique (g : Graph) : Finset ℕ :=
  obbNode g (g.n + 1) ∅ (sortDesc g.get_degree (List.range g.n)) ∅

theorem obbWhileWith_mono (g : Graph)
    {child : Finset ℕ → List ℕ → Finset ℕ → Finset ℕ}
    (hchild : ∀ c l b, b.card ≤ (child c l b).card) :
    ∀ (rl : List ℕ) (cur best : Finset ℕ),
      best.card ≤ (obbWhileWith g child rl cur best).card := by
  intro rl
  induction rl with
  | nil => intro cur best; exact le_refl _
  | cons v revRest ih =>
    intro cur best
    show best.card ≤ (if cur.card + revRest.length + 1 ≤ best.card then best
      else obbWhileWith g child revRest cur
        (child (insert v cur) (obbNewCands g cur v revRest.reverse) best)).card
    by_cases hbr : cur.card + revRest.length + 1 ≤ best.card
    · rw [if_pos hbr]
    · rw [if_neg hbr]
      exact le_trans (hchild (insert v cur) _ best) (ih cur _)

theorem obbNode_mono (g : Graph) :
    ∀ (fuel : ℕ) (cur : Finset ℕ) (cands : List ℕ) (best : Finset ℕ),
      best.card ≤ (obbNode g fuel cur cands best).card := by
  intro fuel
  induction fuel with
  | zero => intro cur cands best; exact le_refl _
  | succ fuel ih =>
    intro cur cands best
    have hb1 : best.card ≤ (if best.card < cur.card then cur else best).card := by
      by_cases h : best.card < cur.card
      · rw [if_pos h]; omega
      · rw [if_neg h]
    show best.card ≤ (if cands = [] then (if best.card < cur.card then cur else best)
      else if cur.card + g.color_bound cands ≤
          (if best.card < cur.card then cur else best).card then
        (if best.card < cur.card then cur else best)
      else obbWhileWith g (obbNode g fuel) cands.reverse cur
        (if best.card < cur.card then cur else best)).card
    by_cases h0 : cands = []
    · rw [if_pos h0]; exact hb1
    · rw [if_neg h0]
      by_cases h1 : cur.card + g.color_bound cands ≤
          (if best.card < cur.card then cur else best).card
      · rw [if_pos h1]; exact hb1
      · rw [if_neg h1]
        exact le_trans hb1 (obbWhileWith_mono g
          (fun c l b => ih c l b) cands.reverse cur _)

theorem obbNode_sound (g : Graph) (hwf : g.WFb) :
    ∀ (fuel : ℕ) (cur : Finset ℕ) (cands : List ℕ) (best : Finset ℕ),
      g.is_clique cur → cur ⊆ Finset.range g.n →
      (∀ u ∈ cands, u < g.n) →
      (∀ u ∈ cands, ∀ w ∈ cur, g.has_edge u w = true) →
      g.is_clique best → best ⊆ Finset.range g.n →
      (g.is_clique (obbNode g fuel cur cands best) ∧
        obbNode g fuel cur cands best ⊆ Finset.range g.n) := by
  intro fuel
  induction fuel with
  | zero => intro cur cands best _ _ _ _ hb1 hb2; exact ⟨hb1, hb2⟩
  | succ fuel ih =>
    intro cur cands best hcur hcurr hclt hcadj hb1 hb2
    have hbest₁ : g.is_clique (if best.card < cur.card then cur else best) ∧
        (if best.card < cur.card then cur else best) ⊆ Finset.range g.n := by
      by_cases h : best.card < cur.card
      · rw [if_pos h]; exact ⟨hcur, hcurr⟩
      · rw [if_neg h]; exact ⟨hb1, hb2⟩
    show (g.is_clique (if cands = [] then (if best.card < cur.card then cur else best)
      else if cur.card + g.color_bound cands ≤
          (if best.card < cur.card then cur else best).card then
        (if best.card < cur.card then cur else best)
      else obbWhileWith g (obbNode g fuel) cands.reverse cur
        (if best.card < cur.card then cur else best)) ∧
      (if cands = [] then (if best.card < cur.card then cur else best)
      else if cur.card + g.color_bound cands ≤
          (if best.card < cur.card then cur else best).card then
        (if best.card < cur.card then cur else best)
      else obbWhileWith g (obbNode g fuel) cands.reverse cur
        (if best.card < cur.card then cur else best)) ⊆ Finset.range g.n)
    by_cases h0 : cands = []
    · rw [if_pos h0]; exact hbest₁
    · rw [if_neg h0]
      by_cases h1 : cur.card + g.color_bound cands ≤
          (if best.card < cur.card then cur else best).card
      · rw [if_pos h1]; exact hbest₁
      · rw [if_neg h1]
        have inner : ∀ (rl : List ℕ) (best' : Finset ℕ),
            (∀ u ∈ rl, u < g.n) →
            (∀ u ∈ rl, ∀ w ∈ cur, g.has_edge u w = true) →
            g.is_clique best' → best' ⊆ Finset.range g.n →
            (g.is_clique (obbWhileWith g (obbNode g fuel) rl cur best') ∧
              obbWhileWith g (obbNode g fuel) rl cur best' ⊆ Finset.range g.n) := by
          intro rl
          induction rl with
          | nil => intro best' _ _ hb1' hb2'; exact ⟨hb1', hb2'⟩
          | cons v revRest ihl =>
            intro best' hlt hadj hb1' hb2'
            show (g.is_clique (if cur.card + revRest.length + 1 ≤ best'.card then best'
              else obbWhileWith g (obbNode g fuel) revRest cur
                (obbNode g fuel (insert v cur)
                  (obbNewCands g cur v revRest.reverse) best')) ∧
              (if cur.card + revRest.length + 1 ≤ best'.card then best'
              else obbWhileWith g (obbNode g fuel) revRest cur
                (obbNode g fuel (insert v cur)
                  (obbNewCands g cur v revRest.reverse) best')) ⊆ Finset.range g.n)
            by_cases hbr : cur.card + revRest.length + 1 ≤ best'.card
            · rw [if_pos hbr]; exact ⟨hb1', hb2'⟩
            · rw [if_neg hbr]
              have hvn : v < g.n := hlt v (List.mem_cons_self v revRest)
              have hchild := ih (insert v cur)
                (obbNewCands g cur v revRest.reverse) best'
                (by
                  refine AClique.insert_of_adj
                    (fun a b => Graph.has_edge_symm hwf a b) hcur ?_
                  intro w hw _
                  exact hadj v (List.mem_cons_self v revRest) w hw)
                (by
                  intro x hx
                  rcases Finset.mem_insert.mp hx with rfl | hx'
                  · exact Finset.mem_range.mpr hvn
                  · exact hcurr hx')
                (by
                  intro u hu
                  have hu' := List.mem_filter.mp hu
                  have := List.mem_reverse.mp hu'.1
                  exact hlt u (List.mem_cons_of_mem v this))
                (by
                  intro u hu w hw
                  have hu' := List.mem_filter.mp hu
                  have hcond := of_decide_eq_true hu'.2
                  rcases Finset.mem_insert.mp hw with rfl | hw'
                  · rw [Graph.has_edge_symm hwf u w]
                    exact hcond.1
                  · exact hcond.2 w hw')
                hb1' hb2'
              exact ihl _
                (fun u hu => hlt u (List.mem_cons_of_mem v hu))
                (fun u hu w hw => hadj u (List.mem_cons_of_mem v hu) w hw)
                hchild.1 hchild.2
        exact inner cands.reverse _
          (fun u hu => hclt u (List.mem_reverse.mp hu))
          (fun u hu w hw => hcadj u (List.mem_reverse.mp hu) w hw)
          hbest₁.1 hbest₁.2

theorem obbNode_complete (g : Graph) (hwf : g.WFb) :
    ∀ (fuel : ℕ) (cur : Finset ℕ) (cands : List ℕ) (best : Finset ℕ),
      cands.length + 1 ≤ fuel → cands.Nodup →
      ∀ C : Finset ℕ, g.is_clique C → cur ⊆ C → C \ cur ⊆ cands.toFinset →
        C.card ≤ (obbNode g fuel cur cands best).card := by
  intro fuel
  induction fuel with
  | zero => intro cur cands best hfuel; exact absurd hfuel (by omega)
  | succ fuel ih =>
    intro cur cands best hfuel hnd C hC hcurC hCc
    have hCcard : C.card = cur.card + (C \ cur).card := by
      have h1 : (C \ cur).card = C.card - cur.card := Finset.card_sdiff hcurC
      have h2 : cur.card ≤ C.card := Finset.card_le_card hcurC
      omega
    have hb₁ : cur.card ≤ (if best.card < cur.card then cur else best).card := by
      by_cases h : best.card < cur.card
      · rw [if_pos h]
      · rw [if_neg h]; omega
    show C.card ≤ (if cands = [] then (if best.card < cur.card then cur else best)
      else if cur.card + g.color_bound cands ≤
          (if best.card < cur.card then cur else best).card then
        (if best.card < cur.card then cur else best)
      else obbWhileWith g (obbNode g fuel) cands.reverse cur
        (if best.card < cur.card then cur else best)).card
    by_cases h0 : cands = []
    · rw [if_pos h0]
      have hCe : C = cur := by
        apply Finset.Subset.antisymm
        · intro x hx
          by_contra hxc
          have := hCc (Finset.mem_sdiff.mpr ⟨hx, hxc⟩)
          rw [h0] at this
          simp at this
        · exact hcurC
      rw [hCe]
      exact hb₁
    · rw [if_neg h0]
      by_cases h1 : cur.card + g.color_bound cands ≤
          (if best.card < cur.card then cur else best).card
      · rw [if_pos h1]
        have hCRclq : g.is_clique (C \ cur) :=
          AClique.subset Finset.sdiff_subset hC
        have hbd := color_bound_ge g cands hnd (C \ cur) hCRclq
          (fun k hk => List.mem_toFinset.mp (hCc hk))
        omega
      · rw [if_neg h1]
        have inner : ∀ (rl : List ℕ) (best' : Finset ℕ), rl.Nodup →
            rl.length ≤ fuel → C \ cur ⊆ rl.toFinset →
            cur.card ≤ best'.card →
            C.card ≤ (obbWhileWith g (obbNode g fuel) rl cur best').card := by
          intro rl
          induction rl with
          | nil =>
            intro best' _ _ hsub hb
            have hCe : C = cur := by
              apply Finset.Subset.antisymm
              · intro x hx
                by_contra hxc
                have := hsub (Finset.mem_sdiff.mpr ⟨hx, hxc⟩)
                simp at this
              · exact hcurC
            rw [hCe]
            exact hb
          | cons v revRest ihl =>
            intro best' hnd' hlen hsub hb
            show C.card ≤ (if cur.card + revRest.length + 1 ≤ best'.card then best'
              else obbWhileWith g (obbNode g fuel) revRest cur
                (obbNode g fuel (insert v cur)
                  (obbNewCands g cur v revRest.reverse) best')).card
            by_cases hbr : cur.card + revRest.length + 1 ≤ best'.card
            · rw [if_pos hbr]
              have h2 : (C \ cur).card ≤ (v :: revRest).toFinset.card :=
                Finset.card_le_card hsub
              have h3 : (v :: revRest).toFinset.card ≤ (v :: revRest).length :=
                (v :: revRest).toFinset_card_le
              simp only [List.length_cons] at h3
              omega
            · rw [if_neg hbr]
              have hmono2 := obbWhileWith_mono g
                (fun c l b => obbNode_mono g fuel c l b) revRest cur
              have hchildmono := obbNode_mono g fuel (insert v cur)
                (obbNewCands g cur v revRest.reverse) best'
              by_cases hvC : v ∈ C
              · have hchild := ih (insert v cur)
                  (obbNewCands g cur v revRest.reverse) best'
                  (by
                    have := List.length_filter_le
                      (fun u => decide (g.has_edge v u = true ∧
                        ∀ w ∈ cur, g.has_edge u w = true)) revRest.reverse
                    have h2 : revRest.reverse.length = revRest.length :=
                      List.length_reverse revRest
                    simp only [List.length_cons] at hlen
                    unfold obbNewCands
                    omega)
                  ((List.nodup_reverse.mpr (List.nodup_cons.mp hnd').2).filter _)
                  C hC
                  (by
                    intro x hx
                    rcases Finset.mem_insert.mp hx with rfl | hx'
                    · exact hvC
                    · exact hcurC hx')
                  (by
                    intro u hu
                    have hu' := Finset.mem_sdiff.mp hu
                    have huv : u ≠ v := fun h =>
                      hu'.2 (Finset.mem_insert.mpr (Or.inl h))
                    have hucur : u ∉ cur := fun h =>
                      hu'.2 (Finset.mem_insert.mpr (Or.inr h))
                    have humem : u ∈ revRest := by
                      have := hsub (Finset.mem_sdiff.mpr ⟨hu'.1, hucur⟩)
                      rcases List.mem_cons.mp (List.mem_toFinset.mp this)
                        with h' | h'
                      · exact absurd h' huv
                      · exact h'
                    refine List.mem_toFinset.mpr (List.mem_filter.mpr
                      ⟨List.mem_reverse.mpr humem, ?_⟩)
                    refine decide_eq_true ⟨?_, ?_⟩
                    · exact hC v hvC u hu'.1 (Ne.symm huv)
                    · intro w hw
                      exact hC u hu'.1 w (hcurC hw)
                        (fun h => hucur (h ▸ hw)))
                exact le_trans hchild (le_trans (le_refl _) (hmono2 _))
              · refine ihl _ (List.nodup_cons.mp hnd').2
                  (by
                    simp only [List.length_cons] at hlen
                    omega)
                  (by
                    intro u hu
                    have hu' := Finset.mem_sdiff.mp hu
                    have := hsub hu
                    rcases List.mem_cons.mp (List.mem_toFinset.mp this)
                      with h' | h'
                    · exact absurd (h' ▸ hu'.1) hvC
                    · exact List.mem_toFinset.mpr h')
                  (le_trans hb hchildmono)
        refine inner cands.reverse _ (List.nodup_reverse.mpr hnd) ?_ ?_ hb₁
        · rw [List.length_reverse]
          omega
        · rw [List.toFinset_reverse]
          exact hCc

theorem Ostergard_correct (g : Graph) (hwf : g.WFb) :
    g.is_clique (OstergardAlgorithm_find_maximum_clique g) ∧
    (OstergardAlgorithm_find_maximum_clique g).card = g.omega := by
  have hperm := sortDesc_perm g.get_degree (List.range g.n)
  have hsound := obbNode_sound g hwf (g.n + 1) ∅
    (sortDesc g.get_degree (List.range g.n)) ∅
    AClique.empty (Finset.empty_subset _)
    (fun u hu => List.mem_range.mp (hperm.mem_iff.mp hu))
    (fun u _ w hw => absurd hw (Finset.not_mem_empty w))
    AClique.empty (Finset.empty_subset _)
  refine ⟨hsound.1, ?_⟩
  have hle : (OstergardAlgorithm_find_maximum_clique g).card ≤
      omegaA g.n g.has_edge := card_le_omegaA hsound.1 hsound.2
  obtain ⟨C, hCmax, hCcard⟩ := @omegaA_exists_maximal g.n g.has_edge
  have hge := obbNode_complete g hwf (g.n + 1) ∅
    (sortDesc g.get_degree (List.range g.n)) ∅
    (by rw [hperm.length_eq, List.length_range])
    (hperm.nodup_iff.mpr (List.nodup_range g.n))
    C hCmax.1 (Finset.empty_subset _)
    (by
      rw [Finset.sdiff_empty]
      intro x hx
      refine List.mem_toFinset.mpr (hperm.mem_iff.mpr ?_)
      exact List.mem_range.mpr (Finset.mem_range.mp (hCmax.2.1 hx)))
  have hge' : C.card ≤ (OstergardAlgorithm_find_maximum_clique g).card := hge
  show _ = omegaA g.n g.has_edge
  omega

/-! ### BBMC. -/

theorem bbColourLoop_struct (adjF : ℕ → ℕ → Bool) (n : ℕ) :
    ∀ (fuel : ℕ) (copyP : Finset ℕ) (cls : ℕ), copyP ⊆ Finset.range n →
      copyP.card ≤ fuel →
      (((bbColourLoop adjF n fuel copyP cls).map Prod.fst).Nodup ∧
       ((bbColourLoop adjF n fuel copyP cls).map Prod.fst).toFinset = copyP ∧
       List.Pairwise (fun p q : ℕ × ℕ => p.2 ≤ q.2)
         (bbColourLoop adjF n fuel copyP cls) ∧
       (∀ p ∈ bbColourLoop adjF n fuel copyP cls, cls + 1 ≤ p.2) ∧
       (∀ p ∈ bbColourLoop adjF n fuel copyP cls,
         ∀ q ∈ bbColourLoop adjF n fuel copyP cls,
         p.2 = q.2 → p.1 ≠ q.1 →
         (adjF p.1 q.1 = false ∨ adjF q.1 p.1 = false))) := by
  intro fuel
  induction fuel with
  | zero =>
    intro copyP cls _ hcard
    have hcP : copyP = ∅ := Finset.card_eq_zero.mp (Nat.le_zero.mp hcard)
    refine ⟨List.nodup_nil, ?_, List.Pairwise.nil, ?_, ?_⟩
    · rw [hcP]; rfl
    · intro p hp; exact absurd hp (List.not_mem_nil p)
    · intro p hp; exact absurd hp (List.not_mem_nil p)
  | succ fuel ih =>
    intro copyP cls hsub hcard
    by_cases hcP : copyP = ∅
    · have hred : bbColourLoop adjF n (fuel+1) copyP cls = [] := by
        show (if copyP = ∅ then [] else _) = []
        rw [if_pos hcP]
      rw [hred]
      refine ⟨List.nodup_nil, ?_, List.Pairwise.nil, ?_, ?_⟩
      · rw [hcP]; rfl
      · intro p hp; exact absurd hp (List.not_mem_nil p)
      · intro p hp; exact absurd hp (List.not_mem_nil p)
    · set r := bbInner adjF n (copyP.card + 1) copyP copyP with hr
      have hred : bbColourLoop adjF n (fuel+1) copyP cls =
          (r.2.map (fun v => (v, cls + 1))) ++
            bbColourLoop adjF n fuel r.1 (cls + 1) := by
        show (if copyP = ∅ then [] else
          (r.2.map (fun v => (v, cls + 1))) ++
            bbColourLoop adjF n fuel r.1 (cls + 1)) = _
        rw [if_neg hcP]
      obtain ⟨hs1, hs2, hs3, hs4, hs5⟩ :=
        bbInner_spec adjF n (copyP.card + 1) copyP copyP
          (Finset.Subset.refl copyP) hsub (Nat.le_succ _)
      rw [← hr] at hs1 hs2 hs3 hs4 hs5
      have husne : r.2 ≠ [] := fun h => hcP (hs3.mp h)
      have husfin : r.2.toFinset.Nonempty := by
        rw [List.toFinset_nonempty_iff]
        exact husne
      have hr1sub : r.1 ⊆ copyP := by rw [hs1]; exact Finset.sdiff_subset
      have hr1card : r.1.card ≤ fuel := by
        have h1 : r.1.card = copyP.card - r.2.toFinset.card := by
          rw [hs1, Finset.card_sdiff hs2]
        have h2 : 1 ≤ r.2.toFinset.card := Finset.card_pos.mpr husfin
        omega
      obtain ⟨ih1, ih2, ih3, ih4, ih5⟩ :=
        ih r.1 (cls + 1) (hr1sub.trans hsub) hr1card
      set tail := bbColourLoop adjF n fuel r.1 (cls + 1) with htail
      have hfst : (r.2.map (fun v => (v, cls + 1))).map Prod.fst = r.2 := by
        rw [List.map_map]
        exact List.map_id' r.2
      have hheadmem : ∀ p ∈ r.2.map (fun v => (v, cls + 1)),
          p.1 ∈ r.2 ∧ p.2 = cls + 1 := by
        intro p hp
        obtain ⟨v, hv, hpv⟩ := List.mem_map.mp hp
        rw [← hpv]
        exact ⟨hv, rfl⟩
      have htailfst : ∀ p ∈ tail, p.1 ∈ r.1 := by
        intro p hp
        have : p.1 ∈ (tail.map Prod.fst).toFinset :=
          List.mem_toFinset.mpr (List.mem_map.mpr ⟨p, hp, rfl⟩)
        rw [ih2] at this
        exact this
      rw [hred]
      refine ⟨?_, ?_, ?_, ?_, ?_⟩
      · rw [List.map_append, hfst]
        refine List.nodup_append.mpr ⟨hs5, ih1, ?_⟩
        intro a ha hamem
        obtain ⟨p, hp, hpa⟩ := List.mem_map.mp hamem
        have har1 : a ∈ r.1 := hpa ▸ htailfst p hp
        rw [hs1] at har1
        exact (Finset.mem_sdiff.mp har1).2 (List.mem_toFinset.mpr ha)
      · rw [List.map_append, hfst, List.toFinset_append, ih2, hs1]
        exact Finset.union_sdiff_of_subset hs2
      · refine List.pairwise_append.mpr ⟨?_, ih3, ?_⟩
        · refine List.pairwise_map.mpr ?_
          exact List.Pairwise.imp (fun _ => le_refl (cls + 1)) hs4
        · intro p hp q hq
          have h1 := (hheadmem p hp).2
          have h2 := ih4 q hq
          omega
      · intro p hp
        rcases List.mem_append.mp hp with hp' | hp'
        · rw [(hheadmem p hp').2]
        · have := ih4 p hp'
          omega
      · intro p hp q hq hpq hne
        rcases List.mem_append.mp hp with hp' | hp'
        · rcases List.mem_append.mp hq with hq' | hq'
          · exact pairwise_or r.2 hs4 p.1 (hheadmem p hp').1
              q.1 (hheadmem q hq').1 hne
          · have h1 := (hheadmem p hp').2
            have h2 := ih4 q hq'
            omega
        · rcases List.mem_append.mp hq with hq' | hq'
          · have h1 := (hheadmem q hq').2
            have h2 := ih4 p hp'
            omega
          · exact ih5 p hp' q hq' hpq hne

def lookupSnd (rl : List (ℕ × ℕ)) (k : ℕ) : ℕ :=
  ((rl.filter (fun p => p.1 = k)).headD (0, 0)).2

theorem lookupSnd_mem (rl : List (ℕ × ℕ)) (k : ℕ)
    (hk : k ∈ rl.map Prod.fst) :
    ∃ p ∈ rl, p.1 = k ∧ lookupSnd rl k = p.2 := by
  obtain ⟨p₀, hp₀, hp₀k⟩ := List.mem_map.mp hk
  rcases hf : rl.filter (fun p => decide (p.1 = k)) with - | ⟨p, rest⟩
  · exfalso
    have : p₀ ∈ rl.filter (fun p => decide (p.1 = k)) :=
      List.mem_filter.mpr ⟨hp₀, by simpa using hp₀k⟩
    rw [hf] at this
    exact absurd this (List.not_mem_nil p₀)
  · have hpmem : p ∈ rl.filter (fun p => decide (p.1 = k)) := by
      rw [hf]
      exact List.mem_cons_self p rest
    have h' := List.mem_filter.mp hpmem
    refine ⟨p, h'.1, by simpa using h'.2, ?_⟩
    unfold lookupSnd
    rw [hf]
    rfl

/-- Any `adjF`-clique inside the vertices of a colour record list whose
colours are positive, at most `cl`, and proper (same-colour vertices are
non-adjacent in one direction) has at most `cl` members. -/
theorem revColour_clique_bound (adjF : ℕ → ℕ → Bool) (rl : List (ℕ × ℕ))
    (hpos : ∀ p ∈ rl, 1 ≤ p.2)
    (hsame : ∀ p ∈ rl, ∀ q ∈ rl, p.2 = q.2 → p.1 ≠ q.1 →
      (adjF p.1 q.1 = false ∨ adjF q.1 p.1 = false))
    (cl : ℕ) (hcl : ∀ p ∈ rl, p.2 ≤ cl)
    (S : Finset ℕ) (hS : S ⊆ (rl.map Prod.fst).toFinset)
    (hSclq : ∀ u ∈ S, ∀ w ∈ S, u ≠ w → adjF u w = true) :
    S.card ≤ cl := by
  have hmaps : ∀ k ∈ S, (fun k => lookupSnd rl k - 1) k ∈ Finset.range cl := by
    intro k hk
    obtain ⟨p, hp, -, hval⟩ := lookupSnd_mem rl k (List.mem_toFinset.mp (hS hk))
    have h1 := hpos p hp
    have h2 := hcl p hp
    rw [Finset.mem_range]
    show lookupSnd rl k - 1 < cl
    omega
  have hinj : Set.InjOn (fun k => lookupSnd rl k - 1) S := by
    intro u hu w hw heq
    by_contra huw
    obtain ⟨p, hp, hpu, hpval⟩ := lookupSnd_mem rl u
      (List.mem_toFinset.mp (hS hu))
    obtain ⟨q, hq, hqw, hqval⟩ := lookupSnd_mem rl w
      (List.mem_toFinset.mp (hS hw))
    have h1 := hpos p hp
    have h2 := hpos q hq
    have heq' : p.2 = q.2 := by
      have : lookupSnd rl u - 1 = lookupSnd rl w - 1 := heq
      rw [hpval, hqval] at this
      omega
    have hne : p.1 ≠ q.1 := by
      rw [hpu, hqw]
      exact huw
    rcases hsame p hp q hq heq' hne with h' | h'
    · rw [hpu, hqw] at h'
      rw [hSclq u hu w hw huw] at h'
      exact absurd h' (by simp)
    · rw [hpu, hqw] at h'
      rw [hSclq w hw u hu (Ne.symm huw)] at h'
      exact absurd h' (by simp)
  have := Finset.card_le_card_of_injOn _ hmaps hinj
  rwa [Finset.card_range] at this

/-- Generic form of `maximal_no_extender` for an abstract adjacency. -/
theorem aMaximal_no_extender_adj {n : ℕ} {adj : ℕ → ℕ → Bool}
    (hsym : ∀ a b, adj a b = adj b a) (hirr : ∀ a, a < n → adj a a = false)
    {K : Finset ℕ} (hK : AMaximal n adj K) {u : ℕ} (hun : u < n)
    (hadj : ∀ c ∈ K, adj u c = true) : False := by
  have huK : u ∉ K := by
    intro huK
    have h := hadj u huK
    rw [hirr u hun] at h
    exact Bool.false_ne_true h
  apply hK.2.2 u (Finset.mem_range.mpr hun) huK
  intro a ha b hb hab
  rcases Finset.mem_insert.mp ha with rfl | haK
  · rcases Finset.mem_insert.mp hb with rfl | hbK
    · exact absurd rfl hab
    · exact hadj b hbK
  · rcases Finset.mem_insert.mp hb with rfl | hbK
    · rw [hsym a b]
      exact hadj a haK
    · exact hK.1 a haK b hbK hab

/-- The loop of `BBMC::bb_max_clique` over `U`/`colour` in reverse order:
prune on `colour[i] + |C| ≤ max_size`, otherwise take `v = U[i]`, form
`newP = P ∩ N(v)`, save `C ∪ {v}` when `newP` is empty and recurse
otherwise, then remove `v` from `P`. -/
def bbSearchFoldWith (child : Finset ℕ → Finset ℕ → Finset ℕ → Finset ℕ)
    (adj : ℕ → ℕ → Bool) :
    List (ℕ × ℕ) → Finset ℕ → Finset ℕ → Finset ℕ → Finset ℕ
  | [], _, _, best => best
  | (v, cl) :: rest, C, P, best =>
    if cl + C.card ≤ best.card then best
    else
      bbSearchFoldWith child adj rest C (P.erase v)
        (if P.filter (fun j => adj v j) = ∅ then
          (if best.card < (insert v C).card then insert v C else best)
        else child (insert v C) (P.filter (fun j => adj v j)) best)

def bbSearch (adj : ℕ → ℕ → Bool) (n : ℕ) :
    ℕ → Finset ℕ → Finset ℕ → Finset ℕ → Finset ℕ
  | 0, _, _, best => best
  | fuel+1, C, P, best =>
    if P = ∅ then (if best.card < C.card then C else best)
    else bbSearchFoldWith (bbSearch adj n fuel) adj
      (bb_colour adj n P).reverse C P best

/-- The degree-descending (neighbour-degree tie-break) insertion order of
`BBMC::order_vertices` under `DEGREE_ORDER`; only the fact that it is a
permutation of the vertices matters (`std::sort` leaves ties
unspecified). -/
def insBy (prec : ℕ → ℕ → Bool) (x : ℕ) : List ℕ → List ℕ
  | [] => [x]
  | y :: ys => if prec x y then x :: y :: ys else y :: insBy prec x ys

def insSortBy (prec : ℕ → ℕ → Bool) (l : List ℕ) : List ℕ :=
  l.foldr (insBy prec) []

theorem insBy_perm (prec : ℕ → ℕ → Bool) (x : ℕ) (l : List ℕ) :
    (insBy prec x l).Perm (x :: l) := by
  induction l with
  | nil => exact List.Perm.refl _
  | cons y ys ih =>
    show (if prec x y then x :: y :: ys else y :: insBy prec x ys).Perm _
    by_cases h : prec x y
    · rw [if_pos h]
    · rw [if_neg h]
      exact (List.Perm.cons y ih).trans (List.Perm.swap x y ys)

theorem insSortBy_perm (prec : ℕ → ℕ → Bool) (l : List ℕ) :
    (insSortBy prec l).Perm l := by
  induction l with
  | nil => exact List.Perm.refl _
  | cons x xs ih =>
    show (insBy prec x (insSortBy prec xs)).Perm (x :: xs)
    exact (insBy_perm prec x (insSortBy prec xs)).trans (List.Perm.cons x ih)

/-- Sum of neighbour degrees, the `neb_degree` field. -/
def neb_degree (g : Graph) (i : ℕ) : ℕ :=
  ((Finset.range g.n).filter (fun j => g.has_edge i j = true)).sum
    (fun j => g.get_degree j)

def bbmcPrec (g : Graph) (a b : ℕ) : Bool :=
  decide (g.get_degree b < g.get_degree a ∨
    (g.get_degree a = g.get_degree b ∧ neb_degree g b < neb_degree g a))

def bbVl (g : Graph) : List ℕ := insSortBy (bbmcPrec g) (List.range g.n)

/-- Adjacency of `N`/`invN` in the permuted index space:
`N[i].test(j) = has_edge(V[i].index, V[j].index)` for indices below `n`,
all other bits clear. -/
def adjB (g : Graph) (Vl : List ℕ) (i j : ℕ) : Bool :=
  if i < Vl.length ∧ j < Vl.length then
    g.has_edge (Vl.getD i 0) (Vl.getD j 0)
  else false

/-- `BBMC::find_maximum_clique` with the default `DEGREE_ORDER`:
search in the permuted index space, then map the saved clique back to
original vertex ids (`save_solution`). -/
def BBMC_find_maximum_clique (g : Graph) : Finset ℕ :=
  (bbSearch (adjB g (bbVl g)) g.n (g.n + 1) ∅ (Finset.range g.n) ∅).image
    (fun i => (bbVl g).getD i 0)

theorem bbSearchFold_mono
    {child : Finset ℕ → Finset ℕ → Finset ℕ → Finset ℕ}
    (hchild : ∀ C P b, b.card ≤ (child C P b).card) (adj : ℕ → ℕ → Bool) :
    ∀ (rl : List (ℕ × ℕ)) (C P best : Finset ℕ),
      best.card ≤ (bbSearchFoldWith child adj rl C P best).card := by
  intro rl
  induction rl with
  | nil => intro C P best; exact le_refl _
  | cons p rest ih =>
    intro C P best
    obtain ⟨v, cl⟩ := p
    show best.card ≤ (if cl + C.card ≤ best.card then best
      else bbSearchFoldWith child adj rest C (P.erase v)
        (if P.filter (fun j => adj v j) = ∅ then
          (if best.card < (insert v C).card then insert v C else best)
        else child (insert v C) (P.filter (fun j => adj v j)) best)).card
    by_cases hpr : cl + C.card ≤ best.card
    · rw [if_pos hpr]
    · rw [if_neg hpr]
      refine le_trans ?_ (ih C (P.erase v) _)
      by_cases hnp : P.filter (fun j => adj v j) = ∅
      · rw [if_pos hnp]
        by_cases hlt : best.card < (insert v C).card
        · rw [if_pos hlt]; omega
        · rw [if_neg hlt]
      · rw [if_neg hnp]
        exact hchild (insert v C) _ best

theorem bbSearch_mono (adj : ℕ → ℕ → Bool) (n : ℕ) :
    ∀ (fuel : ℕ) (C P best : Finset ℕ),
      best.card ≤ (bbSearch adj n fuel C P best).card := by
  intro fuel
  induction fuel with
  | zero => intro C P best; exact le_refl _
  | succ fuel ih =>
    intro C P best
    show best.card ≤ (if P = ∅ then (if best.card < C.card then C else best)
      else bbSearchFoldWith (bbSearch adj n fuel) adj
        (bb_colour adj n P).reverse C P best).card
    by_cases hP : P = ∅
    · rw [if_pos hP]
      by_cases hlt : best.card < C.card
      · rw [if_pos hlt]; omega
      · rw [if_neg hlt]
    · rw [if_neg hP]
      exact bbSearchFold_mono (fun C' P' b' => ih C' P' b') adj _ C P best

theorem bbSearch_sound (adj : ℕ → ℕ → Bool) (n : ℕ)
    (hsym : ∀ a b, adj a b = adj b a) :
    ∀ (fuel : ℕ) (C P best : Finset ℕ),
      AClique adj C → C ⊆ Finset.range n → P ⊆ Finset.range n →
      (∀ j ∈ P, ∀ c ∈ C, adj j c = true) →
      AClique adj best → best ⊆ Finset.range n →
      (AClique adj (bbSearch adj n fuel C P best) ∧
        bbSearch adj n fuel C P best ⊆ Finset.range n) := by
  intro fuel
  induction fuel with
  | zero => intro C P best _ _ _ _ hb1 hb2; exact ⟨hb1, hb2⟩
  | succ fuel ih =>
    intro C P best hCclq hCr hPr hPadjC hb1 hb2
    show (AClique adj (if P = ∅ then (if best.card < C.card then C else best)
      else bbSearchFoldWith (bbSearch adj n fuel) adj
        (bb_colour adj n P).reverse C P best) ∧
      (if P = ∅ then (if best.card < C.card then C else best)
      else bbSearchFoldWith (bbSearch adj n fuel) adj
        (bb_colour adj n P).reverse C P best) ⊆ Finset.range n)
    by_cases hP : P = ∅
    · rw [if_pos hP]
      by_cases hlt : best.card < C.card
      · rw [if_pos hlt]; exact ⟨hCclq, hCr⟩
      · rw [if_neg hlt]; exact ⟨hb1, hb2⟩
    · rw [if_neg hP]
      obtain ⟨-, hfin, -, -, -⟩ :=
        bbColourLoop_struct adj n P.card P 0 hPr (le_refl _)
      have hrecP : ∀ p ∈ (bb_colour adj n P).reverse, p.1 ∈ P := by
        intro p hp
        have hp' : p ∈ bb_colour adj n P := List.mem_reverse.mp hp
        have h2 : p.1 ∈ ((bbColourLoop adj n P.card P 0).map Prod.fst).toFinset :=
          List.mem_toFinset.mpr (List.mem_map.mpr ⟨p, hp', rfl⟩)
        rw [hfin] at h2
        exact h2
      have inner : ∀ (rl : List (ℕ × ℕ)) (P' best' : Finset ℕ),
          (∀ p ∈ rl, p.1 ∈ P) → P' ⊆ P →
          AClique adj best' → best' ⊆ Finset.range n →
          (AClique adj (bbSearchFoldWith (bbSearch adj n fuel) adj rl C P' best') ∧
            bbSearchFoldWith (bbSearch adj n fuel) adj rl C P' best' ⊆
              Finset.range n) := by
        intro rl
        induction rl with
        | nil => intro P' best' _ _ hb1' hb2'; exact ⟨hb1', hb2'⟩
        | cons p rest ihl =>
          intro P' best' hmem hP'P hb1' hb2'
          obtain ⟨v, cl⟩ := p
          have hvP : v ∈ P := hmem (v, cl) (List.mem_cons_self _ rest)
          have hvn : v < n := Finset.mem_range.mp (hPr hvP)
          have hinsclq : AClique adj (insert v C) := by
            refine AClique.insert_of_adj hsym hCclq ?_
            intro c hc _
            exact hPadjC v hvP c hc
          have hinsr : insert v C ⊆ Finset.range n := by
            intro x hx
            rcases Finset.mem_insert.mp hx with rfl | hx'
            · exact Finset.mem_range.mpr hvn
            · exact hCr hx'
          show (AClique adj (if cl + C.card ≤ best'.card then best'
            else bbSearchFoldWith (bbSearch adj n fuel) adj rest C (P'.erase v)
              (if P'.filter (fun j => adj v j) = ∅ then
                (if best'.card < (insert v C).card then insert v C else best')
              else bbSearch adj n fuel (insert v C)
                (P'.filter (fun j => adj v j)) best')) ∧
            (if cl + C.card ≤ best'.card then best'
            else bbSearchFoldWith (bbSearch adj n fuel) adj rest C (P'.erase v)
              (if P'.filter (fun j => adj v j) = ∅ then
                (if best'.card < (insert v C).card then insert v C else best')
              else bbSearch adj n fuel (insert v C)
                (P'.filter (fun j => adj v j)) best')) ⊆ Finset.range n)
          by_cases hpr : cl + C.card ≤ best'.card
          · rw [if_pos hpr]; exact ⟨hb1', hb2'⟩
          · rw [if_neg hpr]
            have hstep : AClique adj (if P'.filter (fun j => adj v j) = ∅ then
                (if best'.card < (insert v C).card then insert v C else best')
              else bbSearch adj n fuel (insert v C)
                (P'.filter (fun j => adj v j)) best') ∧
                (if P'.filter (fun j => adj v j) = ∅ then
                (if best'.card < (insert v C).card then insert v C else best')
              else bbSearch adj n fuel (insert v C)
                (P'.filter (fun j => adj v j)) best') ⊆ Finset.range n := by
              by_cases hnp : P'.filter (fun j => adj v j) = ∅
              · rw [if_pos hnp]
                by_cases hlt : best'.card < (insert v C).card
                · rw [if_pos hlt]; exact ⟨hinsclq, hinsr⟩
                · rw [if_neg hlt]; exact ⟨hb1', hb2'⟩
              · rw [if_neg hnp]
                refine ih (insert v C) (P'.filter (fun j => adj v j)) best'
                  hinsclq hinsr ?_ ?_ hb1' hb2'
                · exact ((Finset.filter_subset _ _).trans hP'P).trans hPr
                · intro j hj c hc
                  have hj' := Finset.mem_filter.mp hj
                  rcases Finset.mem_insert.mp hc with rfl | hc'
                  · rw [hsym j c]
                    exact hj'.2
                  · exact hPadjC j (hP'P hj'.1) c hc'
            exact ihl (P'.erase v) _
              (fun q hq => hmem q (List.mem_cons_of_mem _ hq))
              ((Finset.erase_subset v P').trans hP'P)
              hstep.1 hstep.2
      exact inner _ P best hrecP (Finset.Subset.refl P) hb1 hb2

theorem bbSearch_complete (adj : ℕ → ℕ → Bool) (n : ℕ)
    (hsym : ∀ a b, adj a b = adj b a) (hirr : ∀ a, a < n → adj a a = false) :
    ∀ (fuel : ℕ) (C P best : Finset ℕ), P.card + 1 ≤ fuel →
      P ⊆ Finset.range n → C ⊆ Finset.range n →
      (∀ j ∈ P, ∀ c ∈ C, adj j c = true) →
      ∀ K, AMaximal n adj K → C ⊆ K → K \ C ⊆ P →
        K.card ≤ (bbSearch adj n fuel C P best).card := by
  intro fuel
  induction fuel with
  | zero => intro C P best hfuel; exact absurd hfuel (by omega)
  | succ fuel ih =>
    intro C P best hfuel hPr hCr hPadjC K hK hCK hKCP
    have hKcard : K.card = C.card + (K \ C).card := by
      have h1 : (K \ C).card = K.card - C.card := Finset.card_sdiff hCK
      have h2 : C.card ≤ K.card := Finset.card_le_card hCK
      omega
    show K.card ≤ (if P = ∅ then (if best.card < C.card then C else best)
      else bbSearchFoldWith (bbSearch adj n fuel) adj
        (bb_colour adj n P).reverse C P best).card
    by_cases hP : P = ∅
    · rw [if_pos hP]
      have hKe : K = C := by
        apply Finset.Subset.antisymm
        · intro x hx
          by_contra hxc
          have := hKCP (Finset.mem_sdiff.mpr ⟨hx, hxc⟩)
          rw [hP] at this
          exact absurd this (Finset.not_mem_empty x)
        · exact hCK
      rw [hKe]
      by_cases hlt : best.card < C.card
      · rw [if_pos hlt]
      · rw [if_neg hlt]; omega
    · rw [if_neg hP]
      by_cases hKCne : K \ C = ∅
      · exfalso
        have hKe : K = C := by
          apply Finset.Subset.antisymm
          · intro x hx
            by_contra hxc
            have := Finset.mem_sdiff.mpr ⟨hx, hxc⟩
            rw [hKCne] at this
            exact absurd this (Finset.not_mem_empty x)
          · exact hCK
        obtain ⟨j, hj⟩ := Finset.nonempty_iff_ne_empty.mpr hP
        refine aMaximal_no_extender_adj hsym hirr hK
          (Finset.mem_range.mp (hPr hj)) ?_
        intro c hc
        rw [hKe] at hc
        exact hPadjC j hj c hc
      · obtain ⟨hnd₀, hfin₀, hpw₀, hpos₀, hsame₀⟩ :=
          bbColourLoop_struct adj n P.card P 0 hPr (le_refl _)
        have hnd : ((bb_colour adj n P).map Prod.fst).Nodup := hnd₀
        have hfin : ((bb_colour adj n P).map Prod.fst).toFinset = P := hfin₀
        have hpw : List.Pairwise (fun p q : ℕ × ℕ => p.2 ≤ q.2)
            (bb_colour adj n P) := hpw₀
        have hpos : ∀ p ∈ bb_colour adj n P, 1 ≤ p.2 := hpos₀
        have hsame : ∀ p ∈ bb_colour adj n P, ∀ q ∈ bb_colour adj n P,
            p.2 = q.2 → p.1 ≠ q.1 →
            (adj p.1 q.1 = false ∨ adj q.1 p.1 = false) := hsame₀
        have inner : ∀ (rl : List (ℕ × ℕ)) (P' best' : Finset ℕ),
            (∀ p ∈ rl, p.1 ∈ P) →
            (rl.map Prod.fst).toFinset ⊆ P' → P' ⊆ P →
            (rl.map Prod.fst).Nodup →
            List.Pairwise (fun p q : ℕ × ℕ => q.2 ≤ p.2) rl →
            (∀ p ∈ rl, 1 ≤ p.2) →
            (∀ p ∈ rl, ∀ q ∈ rl, p.2 = q.2 → p.1 ≠ q.1 →
              (adj p.1 q.1 = false ∨ adj q.1 p.1 = false)) →
            ((K \ C ⊆ (rl.map Prod.fst).toFinset) ∨ K.card ≤ best'.card) →
            K.card ≤ (bbSearchFoldWith (bbSearch adj n fuel) adj
              rl C P' best').card := by
          intro rl
          induction rl with
          | nil =>
            intro P' best' _ _ _ _ _ _ _ hex
            rcases hex with hcov | hle
            · exfalso
              refine hKCne (Finset.subset_empty.mp ?_)
              simpa using hcov
            · exact hle
          | cons p rest ihl =>
            intro P' best' hmem hsubP' hP'P hnd' hpw' hpos' hsame' hex
            obtain ⟨v, cl⟩ := p
            have hvP : v ∈ P := hmem (v, cl) (List.mem_cons_self _ rest)
            have hvn : v < n := Finset.mem_range.mp (hPr hvP)
            have hvP' : v ∈ P' := hsubP' (by
              refine List.mem_toFinset.mpr ?_
              exact List.mem_map.mpr ⟨(v, cl), List.mem_cons_self _ rest, rfl⟩)
            have hconsfin : (((v, cl) :: rest).map Prod.fst).toFinset =
                insert v ((rest.map Prod.fst).toFinset) := by
              rw [List.map_cons, List.toFinset_cons]
            show K.card ≤ (if cl + C.card ≤ best'.card then best'
              else bbSearchFoldWith (bbSearch adj n fuel) adj rest C (P'.erase v)
                (if P'.filter (fun j => adj v j) = ∅ then
                  (if best'.card < (insert v C).card then insert v C else best')
                else bbSearch adj n fuel (insert v C)
                  (P'.filter (fun j => adj v j)) best')).card
            by_cases hpr : cl + C.card ≤ best'.card
            · rw [if_pos hpr]
              rcases hex with hcov | hle
              · have hbd := revColour_clique_bound adj ((v, cl) :: rest)
                  hpos' hsame' cl ?_ (K \ C) hcov ?_
                · omega
                · intro q hq
                  rcases List.mem_cons.mp hq with rfl | hq'
                  · exact le_refl cl
                  · exact (List.pairwise_cons.mp hpw').1 q hq'
                · intro a ha b hb hab
                  have ha' := Finset.mem_sdiff.mp ha
                  have hb' := Finset.mem_sdiff.mp hb
                  exact hK.1 a ha'.1 b hb'.1 hab
              · exact hle
            · rw [if_neg hpr]
              have hfoldmono := bbSearchFold_mono
                (fun C'' P'' b'' => bbSearch_mono adj n fuel C'' P'' b'') adj rest
              have hstepmono : best'.card ≤
                  (if P'.filter (fun j => adj v j) = ∅ then
                    (if best'.card < (insert v C).card then insert v C else best')
                  else bbSearch adj n fuel (insert v C)
                    (P'.filter (fun j => adj v j)) best').card := by
                by_cases hnp : P'.filter (fun j => adj v j) = ∅
                · rw [if_pos hnp]
                  by_cases hlt : best'.card < (insert v C).card
                  · rw [if_pos hlt]; omega
                  · rw [if_neg hlt]
                · rw [if_neg hnp]
                  exact bbSearch_mono adj n fuel _ _ _
              rcases hex with hcov | hle
              · by_cases hvK : v ∈ K
                · have hKsub : K \ insert v C ⊆
                      P'.filter (fun j => adj v j) := by
                    intro u hu
                    have hu' := Finset.mem_sdiff.mp hu
                    have huv : u ≠ v := fun h =>
                      hu'.2 (Finset.mem_insert.mpr (Or.inl h))
                    have huC : u ∉ C := fun h =>
                      hu'.2 (Finset.mem_insert.mpr (Or.inr h))
                    have huP' : u ∈ P' :=
                      hsubP' (hcov (Finset.mem_sdiff.mpr ⟨hu'.1, huC⟩))
                    refine Finset.mem_filter.mpr ⟨huP', ?_⟩
                    exact hK.1 v hvK u hu'.1 (Ne.symm huv)
                  by_cases hnp : P'.filter (fun j => adj v j) = ∅
                  · rw [if_pos hnp]
                    have hKe : K = insert v C := by
                      apply Finset.Subset.antisymm
                      · intro x hx
                        by_contra hxc
                        have := hKsub (Finset.mem_sdiff.mpr ⟨hx, hxc⟩)
                        rw [hnp] at this
                        exact absurd this (Finset.not_mem_empty x)
                      · intro x hx
                        rcases Finset.mem_insert.mp hx with rfl | hx'
                        · exact hvK
                        · exact hCK hx'
                    refine le_trans ?_ (hfoldmono C (P'.erase v) _)
                    rw [hKe]
                    by_cases hlt : best'.card < (insert v C).card
                    · rw [if_pos hlt]
                    · rw [if_neg hlt]; omega
                  · rw [if_neg hnp]
                    have hnewsub : P'.filter (fun j => adj v j) ⊆
                        P'.erase v := by
                      intro u hu
                      have hu' := Finset.mem_filter.mp hu
                      refine Finset.mem_erase.mpr ⟨?_, hu'.1⟩
                      intro huv
                      rw [huv] at hu'
                      rw [hirr v hvn] at hu'
                      exact Bool.false_ne_true hu'.2
                    have hchild := ih (insert v C)
                      (P'.filter (fun j => adj v j)) best'
                      (by
                        have h1 := Finset.card_le_card hnewsub
                        have h2 := Finset.card_erase_of_mem hvP'
                        have h3 := Finset.card_le_card hP'P
                        have h4 : 0 < P'.card := Finset.card_pos.mpr ⟨v, hvP'⟩
                        omega)
                      (((Finset.filter_subset _ _).trans hP'P).trans hPr)
                      (by
                        intro x hx
                        rcases Finset.mem_insert.mp hx with rfl | hx'
                        · exact Finset.mem_range.mpr hvn
                        · exact hCr hx')
                      (by
                        intro j hj c hc
                        have hj' := Finset.mem_filter.mp hj
                        rcases Finset.mem_insert.mp hc with rfl | hc'
                        · rw [hsym j c]
                          exact hj'.2
                        · exact hPadjC j (hP'P hj'.1) c hc')
                      K hK
                      (by
                        intro x hx
                        rcases Finset.mem_insert.mp hx with rfl | hx'
                        · exact hvK
                        · exact hCK hx')
                      hKsub
                    exact le_trans hchild (hfoldmono C (P'.erase v) _)
                · have hndtail : (rest.map Prod.fst).Nodup :=
                    (List.nodup_cons.mp hnd').2
                  have hvnotrest : v ∉ rest.map Prod.fst :=
                    (List.nodup_cons.mp hnd').1
                  refine ihl (P'.erase v) _
                    (fun q hq => hmem q (List.mem_cons_of_mem _ hq))
                    ?_ ((Finset.erase_subset v P').trans hP'P)
                    hndtail
                    (List.pairwise_cons.mp hpw').2
                    (fun q hq => hpos' q (List.mem_cons_of_mem _ hq))
                    (fun q hq q' hq' => hsame' q (List.mem_cons_of_mem _ hq)
                      q' (List.mem_cons_of_mem _ hq'))
                    ?_
                  · intro u hu
                    have humem : u ∈ (((v, cl) :: rest).map Prod.fst).toFinset := by
                      rw [hconsfin]
                      exact Finset.mem_insert.mpr (Or.inr hu)
                    have huv : u ≠ v := by
                      intro h
                      rw [h] at hu
                      exact hvnotrest (List.mem_toFinset.mp hu)
                    exact Finset.mem_erase.mpr ⟨huv, hsubP' humem⟩
                  · refine Or.inl ?_
                    intro u hu
                    have := hcov hu
                    rw [hconsfin] at this
                    rcases Finset.mem_insert.mp this with rfl | h'
                    · exact absurd (Finset.mem_sdiff.mp hu).1 hvK
                    · exact h'
              · exact le_trans (le_trans hle hstepmono) (hfoldmono C (P'.erase v) _)
        refine inner (bb_colour adj n P).reverse P best ?_ ?_ (Finset.Subset.refl P)
          ?_ ?_ ?_ ?_ ?_
        · intro p hp
          have hp' : p ∈ bb_colour adj n P := List.mem_reverse.mp hp
          have : p.1 ∈ ((bb_colour adj n P).map Prod.fst).toFinset :=
            List.mem_toFinset.mpr (List.mem_map.mpr ⟨p, hp', rfl⟩)
          rw [hfin] at this
          exact this
        · rw [List.map_reverse, List.toFinset_reverse, hfin]
        · rw [List.map_reverse]
          exact List.nodup_reverse.mpr hnd
        · exact List.pairwise_reverse.mpr hpw
        · intro p hp
          exact hpos p (List.mem_reverse.mp hp)
        · intro p hp q hq
          exact hsame p (List.mem_reverse.mp hp) q (List.mem_reverse.mp hq)
        · refine Or.inl ?_
          rw [List.map_reverse, List.toFinset_reverse, hfin]
          exact hKCP

/-- Transfer of the clique number through a bijective relabelling of the
vertex range. -/
theorem omegaA_transfer (n : ℕ) (adj₁ adj₂ : ℕ → ℕ → Bool) (f : ℕ → ℕ)
    (hmaps : ∀ i, i < n → f i < n)
    (hinj : ∀ i, i < n → ∀ j, j < n → f i = f j → i = j)
    (hsurj : ∀ v, v < n → ∃ i, i < n ∧ f i = v)
    (hadj : ∀ i, i < n → ∀ j, j < n → adj₁ i j = adj₂ (f i) (f j)) :
    omegaA n adj₁ = omegaA n adj₂ := by
  apply le_antisymm
  · obtain ⟨C, hC, hCcard⟩ := @omegaA_exists_maximal n adj₁
    have hCr := hC.2.1
    have himg : AClique adj₂ (C.image f) := by
      intro a ha b hb hab
      obtain ⟨i, hi, hia⟩ := Finset.mem_image.mp ha
      obtain ⟨j, hj, hjb⟩ := Finset.mem_image.mp hb
      have hin : i < n := Finset.mem_range.mp (hCr hi)
      have hjn : j < n := Finset.mem_range.mp (hCr hj)
      have hij : i ≠ j := by
        intro h
        rw [h, hjb] at hia
        exact hab hia.symm
      rw [← hia, ← hjb, ← hadj i hin j hjn]
      exact hC.1 i hi j hj hij
    have himgr : C.image f ⊆ Finset.range n := by
      intro a ha
      obtain ⟨i, hi, hia⟩ := Finset.mem_image.mp ha
      rw [← hia]
      exact Finset.mem_range.mpr (hmaps i (Finset.mem_range.mp (hCr hi)))
    have hcardeq : (C.image f).card = C.card := by
      apply Finset.card_image_of_injOn
      intro i hi j hj hij
      exact hinj i (Finset.mem_range.mp (hCr hi)) j
        (Finset.mem_range.mp (hCr hj)) hij
    rw [← hCcard, ← hcardeq]
    exact card_le_omegaA himg himgr
  · obtain ⟨C, hC, hCcard⟩ := @omegaA_exists_maximal n adj₂
    have hCr := hC.2.1
    set S := (Finset.range n).filter (fun i => f i ∈ C) with hS
    have hSclq : AClique adj₁ S := by
      intro i hi j hj hij
      have hi' := Finset.mem_filter.mp hi
      have hj' := Finset.mem_filter.mp hj
      have hin := Finset.mem_range.mp hi'.1
      have hjn := Finset.mem_range.mp hj'.1
      have hfij : f i ≠ f j := fun h => hij (hinj i hin j hjn h)
      rw [hadj i hin j hjn]
      exact hC.1 (f i) hi'.2 (f j) hj'.2 hfij
    have hSr : S ⊆ Finset.range n := Finset.filter_subset _ _
    have himg : S.image f = C := by
      apply Finset.Subset.antisymm
      · intro a ha
        obtain ⟨i, hi, hia⟩ := Finset.mem_image.mp ha
        rw [← hia]
        exact (Finset.mem_filter.mp hi).2
      · intro v hv
        obtain ⟨i, hin, hfi⟩ := hsurj v (Finset.mem_range.mp (hCr hv))
        refine Finset.mem_image.mpr ⟨i, ?_, hfi⟩
        refine Finset.mem_filter.mpr ⟨Finset.mem_range.mpr hin, ?_⟩
        rw [hfi]
        exact hv
    have hcardeq : S.card = C.card := by
      rw [← himg]
      symm
      apply Finset.card_image_of_injOn
      intro i hi j hj hij
      exact hinj i (Finset.mem_range.mp (hSr hi)) j
        (Finset.mem_range.mp (hSr hj)) hij
    rw [← hCcard, ← hcardeq]
    exact card_le_omegaA hSclq hSr

theorem BBMC_correct (g : Graph) (hwf : g.WFb) :
    g.is_clique (BBMC_find_maximum_clique g) ∧
    (BBMC_find_maximum_clique g).card = g.omega := by
  have hperm : (bbVl g).Perm (List.range g.n) :=
    insSortBy_perm (bbmcPrec g) (List.range g.n)
  have hlen : (bbVl g).length = g.n :=
    hperm.length_eq.trans (List.length_range g.n)
  have hndVl : (bbVl g).Nodup := hperm.nodup_iff.mpr (List.nodup_range g.n)
  have hmemVl : ∀ v, v ∈ bbVl g ↔ v < g.n :=
    fun v => hperm.mem_iff.trans List.mem_range
  have hmaps : ∀ i, i < g.n → (bbVl g).getD i 0 < g.n := by
    intro i hi
    have hi' : i < (bbVl g).length := by rw [hlen]; exact hi
    rw [List.getD_eq_getElem (bbVl g) 0 hi']
    exact (hmemVl _).mp (List.getElem_mem hi')
  have hinj : ∀ i, i < g.n → ∀ j, j < g.n →
      (bbVl g).getD i 0 = (bbVl g).getD j 0 → i = j := by
    intro i hi j hj h
    have hi' : i < (bbVl g).length := by rw [hlen]; exact hi
    have hj' : j < (bbVl g).length := by rw [hlen]; exact hj
    rw [List.getD_eq_getElem (bbVl g) 0 hi',
      List.getD_eq_getElem (bbVl g) 0 hj'] at h
    exact (List.Nodup.getElem_inj_iff hndVl).mp h
  have hsurj : ∀ v, v < g.n → ∃ i, i < g.n ∧ (bbVl g).getD i 0 = v := by
    intro v hv
    obtain ⟨i, hi, hival⟩ := List.mem_iff_getElem.mp ((hmemVl v).mpr hv)
    refine ⟨i, by rw [← hlen]; exact hi, ?_⟩
    rw [List.getD_eq_getElem (bbVl g) 0 hi]
    exact hival
  have hadjBr : ∀ i, i < g.n → ∀ j, j < g.n →
      adjB g (bbVl g) i j = g.has_edge ((bbVl g).getD i 0) ((bbVl g).getD j 0) := by
    intro i hi j hj
    unfold adjB
    rw [if_pos ⟨by rw [hlen]; exact hi, by rw [hlen]; exact hj⟩]
  have hsymB : ∀ a b, adjB g (bbVl g) a b = adjB g (bbVl g) b a := by
    intro a b
    unfold adjB
    by_cases h : a < (bbVl g).length ∧ b < (bbVl g).length
    · rw [if_pos h, if_pos ⟨h.2, h.1⟩]
      exact Graph.has_edge_symm hwf _ _
    · rw [if_neg h, if_neg (fun h' => h ⟨h'.2, h'.1⟩)]
  have hirrB : ∀ a, a < g.n → adjB g (bbVl g) a a = false := by
    intro a ha
    unfold adjB
    rw [if_pos ⟨by rw [hlen]; exact ha, by rw [hlen]; exact ha⟩]
    exact Graph.has_edge_irrefl hwf _
  have hsound := bbSearch_sound (adjB g (bbVl g)) g.n hsymB (g.n + 1) ∅
    (Finset.range g.n) ∅ AClique.empty (Finset.empty_subset _)
    (Finset.Subset.refl _)
    (fun j _ c hc => absurd hc (Finset.not_mem_empty c))
    AClique.empty (Finset.empty_subset _)
  have hclq : g.is_clique (BBMC_find_maximum_clique g) := by
    intro a ha b hb hab
    obtain ⟨i, hi, hia⟩ := Finset.mem_image.mp ha
    obtain ⟨j, hj, hjb⟩ := Finset.mem_image.mp hb
    have hin : i < g.n := Finset.mem_range.mp (hsound.2 hi)
    have hjn : j < g.n := Finset.mem_range.mp (hsound.2 hj)
    have hij : i ≠ j := by
      intro h
      rw [h, hjb] at hia
      exact hab hia.symm
    rw [← hia, ← hjb, ← hadjBr i hin j hjn]
    exact hsound.1 i hi j hj hij
  refine ⟨hclq, ?_⟩
  have hcard_img : (BBMC_find_maximum_clique g).card =
      (bbSearch (adjB g (bbVl g)) g.n (g.n + 1) ∅ (Finset.range g.n) ∅).card := by
    apply Finset.card_image_of_injOn
    intro i hi j hj hij
    exact hinj i (Finset.mem_range.mp (hsound.2 hi)) j
      (Finset.mem_range.mp (hsound.2 hj)) hij
  obtain ⟨C, hC, hCcard⟩ :=
    @omegaA_exists_maximal g.n (adjB g (bbVl g))
  have hge := bbSearch_complete (adjB g (bbVl g)) g.n hsymB hirrB (g.n + 1) ∅
    (Finset.range g.n) ∅ (by rw [Finset.card_range]) (Finset.Subset.refl _)
    (Finset.empty_subset _)
    (fun j _ c hc => absurd hc (Finset.not_mem_empty c))
    C hC (Finset.empty_subset _)
    (by rw [Finset.sdiff_empty]; exact hC.2.1)
  have hle := @card_le_omegaA g.n (adjB g (bbVl g)) _
    hsound.1 hsound.2
  have homega := omegaA_transfer g.n (adjB g (bbVl g)) g.has_edge
    (fun i => (bbVl g).getD i 0) hmaps hinj hsurj hadjBr
  rw [hcard_img]
  show _ = omegaA g.n g.has_edge
  omega

/-- **C1.** For every well-formed graph, each of the six exact solver
variants — basic Bron–Kerbosch, Tomita, DegeneracyBK, Ostergard,
CPUOptimized and BBMC — returns a vertex set `K` with `is_clique(G, K)`
and `|K| = ω(G)`. -/
theorem c1_exact_solvers_correct (g : Graph) (hwf : g.WFb) :
    (g.is_clique (BronKerbosch_find_maximum_clique g) ∧
      (BronKerbosch_find_maximum_clique g).card = g.omega) ∧
    (g.is_clique (TomitaAlgorithm_find_maximum_clique g) ∧
      (TomitaAlgorithm_find_maximum_clique g).card = g.omega) ∧
    (g.is_clique (DegeneracyBK_find_maximum_clique g) ∧
      (DegeneracyBK_find_maximum_clique g).card = g.omega) ∧
    (g.is_clique (OstergardAlgorithm_find_maximum_clique g) ∧
      (OstergardAlgorithm_find_maximum_clique g).card = g.omega) ∧
    (g.is_clique (CPUOptimized_find_maximum_clique g) ∧
      (CPUOptimized_find_maximum_clique g).card = g.omega) ∧
    (g.is_clique (BBMC_find_maximum_clique g) ∧
      (BBMC_find_maximum_clique g).card = g.omega) :=
  ⟨BronKerbosch_correct g hwf, TomitaAlgorithm_correct g hwf,
   DegeneracyBK_correct g hwf, Ostergard_correct g hwf,
   CPUOptimized_correct g hwf, BBMC_correct g hwf⟩

theorem c1_exact_solvers_correct_witness :
    triG.WFb ∧
    ((triG.is_clique (BronKerbosch_find_maximum_clique triG) ∧
      (BronKerbosch_find_maximum_clique triG).card = triG.omega) ∧
    (triG.is_clique (TomitaAlgorithm_find_maximum_clique triG) ∧
      (TomitaAlgorithm_find_maximum_clique triG).card = triG.omega) ∧
    (triG.is_clique (DegeneracyBK_find_maximum_clique triG) ∧
      (DegeneracyBK_find_maximum_clique triG).card = triG.omega) ∧
    (triG.is_clique (OstergardAlgorithm_find_maximum_clique triG) ∧
      (OstergardAlgorithm_find_maximum_clique triG).card = triG.omega) ∧
    (triG.is_clique (CPUOptimized_find_maximum_clique triG) ∧
      (CPUOptimized_find_maximum_clique triG).card = triG.omega) ∧
    (triG.is_clique (BBMC_find_maximum_clique triG) ∧
      (BBMC_find_maximum_clique triG).card = triG.omega)) :=
  ⟨by decide, c1_exact_solvers_correct triG (by decide)⟩
